import Mathlib

/-!
# Maximal clique enumeration (NetworKit `MaximalCliques`)

A shallow embedding of `networkit/cpp/clique/MaximalCliques.cpp` together with the
parts of `src/graph/Graph.h` it relies on, followed by a verification of the
enumeration: the driver `run`, the recursive enumerator `tomita`, the pivot
selector `findPivot` and the swap primitive of the partition array.

Conventions of the embedding
* `node`, `index` and `count` are non-negative machine integers; they are modelled
  by `Nat`, a vector by a `List`, a read `v[i]` by `List.getD v i 0` and a
  write `v[i] = a` by `List.set v i a`.
* A by-reference parameter is passed in and handed back.
* `tomita` is recursive; the embedding recurses on an explicit depth budget and
  answers `none` when the budget is used up. The theorems show that a budget
  of the number of nodes always suffices.
-/

namespace NetworKit

/-! ## Graph (src/graph/Graph.h) -/

/-- The data members of `Graph` that the enumeration reads: the node count `n`, the
upper bound `z` of node ids, the `exists` flags (field `exist`) and the adjacency
arrays `adja`, in which a deleted slot holds the sentinel `none`. -/
structure Graph where
  n : Nat
  z : Nat
  exist : List Bool
  adja : List (List (Option Nat))

/-- Accessor `Graph::numberOfNodes`. -/
def Graph.numberOfNodes (G : Graph) : Nat := G.n

/-- Accessor `Graph::upperNodeIdBound`. -/
def Graph.upperNodeIdBound (G : Graph) : Nat := G.z

/-- Accessor `Graph::hasNode`: the `exists` flag of `u`. -/
def Graph.hasNode (G : Graph) (u : Nat) : Bool := G.exist.getD u false

/-- Iterator `Graph::forNeighborsOf`: the entries of `adja[u]` other than the sentinel,
in storage order; the handler is applied to them one after the other. -/
def Graph.forNeighborsOf (G : Graph) (u : Nat) : List Nat :=
  (G.adja.getD u []).filterMap id

/-- Modelled from the spec: `Graph::hasEdge` is only declared in Graph.h (its body
is in Graph.cpp); it checks whether the undirected edge `{u,v}` exists, that is whether
`v` is met when the neighbours of `u` are iterated. -/
def Graph.hasEdge (G : Graph) (u v : Nat) : Bool := decide (v ∈ G.forNeighborsOf u)

/-- The node ids of `G` in increasing order: the order of `Graph::forNodes`. -/
def Graph.nodes (G : Graph) : List Nat := (List.range G.z).filter G.hasNode

/-! ## StaticOutGraph -/

/-- Modelled from the spec: the class `StaticOutGraph` is declared in
MaximalCliques.h, which is not among the sources. It is built once per run and
stores, for every node, the list of its out-neighbours. -/
structure StaticOutGraph where
  edges : List (List Nat)

/-- Modelled from the spec: the constructor `StaticOutGraph(G, pxlookup)`. For every
undirected edge the arc goes from the endpoint with the smaller ordering position to
the one with the larger: the out-neighbours of `u` are its neighbours `v` with
`pxlookup[u] < pxlookup[v]`. -/
def StaticOutGraph.build (G : Graph) (pxlookup : List Nat) : StaticOutGraph :=
  ⟨(List.range G.upperNodeIdBound).map fun u =>
    (G.forNeighborsOf u).filter fun v => decide (pxlookup.getD u 0 < pxlookup.getD v 0)⟩

/-- Modelled from the spec: `StaticOutGraph::forOutEdgesOf` iterates the out-neighbours
of a node. -/
def StaticOutGraph.forOutEdgesOf (o : StaticOutGraph) (u : Nat) : List Nat :=
  o.edges.getD u []

/-- Modelled from the spec: `StaticOutGraph::hasNeighbor(u, v)` tests whether `v` is an
out-neighbour of `u`. -/
def StaticOutGraph.hasNeighbor (o : StaticOutGraph) (u v : Nat) : Bool :=
  decide (v ∈ o.forOutEdgesOf u)

/-! ## Partition array and the swap primitive (MaximalCliques.cpp, lines 11-24) -/

/-- The partition array `pxvector` with its inverse map `pxlookup`. -/
structure PX where
  pxvector : List Nat
  pxlookup : List Nat

/-- The call `SwapFunctor::operator()(u, pos)`. -/
def swapNodeToPos (s : PX) (u pos : Nat) : PX :=
  let pxvec2 := s.pxvector.getD pos 0
  let i := s.pxlookup.getD u 0
  -- std::swap(pxvector[pxlookup[u]], pxvector[pos])
  let tmp := s.pxvector.getD i 0
  let vec := (s.pxvector.set i pxvec2).set pos tmp
  -- pxlookup[pxvec2] = pxlookup[u]; pxlookup[u] = pos
  let look := (s.pxlookup.set pxvec2 i).set u pos
  ⟨vec, look⟩

/-! ## Pivot selection (MaximalCliques.cpp, lines 249-300) -/

/-- The statement `++pivotNeighbors[i]`. -/
def incr (pn : List Nat) (i : Nat) : List Nat := pn.set i (pn.getD i 0 + 1)

/-- The handler of lines 257-261, applied to one out-neighbour `v` of the node at
offset `i`. -/
def pivotCountX (s : PX) (xpbound pbound i : Nat) (pn : List Nat) (v : Nat) : List Nat :=
  if s.pxlookup.getD v 0 ≥ xpbound ∧ s.pxlookup.getD v 0 < pbound then incr pn i else pn

/-- Step 1 of `findPivot` (lines 255-265): the loop over the offsets of X, run for `k`
more rounds from offset `i`. `Sum.inl u` is the early `return u`. -/
def pivotLoopX (out : StaticOutGraph) (s : PX) (xbound xpbound pbound : Nat) :
    Nat → Nat → List Nat → Sum Nat (List Nat)
  | 0, _, pn => Sum.inr pn
  | k + 1, i, pn =>
    let u := s.pxvector.getD (i + xbound) 0
    let pn1 := (out.forOutEdgesOf u).foldl (pivotCountX s xpbound pbound i) pn
    if pn1.getD i 0 = pbound - xpbound then Sum.inl u
    else pivotLoopX out s xbound xpbound pbound k (i + 1) pn1

/-- The handler of lines 272-281, applied to one out-neighbour `v` of the node at
offset `i`. -/
def pivotCountP (s : PX) (xbound xpbound pbound i : Nat) (pn : List Nat) (v : Nat) : List Nat :=
  let neighborPos := s.pxlookup.getD v 0
  if neighborPos ≥ xbound ∧ neighborPos < pbound then
    let pn1 := incr pn (neighborPos - xbound)
    if neighborPos ≥ xpbound then incr pn1 i else pn1
  else pn

/-- Step 2 of `findPivot` (lines 270-282): the loop over the offsets of P, run for `k`
more rounds from offset `i`. -/
def pivotLoopP (out : StaticOutGraph) (s : PX) (xbound xpbound pbound : Nat) :
    Nat → Nat → List Nat → List Nat
  | 0, _, pn => pn
  | k + 1, i, pn =>
    let u := s.pxvector.getD (i + xbound) 0
    pivotLoopP out s xbound xpbound pbound k (i + 1)
      ((out.forOutEdgesOf u).foldl (pivotCountP s xbound xpbound pbound i) pn)

/-- Step 3 of `findPivot` (lines 288-293): the scan for the maximum, run for `k` more
rounds from offset `i`, carrying `(maxval, maxnode)`. -/
def pivotLoopMax (s : PX) (xbound : Nat) (pn : List Nat) : Nat → Nat → Nat × Nat → Nat × Nat
  | 0, _, m => m
  | k + 1, i, m =>
    if pn.getD i 0 > m.1 then
      pivotLoopMax s xbound pn k (i + 1) (pn.getD i 0, s.pxvector.getD (i + xbound) 0)
    else pivotLoopMax s xbound pn k (i + 1) m

/-- The member function `MaximalCliques::findPivot`. -/
def findPivot (out : StaticOutGraph) (s : PX) (xbound xpbound pbound : Nat) : Nat :=
  let pivotNeighbors := List.replicate (pbound - xbound) 0
  match pivotLoopX out s xbound xpbound pbound (xpbound - xbound) 0 pivotNeighbors with
  | Sum.inl u => u
  | Sum.inr pn1 =>
    let pn2 := pivotLoopP out s xbound xpbound pbound
      (pn1.length - (xpbound - xbound)) (xpbound - xbound) pn1
    (pivotLoopMax s xbound pn2 (pn2.length - 1) 1
      (pn2.getD 0 0, s.pxvector.getD xbound 0)).2

/-! ## The recursive enumerator (MaximalCliques.cpp, lines 129-247) -/

/-- The handler of lines 156-161: marks the out-neighbour `v` of the pivot when it
lies in P. -/
def markPivotNeighbor (s : PX) (xpbound pbound : Nat) (pn : List Bool) (v : Nat) : List Bool :=
  let vpos := s.pxlookup.getD v 0
  if vpos ≥ xpbound ∧ vpos < pbound then pn.set (vpos - xpbound) true else pn

/-- The body of the loop of lines 165-173 for position `i`. -/
def toCheckStep (out : StaticOutGraph) (s : PX) (u xpbound : Nat) (pn : List Bool)
    (toCheck : List Nat) (i : Nat) : List Nat :=
  if !pn.getD (i - xpbound) false then
    let p := s.pxvector.getD i 0
    if !out.hasNeighbor p u then toCheck ++ [p] else toCheck
  else toCheck

/-- Lines 152-173: the nodes of P that are not neighbours of the pivot `u`. -/
def buildToCheck (out : StaticOutGraph) (s : PX) (u xpbound pbound : Nat) : List Nat :=
  let pivotNeighbors :=
    (out.forOutEdgesOf u).foldl (markPivotNeighbor s xpbound pbound)
      (List.replicate (pbound - xpbound) false)
  (List.range' xpbound (pbound - xpbound)).foldl
    (toCheckStep out s u xpbound pivotNeighbors) []

/-- The partition array together with the counters `xcount` and `pcount` of one
partition pass. -/
structure Part where
  px : PX
  xcount : Nat
  pcount : Nat

/-- The handler of lines 180-188, applied to one out-neighbour `v` of the candidate. -/
def collectOut (xbound xpbound pbound : Nat) (a : Part) (v : Nat) : Part :=
  if a.px.pxlookup.getD v 0 < xpbound ∧ a.px.pxlookup.getD v 0 ≥ xbound then
    ⟨swapNodeToPos a.px v (xpbound - a.xcount - 1), a.xcount + 1, a.pcount⟩
  else if a.px.pxlookup.getD v 0 ≥ xpbound ∧ a.px.pxlookup.getD v 0 < pbound then
    ⟨swapNodeToPos a.px v (xpbound + a.pcount), a.xcount, a.pcount + 1⟩
  else a

/-- The loop of lines 192-205, at most `k` more rounds from position `i`; it leaves
through `i < xpbound` failing or through the `break`. -/
def collectX (out : StaticOutGraph) (pxveci xpbound : Nat) : Nat → Nat → Part → Part
  | 0, _, a => a
  | k + 1, i, a =>
    if i < xpbound then
      if i = xpbound - a.xcount then a
      else
        let x := a.px.pxvector.getD i 0
        if out.hasNeighbor x pxveci then
          collectX out pxveci xpbound k i
            ⟨swapNodeToPos a.px x (xpbound - a.xcount - 1), a.xcount + 1, a.pcount⟩
        else collectX out pxveci xpbound k (i + 1) a
    else a

/-- The loop of lines 209-216, run for `k` more rounds from position `i`. -/
def collectP (out : StaticOutGraph) (pxveci xpbound : Nat) : Nat → Nat → Part → Part
  | 0, _, a => a
  | k + 1, i, a =>
    let p := a.px.pxvector.getD i 0
    if out.hasNeighbor p pxveci then
      collectP out pxveci xpbound k (i + 1)
        ⟨swapNodeToPos a.px p (xpbound + a.pcount), a.xcount, a.pcount + 1⟩
    else collectP out pxveci xpbound k (i + 1) a

/-- Lines 176-216: the three passes that group the neighbours of the candidate
`pxveci` around `xpbound`. The loop of lines 192-205 makes at most
`xpbound - xbound` rounds before it leaves. -/
def partitionFor (out : StaticOutGraph) (s : PX) (pxveci xbound xpbound pbound : Nat) : Part :=
  let a1 := (out.forOutEdgesOf pxveci).foldl (collectOut xbound xpbound pbound) ⟨s, 0, 0⟩
  let a2 := collectX out pxveci xpbound (xpbound - xbound + 1) xbound a1
  collectP out pxveci xpbound (pbound - (xpbound + a2.pcount)) (xpbound + a2.pcount) a2

/-- The state that `tomita` works on: the partition array and the stack `r`, both
passed by reference, and the member `result`. -/
structure Mem where
  px : PX
  r : List Nat
  result : List (List Nat)

/-- The state of the loop of lines 175-233: the memory, the moving boundary `xpbound`
and the list `movedNodes`. -/
structure Branch where
  mem : Mem
  xpbound : Nat
  movedNodes : List Nat

/-- The loop of lines 175-233 over the candidates `toCheck`; `rec` is the recursive
call of line 225. -/
def branchLoop (rec : Mem → Nat → Nat → Nat → Option Mem) (out : StaticOutGraph)
    (xbound pbound : Nat) : List Nat → Branch → Option Branch
  | [], b => some b
  | pxveci :: rest, b =>
    let a := partitionFor out b.mem.px pxveci xbound b.xpbound pbound
    -- r.push_back(pxveci); tomita(...)
    match rec ⟨a.px, b.mem.r ++ [pxveci], b.mem.result⟩
        (b.xpbound - a.xcount) b.xpbound (b.xpbound + a.pcount) with
    | none => none
    | some m =>
      -- r.pop_back(); swapNodeToPos(pxveci, xpbound); xpbound += 1
      branchLoop rec out xbound pbound rest
        ⟨⟨swapNodeToPos m.px pxveci b.xpbound, m.r.dropLast, m.result⟩,
          b.xpbound + 1, b.movedNodes ++ [pxveci]⟩

/-- The body of the loop of lines 235-239: moves `v` back from X to P. -/
def moveBack (a : PX × Nat) (v : Nat) : PX × Nat :=
  (swapNodeToPos a.1 v (a.2 - 1), a.2 - 1)

/-- The member function `MaximalCliques::tomita`, with a budget for the depth of the
recursion as first argument after the out-graph. -/
def tomita (out : StaticOutGraph) : Nat → Mem → Nat → Nat → Nat → Option Mem
  | 0, _, _, _, _ => none
  | fuel + 1, m, xbound, xpbound, pbound =>
    if xbound = pbound then some ⟨m.px, m.r, m.result ++ [m.r]⟩
    else if xpbound = pbound then some m
    else
      let u := findPivot out m.px xbound xpbound pbound
      let toCheck := buildToCheck out m.px u xpbound pbound
      match branchLoop (tomita out fuel) out xbound pbound toCheck ⟨m, xpbound, []⟩ with
      | none => none
      | some b =>
        some ⟨(b.movedNodes.foldl moveBack (b.mem.px, b.xpbound)).1, b.mem.r, b.mem.result⟩

/-! ## The driver (MaximalCliques.cpp, lines 29-127) -/

/-- The members of a `MaximalCliques` object: the graph, the list `result` and the
flag `hasRun` of the algorithm base class. -/
structure MaximalCliques where
  G : Graph
  result : List (List Nat)
  hasRun : Bool

/-- The constructor `MaximalCliques(G)`. -/
def MaximalCliques.new (G : Graph) : MaximalCliques := ⟨G, [], false⟩

/-- Modelled from the spec: `assureFinished` belongs to the algorithm base class, which
is not among the sources; calling a result accessor before a completed run is an
error. -/
def MaximalCliques.assureFinished (A : MaximalCliques) : Except String Unit :=
  if A.hasRun then Except.ok () else Except.error "Error, run must be called first"

/-- The member function `MaximalCliques::getCliques`. -/
def MaximalCliques.getCliques (A : MaximalCliques) : Except String (List (List Nat)) :=
  match A.assureFinished with
  | Except.error e => Except.error e
  | Except.ok _ => Except.ok A.result

/-- The body of the loop of lines 54-58. -/
def initStep (a : PX × Nat) (u : Nat) : PX × Nat :=
  (⟨a.1.pxvector.set a.2 u, a.1.pxlookup.set u a.2⟩, a.2 + 1)

/-- Lines 48-58: the partition array is filled with the ordering. -/
def initPX (G : Graph) (orderedNodes : List Nat) : PX :=
  (orderedNodes.foldl initStep
    (⟨List.replicate G.numberOfNodes 0, List.replicate G.upperNodeIdBound 0⟩, 0)).1

/-- The handler of lines 85-102, applied to one neighbour `v` of the driver node. -/
def neighborStep (xpbound : Nat) (a : Part) (v : Nat) : Part :=
  if a.px.pxlookup.getD v 0 < xpbound then
    ⟨swapNodeToPos a.px v (xpbound - a.xcount - 1), a.xcount + 1, a.pcount⟩
  else
    ⟨swapNodeToPos a.px v (xpbound + a.pcount), a.xcount, a.pcount + 1⟩

/-- The state of the driver loop: the partition array, the boundary `xpbound` and the
member `result`. -/
structure Driver where
  px : PX
  xpbound : Nat
  result : List (List Nat)

/-- The loop of lines 71-124 over the (rest of the) ordering. -/
def driverLoop (G : Graph) (out : StaticOutGraph) (fuel : Nat) : List Nat → Driver → Option Driver
  | [], d => some d
  | u :: rest, d =>
    let s1 := swapNodeToPos d.px u (d.xpbound - 1)
    let a := (G.forNeighborsOf u).foldl (neighborStep d.xpbound) ⟨s1, 0, 0⟩
    match tomita out fuel ⟨a.px, [u], d.result⟩
        (d.xpbound - a.xcount) d.xpbound (d.xpbound + a.pcount) with
    | none => none
    | some m => driverLoop G out fuel rest ⟨m.px, d.xpbound + 1, m.result⟩

/-- Lines 39-41 of `run`: `hasRun = false; result.clear()`. -/
def MaximalCliques.runEnter (A : MaximalCliques) : MaximalCliques :=
  ⟨A.G, [], false⟩

/-- Lines 43-124 of `run`: `orderedNodes` is the node order delivered by the core
decomposition. The flag `hasRun` is not written. -/
def MaximalCliques.runLoop (fuel : Nat) (A : MaximalCliques) (orderedNodes : List Nat) :
    Option MaximalCliques :=
  let s := initPX A.G orderedNodes
  let outGraph := StaticOutGraph.build A.G s.pxlookup
  match driverLoop A.G outGraph fuel orderedNodes ⟨s, 1, A.result⟩ with
  | none => none
  | some d => some ⟨A.G, d.result, A.hasRun⟩

/-- The member function `MaximalCliques::run`; `fuel` is the budget for the depth of
the recursion of `tomita`, and `none` means that it did not suffice. -/
def MaximalCliques.run (fuel : Nat) (A : MaximalCliques) (orderedNodes : List Nat) :
    Option MaximalCliques :=
  match (A.runEnter).runLoop fuel orderedNodes with
  | none => none
  | some B => some ⟨B.G, B.result, true⟩

/-! ## Vocabulary of the verification -/

/-- The position that the inverse map records for node `v`: `pxlookup[v]`. -/
def pos (s : PX) (v : Nat) : Nat := s.pxlookup.getD v 0

/-- The node stored at position `i`: `pxvector[i]`. -/
def nodeAt (s : PX) (i : Nat) : Nat := s.pxvector.getD i 0

/-- The bijection invariant of the partition array over the node set `V`: every node
of `V` is stored at the position the inverse map records for it, and every slot holds
a node of `V` whose recorded position is that slot. -/
structure Inv (V : Nat → Prop) (s : PX) : Prop where
  look : ∀ v, V v → v < s.pxlookup.length ∧ pos s v < s.pxvector.length ∧ nodeAt s (pos s v) = v
  vec : ∀ i, i < s.pxvector.length → V (nodeAt s i) ∧ pos s (nodeAt s i) = i

/-- The state `t` has the same window contents as `s`: the nodes of X = `[xb, xpb)` and
of P = `[xpb, pb)` are the same sets, and nodes outside the window have not moved. -/
structure Same (V : Nat → Prop) (s t : PX) (xb xpb pb : Nat) : Prop where
  len : t.pxvector.length = s.pxvector.length
  inX : ∀ v, V v → ((xb ≤ pos t v ∧ pos t v < xpb) ↔ (xb ≤ pos s v ∧ pos s v < xpb))
  inP : ∀ v, V v → ((xpb ≤ pos t v ∧ pos t v < pb) ↔ (xpb ≤ pos s v ∧ pos s v < pb))
  out : ∀ v, V v → (pos s v < xb ∨ pb ≤ pos s v) → pos t v = pos s v

/-- Relative to `s` with boundary `xpb`, in `t` with boundary `xpb2` exactly the nodes
of `M` have moved from P to X. -/
structure Moved (V : Nat → Prop) (s t : PX) (xb xpb pb xpb2 : Nat) (M : List Nat) : Prop where
  len : t.pxvector.length = s.pxvector.length
  inX : ∀ v, V v → ((xb ≤ pos t v ∧ pos t v < xpb2) ↔ ((xb ≤ pos s v ∧ pos s v < xpb) ∨ v ∈ M))
  inP : ∀ v, V v → ((xpb2 ≤ pos t v ∧ pos t v < pb) ↔ ((xpb ≤ pos s v ∧ pos s v < pb) ∧ v ∉ M))
  out : ∀ v, V v → (pos s v < xb ∨ pb ≤ pos s v) → pos t v = pos s v

/-- The invariant of a partition pass over the window `(xb, xpb, pb)` started in state
`s0`: the window contents are those of `s0`, and the nodes of the window that satisfy
`C` are exactly those at the positions `[xpb - xcount, xpb + pcount)`. -/
structure PInv (V : Nat → Prop) (s0 : PX) (xb xpb pb : Nat) (C : Nat → Prop) (a : Part) : Prop where
  inv : Inv V a.px
  same : Same V s0 a.px xb xpb pb
  hx : xb + a.xcount ≤ xpb
  hp : xpb + a.pcount ≤ pb
  hpb : pb ≤ a.px.pxvector.length
  col : ∀ v, V v → xb ≤ pos a.px v → pos a.px v < pb →
    (C v ↔ (xpb - a.xcount ≤ pos a.px v ∧ pos a.px v < xpb + a.pcount))

/-- Adjacency as the out-graph records it: an arc in either direction. -/
def oadj (out : StaticOutGraph) (u v : Nat) : Prop :=
  v ∈ out.forOutEdgesOf u ∨ u ∈ out.forOutEdgesOf v

/-- The out-graph is well formed over the node set `V`: the out-list of a node has no
repetition, holds nodes of `V` only, and does not hold the node itself. -/
structure OutOK (V : Nat → Prop) (out : StaticOutGraph) : Prop where
  nd : ∀ u, V u → (out.forOutEdgesOf u).Nodup
  mem : ∀ u, V u → ∀ v ∈ out.forOutEdgesOf u, V v
  irrefl : ∀ u, V u → u ∉ out.forOutEdgesOf u

/-- The node set `T` is a clique inside `P` that no node of `X ∪ P` outside `T` extends. -/
structure Qual (adj : Nat → Nat → Prop) (X P T : Nat → Prop) : Prop where
  sub : ∀ v, T v → P v
  clique : ∀ u v, T u → T v → u ≠ v → adj u v
  maxi : ∀ w, (X w ∨ P w) → ¬ T w → ∃ v, T v ∧ ¬ adj w v

/-- The lists `S` and `T` have the same elements. -/
def SameSet (S T : List Nat) : Prop := ∀ v, v ∈ S ↔ v ∈ T

/-- The list `L` enumerates, each once, the cliques inside `P` that are maximal with
respect to `X ∪ P`. -/
structure Enum (adj : Nat → Nat → Prop) (X P : Nat → Prop) (L : List (List Nat)) : Prop where
  sound : ∀ S ∈ L, S.Nodup ∧ Qual adj X P (fun v => v ∈ S)
  complete : ∀ T : Nat → Prop, Qual adj X P T → ∃ S ∈ L, ∀ v, v ∈ S ↔ T v
  distinct : L.Pairwise (fun S T => ¬ SameSet S T)

/-- The list `L` enumerates, each once, those qualified cliques that meet the candidate
list `cs`. -/
structure LoopEnum (adj : Nat → Nat → Prop) (X P : Nat → Prop) (cs : List Nat)
    (L : List (List Nat)) : Prop where
  sound : ∀ S ∈ L, S.Nodup ∧ Qual adj X P (fun v => v ∈ S)
  complete : ∀ T : Nat → Prop, Qual adj X P T → (∃ c ∈ cs, T c) → ∃ S ∈ L, ∀ v, v ∈ S ↔ T v
  distinct : L.Pairwise (fun S T => ¬ SameSet S T)

/-- What a call `tomita(xb, xpb, pb)` from memory `m` achieves when it ends in `m2`: the
bijection invariant holds, the window contents and the stack are those of `m`, and the
entries appended to `result` are the stack extended by each clique of P that is maximal
with respect to `X ∪ P`, each once. -/
structure TomitaPost (V : Nat → Prop) (out : StaticOutGraph) (m : Mem) (xb xpb pb : Nat)
    (m2 : Mem) : Prop where
  inv : Inv V m2.px
  same : Same V m.px m2.px xb xpb pb
  r : m2.r = m.r
  enum : ∃ L : List (List Nat), m2.result = m.result ++ L.map (fun S => m.r ++ S) ∧
    Enum (oadj out) (fun w => V w ∧ xb ≤ pos m.px w ∧ pos m.px w < xpb)
      (fun w => V w ∧ xpb ≤ pos m.px w ∧ pos m.px w < pb) L

/-- The node set `T` is a maximal clique over the node set `V`: it is not empty, its
nodes are pairwise adjacent, and every node outside misses one of its nodes. -/
structure MaxClique (adj : Nat → Nat → Prop) (V T : Nat → Prop) : Prop where
  sub : ∀ v, T v → V v
  nonempty : ∃ v, T v
  clique : ∀ u v, T u → T v → u ≠ v → adj u v
  maxi : ∀ w, V w → ¬ T w → ∃ v, T v ∧ ¬ adj w v

/-- What the driver iterations for the nodes `rest` append to `result`, when `done` has
been processed before and `later` comes after: each entry is a maximal clique headed by
its driver node with the other nodes later in the ordering, every maximal clique
whose earliest node is in `rest` is met, and no two entries have the same node set. -/
structure DriverEnum (adj : Nat → Nat → Prop) (V : Nat → Prop) (done rest later : List Nat)
    (L : List (List Nat)) : Prop where
  sound : ∀ c ∈ L, ∃ (pre : List Nat) (u : Nat) (post S : List Nat),
    rest = pre ++ u :: post ∧ c = u :: S ∧ S.Nodup ∧ (∀ v ∈ S, v ∈ post ++ later) ∧
      MaxClique adj V (fun v => v ∈ u :: S)
  complete : ∀ T : Nat → Prop, MaxClique adj V T → (∀ v ∈ done, ¬ T v) → (∃ v ∈ rest, T v) →
    ∃ c ∈ L, ∀ v, v ∈ c ↔ T v
  distinct : L.Pairwise (fun S T => ¬ SameSet S T)

/-- The invariant of the driver loop when the nodes `done` of the ordering have been
processed: the partition array is a bijection, the boundary is one more than the number
of processed nodes, and the processed nodes fill the positions below that number. -/
structure DInv (V : Nat → Prop) (order done : List Nat) (d : Driver) : Prop where
  inv : Inv V d.px
  len : d.px.pxvector.length = order.length
  xpb : d.xpbound = done.length + 1
  proc : ∀ y, V y → (pos d.px y < done.length ↔ y ∈ done)

/-! ## Simple graphs, maximal cliques and sample graphs -/

/-- The graph is simple and undirected: `n` counts the nodes, and for every node the
neighbour list has no repetition, does not hold the node itself, and holds only nodes
that list the node in turn. -/
def Graph.Simple (G : Graph) : Prop :=
  G.n = G.nodes.length ∧
  ∀ u ∈ G.nodes, (G.forNeighborsOf u).Nodup ∧ u ∉ G.forNeighborsOf u ∧
    ∀ v ∈ G.forNeighborsOf u, v ∈ G.nodes ∧ u ∈ G.forNeighborsOf v

instance (G : Graph) : Decidable G.Simple :=
  inferInstanceAs (Decidable (G.n = G.nodes.length ∧
    ∀ u ∈ G.nodes, (G.forNeighborsOf u).Nodup ∧ u ∉ G.forNeighborsOf u ∧
      ∀ v ∈ G.forNeighborsOf u, v ∈ G.nodes ∧ u ∈ G.forNeighborsOf v))

/-- The node set `T` is a maximal clique of `G`: a non-empty set of nodes of `G`, any
two of them joined by an edge, such that every other node of `G` is not adjacent to
some node of `T`. -/
def Graph.IsMaximalClique (G : Graph) (T : Finset Nat) : Prop :=
  T.Nonempty ∧ (∀ v ∈ T, v ∈ G.nodes) ∧
  (∀ u ∈ T, ∀ v ∈ T, u ≠ v → G.hasEdge u v = true) ∧
  (∀ w ∈ G.nodes, w ∉ T → ∃ v ∈ T, G.hasEdge w v = false)

instance (G : Graph) (T : Finset Nat) : Decidable (G.IsMaximalClique T) :=
  inferInstanceAs (Decidable (T.Nonempty ∧ (∀ v ∈ T, v ∈ G.nodes) ∧
    (∀ u ∈ T, ∀ v ∈ T, u ≠ v → G.hasEdge u v = true) ∧
    (∀ w ∈ G.nodes, w ∉ T → ∃ v ∈ T, G.hasEdge w v = false)))

/-- The two-leg path 0 - 1 - 2. -/
def pathGraph : Graph :=
  ⟨3, 3, [true, true, true], [[some 1], [some 0, some 2], [some 1]]⟩

/-- The star with centre 0 and leaves 1, ..., k. -/
def starGraph (k : Nat) : Graph :=
  ⟨k + 1, k + 1, List.replicate (k + 1) true,
    ((List.range' 1 k).map some) :: List.replicate k [some 0]⟩

/-- The two disjoint triangles {0,1,2} and {3,4,5}. -/
def twoTriangles : Graph :=
  ⟨6, 6, [true, true, true, true, true, true],
    [[some 1, some 2], [some 0, some 2], [some 0, some 1],
     [some 4, some 5], [some 3, some 5], [some 3, some 4]]⟩

/-- The single edge {0,1}. -/
def edgeGraph : Graph := ⟨2, 2, [true, true], [[some 1], [some 0]]⟩

/-! ## Vocabulary for the partition array and the pivot -/

/-- The nodes stored at the positions `[a, b)` of the partition array, in position
order. -/
def seg (s : PX) (a b : Nat) : List Nat := (List.range' a (b - a)).map (nodeAt s)

/-- The bijection invariant in the form `pxvector[pxlookup[v]] == v` for every stored
node `v`, with both reads inside their vectors. -/
def Bijection (s : PX) : Prop :=
  ∀ v ∈ s.pxvector, v < s.pxlookup.length ∧ pos s v < s.pxvector.length ∧ nodeAt s (pos s v) = v

instance (s : PX) : Decidable (Bijection s) :=
  inferInstanceAs (Decidable (∀ v ∈ s.pxvector,
    v < s.pxlookup.length ∧ pos s v < s.pxvector.length ∧ nodeAt s (pos s v) = v))

/-- The out-graph stores every edge of a simple graph on `nodes` as exactly one arc: the
out-list of a node has no repetition, holds nodes only, not the node itself, and never a
node whose own out-list holds the node. -/
def OneArc (out : StaticOutGraph) (nodes : List Nat) : Prop :=
  ∀ u ∈ nodes, (out.forOutEdgesOf u).Nodup ∧ u ∉ out.forOutEdgesOf u ∧
    ∀ v ∈ out.forOutEdgesOf u, v ∈ nodes ∧ u ∉ out.forOutEdgesOf v

instance (out : StaticOutGraph) (nodes : List Nat) : Decidable (OneArc out nodes) :=
  inferInstanceAs (Decidable (∀ u ∈ nodes, (out.forOutEdgesOf u).Nodup ∧
    u ∉ out.forOutEdgesOf u ∧
    ∀ v ∈ out.forOutEdgesOf u, v ∈ nodes ∧ u ∉ out.forOutEdgesOf v))

/-- Adjacency of two nodes in the graph that the out-graph orients: an arc in either
direction. -/
def StaticOutGraph.adjacent (out : StaticOutGraph) (u v : Nat) : Bool :=
  out.hasNeighbor u v || out.hasNeighbor v u

/-- The reference count of the brute-force pivot: the number of nodes of
P = `[xpb, pb)` adjacent to `u`. -/
def windowDegree (out : StaticOutGraph) (s : PX) (xpb pb u : Nat) : Nat :=
  (seg s xpb pb).countP (fun p => out.adjacent u p)

/-- The count of the brute-force pivot: the maximum of `windowDegree` over the nodes of
the window `[xb, pb)`. -/
def maxWindowDegree (out : StaticOutGraph) (s : PX) (xb xpb pb : Nat) : Nat :=
  ((seg s xb pb).map (windowDegree out s xpb pb)).foldl max 0

/-- The number of out-neighbours of `u` stored in P = `[xpb, pb)`: the count that the
first pass of `findPivot` holds for a node of X when it tests for the early return. -/
def outDegree (out : StaticOutGraph) (s : PX) (xpb pb u : Nat) : Nat :=
  (out.forOutEdgesOf u).countP (fun v => decide (xpb ≤ pos s v ∧ pos s v < pb))

/-- The node set `T` lies in P = `[xpb, pb)`, is a clique, and no node of the window
`[xb, pb)` outside `T` is adjacent to every node of `T`. -/
def LocalMaxClique (out : StaticOutGraph) (s : PX) (xb xpb pb : Nat) (T : Finset Nat) : Prop :=
  (∀ v ∈ T, v ∈ seg s xpb pb) ∧
  (∀ u ∈ T, ∀ v ∈ T, u ≠ v → out.adjacent u v = true) ∧
  (∀ w ∈ seg s xb pb, w ∉ T → ∃ v ∈ T, out.adjacent w v = false)

/-- The graph with 0 nodes. -/
def emptyGraph : Graph := ⟨0, 0, [], []⟩

/-- A graph on eight nodes on which `run`, with the ordering 0, 1, ..., 7, reaches a call
of `findPivot` that returns early. -/
def tieGraph : Graph :=
  ⟨8, 8, List.replicate 8 true,
    [[some 2, some 5, some 3], [some 2, some 3, some 6, some 7],
     [some 0, some 1, some 3, some 4, some 5, some 6, some 7],
     [some 2, some 1, some 0, some 4, some 5], [some 2, some 3, some 5],
     [some 2, some 0, some 3, some 4], [some 2, some 1], [some 2, some 1]]⟩

/-- The out-graph that `run` builds for `tieGraph` and the ordering 0, 1, ..., 7. -/
def tieOut : StaticOutGraph :=
  StaticOutGraph.build tieGraph (initPX tieGraph [0, 1, 2, 3, 4, 5, 6, 7]).pxlookup

/-- The partition array at the call `tomita(2, 4, 5)` with stack 2, 5 that this run
reaches: X holds the nodes 4 and 0, P holds the node 3. -/
def tieState : PX := ⟨[2, 1, 4, 0, 3, 5, 6, 7], [3, 1, 0, 4, 2, 5, 6, 7]⟩

/-- The arguments of the recursive call that `run` reaches on `tieGraph` in the driver
iteration of node 2, for the second candidate of the outermost `tomita`: the driver
loop over the nodes 0 and 1, lines 72-102 for node 2, then lines 146-225 of `tomita`
with the first candidate completed (lines 176-230) and the second one partitioned (lines
176-216). -/
def tieCall : Option (PX × Nat × Nat × Nat) :=
  match driverLoop tieGraph tieOut 8 [0, 1]
      ⟨initPX tieGraph [0, 1, 2, 3, 4, 5, 6, 7], 1, []⟩ with
  | none => none
  | some d =>
    let a := (tieGraph.forNeighborsOf 2).foldl (neighborStep d.xpbound)
      ⟨swapNodeToPos d.px 2 (d.xpbound - 1), 0, 0⟩
    let xbound := d.xpbound - a.xcount
    let pbound := d.xpbound + a.pcount
    match buildToCheck tieOut a.px (findPivot tieOut a.px xbound d.xpbound pbound)
        d.xpbound pbound with
    | [p1, p2] =>
      let a1 := partitionFor tieOut a.px p1 xbound d.xpbound pbound
      match tomita tieOut 8 ⟨a1.px, [2, p1], d.result⟩ (d.xpbound - a1.xcount) d.xpbound
          (d.xpbound + a1.pcount) with
      | none => none
      | some m1 =>
        let a2 := partitionFor tieOut (swapNodeToPos m1.px p1 d.xpbound) p2 xbound
          (d.xpbound + 1) pbound
        some (a2.px, d.xpbound + 1 - a2.xcount, d.xpbound + 1, d.xpbound + 1 + a2.pcount)
    | _ => none

/-! ## Trace of a run

The functions of this section follow the control flow of `run` and `tomita` once more and
record, in order, the invocations of `tomita`, the positions handed to `swapNodeToPos`
and the values at the assertions of lines 221-224. The states are those of the functions
above; positions are recorded as integers, computed as the source writes them, so that
an unsigned subtraction that would wrap shows as a negative position. -/

/-- One record of the trace. -/
inductive Event where
  /-- An invocation of `tomita`, with the depth of the recursion, the window, the
  partition array and the stack `r` on entry. -/
  | call (depth xbound xpbound pbound : Nat) (px : PX) (r : List Nat)
  /-- A call `swapNodeToPos(v, pos)` made while the window `[lo, hi)` is active, on a
  partition array of the given size. -/
  | swap (lo hi size : Nat) (pos : Int)
  /-- The values at lines 221-224, before the recursive call for a candidate. -/
  | recurse (xbound xpbound pbound xcount pcount : Nat)
  /-- The depth budget of the embedding was used up: the trace is incomplete. -/
  | exhausted

/-- The position that the handler of lines 180-188 hands to `swapNodeToPos` for the
out-neighbour `v`, if any. -/
def collectOutSwaps (xbound xpbound pbound : Nat) (a : Part) (v : Nat) : List Int :=
  if a.px.pxlookup.getD v 0 < xpbound ∧ a.px.pxlookup.getD v 0 ≥ xbound then
    [(xpbound : Int) - a.xcount - 1]
  else if a.px.pxlookup.getD v 0 ≥ xpbound ∧ a.px.pxlookup.getD v 0 < pbound then
    [(xpbound : Int) + a.pcount]
  else []

/-- The positions handed to `swapNodeToPos` by the loop of lines 179-188. -/
def collectOutTrace (xbound xpbound pbound : Nat) : List Nat → Part → List Int
  | [], _ => []
  | v :: l, a =>
    collectOutSwaps xbound xpbound pbound a v ++
      collectOutTrace xbound xpbound pbound l (collectOut xbound xpbound pbound a v)

/-- The positions handed to `swapNodeToPos` by the loop of lines 192-205. -/
def collectXTrace (out : StaticOutGraph) (pxveci xpbound : Nat) : Nat → Nat → Part → List Int
  | 0, _, _ => []
  | k + 1, i, a =>
    if i < xpbound then
      if i = xpbound - a.xcount then []
      else
        let x := a.px.pxvector.getD i 0
        if out.hasNeighbor x pxveci then
          ((xpbound : Int) - a.xcount - 1) ::
            collectXTrace out pxveci xpbound k i
              ⟨swapNodeToPos a.px x (xpbound - a.xcount - 1), a.xcount + 1, a.pcount⟩
        else collectXTrace out pxveci xpbound k (i + 1) a
    else []

/-- The positions handed to `swapNodeToPos` by the loop of lines 209-216. -/
def collectPTrace (out : StaticOutGraph) (pxveci xpbound : Nat) : Nat → Nat → Part → List Int
  | 0, _, _ => []
  | k + 1, i, a =>
    let p := a.px.pxvector.getD i 0
    if out.hasNeighbor p pxveci then
      ((xpbound : Int) + a.pcount) ::
        collectPTrace out pxveci xpbound k (i + 1)
          ⟨swapNodeToPos a.px p (xpbound + a.pcount), a.xcount, a.pcount + 1⟩
    else collectPTrace out pxveci xpbound k (i + 1) a

/-- The positions handed to `swapNodeToPos` by the three passes of lines 176-216. -/
def partitionForTrace (out : StaticOutGraph) (s : PX) (pxveci xbound xpbound pbound : Nat) :
    List Int :=
  let a1 := (out.forOutEdgesOf pxveci).foldl (collectOut xbound xpbound pbound) ⟨s, 0, 0⟩
  let a2 := collectX out pxveci xpbound (xpbound - xbound + 1) xbound a1
  collectOutTrace xbound xpbound pbound (out.forOutEdgesOf pxveci) ⟨s, 0, 0⟩ ++
    collectXTrace out pxveci xpbound (xpbound - xbound + 1) xbound a1 ++
    collectPTrace out pxveci xpbound (pbound - (xpbound + a2.pcount)) (xpbound + a2.pcount) a2

/-- The records of the loop of lines 235-239, started with boundary `x`. -/
def moveBackTrace (lo hi size : Nat) : List Nat → Nat → List Event
  | [], _ => []
  | _ :: l, x => Event.swap lo hi size ((x : Int) - 1) :: moveBackTrace lo hi size l (x - 1)

/-- The records of the loop of lines 175-233; `recTrace` is the trace and `rec` the
effect of the recursive call of line 225. -/
def branchTrace (recTrace : Mem → Nat → Nat → Nat → List Event)
    (rec : Mem → Nat → Nat → Nat → Option Mem) (out : StaticOutGraph)
    (xbound pbound size : Nat) : List Nat → Branch → List Event
  | [], _ => []
  | pxveci :: rest, b =>
    let a := partitionFor out b.mem.px pxveci xbound b.xpbound pbound
    (partitionForTrace out b.mem.px pxveci xbound b.xpbound pbound).map
        (Event.swap xbound pbound size) ++
      Event.recurse xbound b.xpbound pbound a.xcount a.pcount ::
      recTrace ⟨a.px, b.mem.r ++ [pxveci], b.mem.result⟩
          (b.xpbound - a.xcount) b.xpbound (b.xpbound + a.pcount) ++
      match rec ⟨a.px, b.mem.r ++ [pxveci], b.mem.result⟩
          (b.xpbound - a.xcount) b.xpbound (b.xpbound + a.pcount) with
      | none => []
      | some m =>
        Event.swap xbound pbound size (b.xpbound : Int) ::
          branchTrace recTrace rec out xbound pbound size rest
            ⟨⟨swapNodeToPos m.px pxveci b.xpbound, m.r.dropLast, m.result⟩,
              b.xpbound + 1, b.movedNodes ++ [pxveci]⟩

/-- The trace of a call of `tomita` at recursion depth `depth`, with the depth budget
as first argument after the out-graph. -/
def tomitaTrace (out : StaticOutGraph) : Nat → Nat → Mem → Nat → Nat → Nat → List Event
  | 0, _, _, _, _, _ => [Event.exhausted]
  | fuel + 1, depth, m, xbound, xpbound, pbound =>
    Event.call depth xbound xpbound pbound m.px m.r ::
      (if xbound = pbound then []
       else if xpbound = pbound then []
       else
        let u := findPivot out m.px xbound xpbound pbound
        let toCheck := buildToCheck out m.px u xpbound pbound
        branchTrace (tomitaTrace out fuel (depth + 1)) (tomita out fuel) out xbound pbound
            m.px.pxvector.length toCheck ⟨m, xpbound, []⟩ ++
          match branchLoop (tomita out fuel) out xbound pbound toCheck ⟨m, xpbound, []⟩ with
          | none => []
          | some b => moveBackTrace xbound pbound m.px.pxvector.length b.movedNodes b.xpbound)

/-- The position that the handler of lines 85-102 hands to `swapNodeToPos` for the
neighbour `v`. -/
def neighborSwaps (xpbound : Nat) (a : Part) (v : Nat) : List Int :=
  if a.px.pxlookup.getD v 0 < xpbound then [(xpbound : Int) - a.xcount - 1]
  else [(xpbound : Int) + a.pcount]

/-- The positions handed to `swapNodeToPos` by the loop of lines 85-102. -/
def neighborTrace (xpbound : Nat) : List Nat → Part → List Int
  | [], _ => []
  | v :: l, a => neighborSwaps xpbound a v ++ neighborTrace xpbound l (neighborStep xpbound a v)

/-- The trace of the loop of lines 71-124 over the (rest of the) ordering; the swaps of
the driver act on the whole partition array. -/
def driverTrace (G : Graph) (out : StaticOutGraph) (fuel : Nat) : List Nat → Driver → List Event
  | [], _ => []
  | u :: rest, d =>
    let s1 := swapNodeToPos d.px u (d.xpbound - 1)
    let a := (G.forNeighborsOf u).foldl (neighborStep d.xpbound) ⟨s1, 0, 0⟩
    Event.swap 0 d.px.pxvector.length d.px.pxvector.length ((d.xpbound : Int) - 1) ::
      (neighborTrace d.xpbound (G.forNeighborsOf u) ⟨s1, 0, 0⟩).map
        (Event.swap 0 d.px.pxvector.length d.px.pxvector.length) ++
      tomitaTrace out fuel 0 ⟨a.px, [u], d.result⟩
        (d.xpbound - a.xcount) d.xpbound (d.xpbound + a.pcount) ++
      match tomita out fuel ⟨a.px, [u], d.result⟩
          (d.xpbound - a.xcount) d.xpbound (d.xpbound + a.pcount) with
      | none => []
      | some m => driverTrace G out fuel rest ⟨m.px, d.xpbound + 1, m.result⟩

/-- The trace of `run`. -/
def MaximalCliques.runTrace (fuel : Nat) (A : MaximalCliques) (orderedNodes : List Nat) :
    List Event :=
  let s := initPX A.G orderedNodes
  driverTrace A.G (StaticOutGraph.build A.G s.pxlookup) fuel orderedNodes ⟨s, 1, []⟩

/-- The state of the driver loop of `run` (partition array, `xpbound`, `result`) when
the nodes `processed`, a beginning of the ordering, have had their iterations. -/
def MaximalCliques.driverAfter (fuel : Nat) (A : MaximalCliques)
    (orderedNodes processed : List Nat) : Option Driver :=
  let s := initPX A.G orderedNodes
  driverLoop A.G (StaticOutGraph.build A.G s.pxlookup) fuel processed ⟨s, 1, []⟩

/-- The assertion loop of lines 75-80 over (the rest of) the ordering: every node before
`u` has `pxlookup[v] < xpbound`. -/
def processedBelow (s : PX) (xpbound u : Nat) : List Nat → Bool
  | [] => true
  | v :: rest =>
    if v = u then true
    else decide (s.pxlookup.getD v 0 < xpbound) && processedBelow s xpbound u rest

/-- The position `q` is the one of a swap into X made when `xcount` was some `c` with
`x0 ≤ c < x1`, or of a swap into P made when `pcount` was some `c` with `p0 ≤ c < p1`. -/
def SwapPos (xpbound x0 p0 x1 p1 : Nat) (q : Int) : Prop :=
  (∃ c : Nat, x0 ≤ c ∧ c < x1 ∧ q = (xpbound : Int) - c - 1) ∨
  (∃ c : Nat, p0 ≤ c ∧ c < p1 ∧ q = (xpbound : Int) + c)

/-- The bounds of a record: the window bounds of an invocation, the assertions of lines
221-224 without wrap-around, and a swap position inside the active window, which lies
inside the partition array. -/
def Event.inBounds : Event → Prop
  | Event.call _ xbound xpbound pbound px _ =>
    xbound ≤ xpbound ∧ xpbound ≤ pbound ∧ pbound ≤ px.pxvector.length
  | Event.swap lo hi size pos => (lo : Int) ≤ pos ∧ pos < (hi : Int) ∧ hi ≤ size
  | Event.recurse xbound xpbound pbound xcount pcount =>
    xpbound + pcount ≤ pbound ∧ xbound + xcount ≤ xpbound
  | Event.exhausted => False

/-- The recursive call of a record is made on a strictly smaller P. -/
def Event.shrinks : Event → Prop
  | Event.recurse _ xpbound pbound _ pcount => pcount < pbound - xpbound
  | Event.exhausted => False
  | _ => True

/-- At an invocation the depth is the length of `r` minus one, `r` consists of distinct
nodes of the list `nodes` that are pairwise adjacent, and every node of the window is
adjacent to every node of `r`. -/
def Event.onClique (nodes : List Nat) (adj : Nat → Nat → Bool) : Event → Prop
  | Event.call depth xbound _ pbound px r =>
    depth + 1 = r.length ∧ r.Nodup ∧ (∀ v ∈ r, v ∈ nodes) ∧
    (∀ u ∈ r, ∀ v ∈ r, u ≠ v → adj u v = true) ∧
    (∀ w ∈ seg px xbound pbound, ∀ v ∈ r, adj w v = true)
  | Event.exhausted => False
  | _ => True

/-- The partition array at the call `tomita(1, 3, 8)` with stack 2 that `run` makes on
`tieGraph` with the ordering 0, 1, ..., 7 in the driver iteration of node 2: X holds the
nodes 1 and 0, P holds the nodes 3, 4, 5, 6 and 7. -/
def tieSeed : PX := ⟨[2, 1, 0, 3, 4, 5, 6, 7], [2, 1, 0, 3, 4, 5, 6, 7]⟩

/-- The stack `r` at recursion depth `depth` consists of distinct nodes of `V` that are
pairwise adjacent in the out-graph, and every node of the window `[xb, pb)` is adjacent
to each of them. -/
structure StackInv (V : Nat → Prop) (out : StaticOutGraph) (s : PX) (xb pb depth : Nat)
    (r : List Nat) : Prop where
  depth : depth + 1 = r.length
  nd : r.Nodup
  mem : ∀ v ∈ r, V v
  clique : ∀ u ∈ r, ∀ v ∈ r, u ≠ v → oadj out u v
  window : ∀ w, V w → xb ≤ pos s w → pos s w < pb → ∀ v ∈ r, oadj out w v

/-- A record is in bounds and shrinking, and on a clique when `c` holds. -/
def Event.good (nodes : List Nat) (adj : Nat → Nat → Bool) (c : Prop) (e : Event) : Prop :=
  e.inBounds ∧ e.shrinks ∧ (c → e.onClique nodes adj)

/-! ## Reads after writes -/

theorem getD_set {α : Type} (l : List α) (i j : Nat) (a d : α) :
    (l.set i a).getD j d = if i = j ∧ i < l.length then a else l.getD j d := by
  simp only [List.getD_eq_getElem?_getD, List.getElem?_set]
  by_cases h1 : i = j
  · subst h1
    by_cases h2 : i < l.length
    · simp [h2]
    · have h3 : l[i]? = none := by simp; omega
      simp [h2, h3]
  · simp [h1]

/-! ## The swap primitive -/

theorem swap_len_vec (s : PX) (u p : Nat) :
    (swapNodeToPos s u p).pxvector.length = s.pxvector.length := by
  simp [swapNodeToPos]

theorem swap_len_look (s : PX) (u p : Nat) :
    (swapNodeToPos s u p).pxlookup.length = s.pxlookup.length := by
  simp [swapNodeToPos]

theorem nodeAt_swap {V : Nat → Prop} {s : PX} (hI : Inv V s) {u p : Nat} (hu : V u)
    (hp : p < s.pxvector.length) (j : Nat) :
    nodeAt (swapNodeToPos s u p) j
      = if j = p then u else if j = pos s u then nodeAt s p else nodeAt s j := by
  obtain ⟨_, h2, h3⟩ := hI.look u hu
  unfold nodeAt pos at *
  simp only [swapNodeToPos, getD_set, List.length_set]
  split_ifs <;> first | rfl | omega

theorem pos_swap {V : Nat → Prop} {s : PX} (hI : Inv V s) {u p : Nat} (hu : V u)
    (hp : p < s.pxvector.length) (v : Nat) :
    pos (swapNodeToPos s u p) v
      = if v = u then p else if v = nodeAt s p then pos s u else pos s v := by
  obtain ⟨h1, _, _⟩ := hI.look u hu
  obtain ⟨h4, _⟩ := hI.vec p hp
  obtain ⟨h5, _, _⟩ := hI.look _ h4
  unfold nodeAt pos at *
  simp only [swapNodeToPos, getD_set, List.length_set]
  split_ifs <;> first | rfl | omega

theorem inv_swap {V : Nat → Prop} {s : PX} (hI : Inv V s) {u p : Nat} (hu : V u)
    (hp : p < s.pxvector.length) : Inv V (swapNodeToPos s u p) := by
  obtain ⟨h1, h2, h3⟩ := hI.look u hu
  obtain ⟨h4, h5⟩ := hI.vec p hp
  constructor
  · intro v hv
    obtain ⟨g1, g2, g3⟩ := hI.look v hv
    rw [swap_len_vec, swap_len_look, pos_swap hI hu hp]
    refine ⟨g1, ?_, ?_⟩
    · split_ifs <;> assumption
    · rw [nodeAt_swap hI hu hp]
      by_cases c1 : v = u
      · simp [c1]
      · by_cases c2 : v = nodeAt s p
        · have : pos s u ≠ p := by
            intro h; apply c1; rw [c2, ← h, h3]
          simp [c1, ← c2, this]
        · have e1 : pos s v ≠ p := by
            intro h; apply c2; rw [← h, g3]
          have e2 : pos s v ≠ pos s u := by
            intro h; apply c1; rw [← g3, h, h3]
          simp [c1, c2, e1, e2, g3]
  · intro i hi
    rw [swap_len_vec] at hi
    obtain ⟨g1, g2⟩ := hI.vec i hi
    rw [nodeAt_swap hI hu hp]
    by_cases c1 : i = p
    · simp [c1, hu, pos_swap hI hu hp]
    · by_cases c2 : i = pos s u
      · have : nodeAt s p ≠ u := by
          intro h; apply c1; rw [c2, ← h, h5]
        simp [c1, ← c2, h4, pos_swap hI hu hp, this]
      · have e1 : nodeAt s i ≠ u := by
          intro h; apply c2; rw [← h, g2]
        have e2 : nodeAt s i ≠ nodeAt s p := by
          intro h; apply c1; rw [← g2, h, h5]
        simp [c1, c2, g1, pos_swap hI hu hp, e1, e2, g2]

/-- Two nodes of `V` recorded at the same position are equal. -/
theorem pos_inj {V : Nat → Prop} {s : PX} (hI : Inv V s) {u v : Nat} (hu : V u) (hv : V v)
    (h : pos s u = pos s v) : u = v := by
  rw [← (hI.look u hu).2.2, h, (hI.look v hv).2.2]

/-! ## One partition pass -/

section Pass
variable {V : Nat → Prop} {s0 : PX} {xb xpb pb : Nat}

theorem PInv.win {C : Nat → Prop} {a : Part} (h : PInv V s0 xb xpb pb C a) {y : Nat} (hy : V y) :
    (xb ≤ pos a.px y ∧ pos a.px y < pb) ↔ (xb ≤ pos s0 y ∧ pos s0 y < pb) := by
  have h1 := h.same.inX y hy
  have h2 := h.same.inP y hy
  have h3 := h.hx
  have h4 := h.hp
  omega

theorem PInv.congrOn {C C2 : Nat → Prop} {a : Part} (h : PInv V s0 xb xpb pb C a)
    (hc : ∀ y, V y → xb ≤ pos s0 y → pos s0 y < pb → (C y ↔ C2 y)) :
    PInv V s0 xb xpb pb C2 a := by
  refine ⟨h.inv, h.same, h.hx, h.hp, h.hpb, ?_⟩
  intro y hy h1 h2
  have hw := (h.win hy).mp ⟨h1, h2⟩
  rw [← hc y hy hw.1 hw.2]
  exact h.col y hy h1 h2

theorem PInv.start {s : PX} (hI : Inv V s) (h1 : xb ≤ xpb) (h2 : xpb ≤ pb)
    (h3 : pb ≤ s.pxvector.length) : PInv V s xb xpb pb (fun _ => False) ⟨s, 0, 0⟩ := by
  refine ⟨hI, ⟨rfl, fun _ _ => Iff.rfl, fun _ _ => Iff.rfl, fun _ _ _ => rfl⟩, ?_, ?_, h3, ?_⟩
  · simpa using h1
  · simpa using h2
  · intro v _ _ _
    simp only [false_iff]
    show ¬ (xpb - 0 ≤ pos s v ∧ pos s v < xpb + 0)
    omega

/-- Collecting a node of X that is not yet collected. -/
theorem PInv.takeX {C C2 : Nat → Prop} {a : Part} (h : PInv V s0 xb xpb pb C a) {v : Nat}
    (hv : V v) (hC : ¬ C v) (h1 : xb ≤ pos a.px v) (h2 : pos a.px v < xpb)
    (hC2 : ∀ y, V y → (C2 y ↔ C y ∨ y = v)) :
    PInv V s0 xb xpb pb C2
      ⟨swapNodeToPos a.px v (xpb - a.xcount - 1), a.xcount + 1, a.pcount⟩ := by
  have hx := h.hx
  have hp := h.hp
  have hpb := h.hpb
  have hcv := h.col v hv h1 (by omega)
  have hlt : pos a.px v < xpb - a.xcount := by
    by_contra hn
    exact hC (hcv.mpr ⟨by omega, by omega⟩)
  have ht : xpb - a.xcount - 1 < a.px.pxvector.length := by omega
  obtain ⟨hwV, hwp⟩ := h.inv.vec _ ht
  have hne : ∀ y, V y → y ≠ nodeAt a.px (xpb - a.xcount - 1) → pos a.px y ≠ xpb - a.xcount - 1 := by
    intro y hy hn he
    exact hn (pos_inj h.inv hy hwV (he.trans hwp.symm))
  have hps := fun y => pos_swap h.inv hv ht y
  refine ⟨inv_swap h.inv hv ht, ⟨?_, ?_, ?_, ?_⟩, ?_, ?_, ?_, ?_⟩
  · rw [swap_len_vec]; exact h.same.len
  · intro y hy
    have e := h.same.inX y hy
    show (xb ≤ pos (swapNodeToPos _ _ _) y ∧ pos (swapNodeToPos _ _ _) y < xpb) ↔ _
    rw [hps y]
    split_ifs with c1 c2
    · subst c1; omega
    · subst c2; omega
    · exact e
  · intro y hy
    have e := h.same.inP y hy
    show (xpb ≤ pos (swapNodeToPos _ _ _) y ∧ pos (swapNodeToPos _ _ _) y < pb) ↔ _
    rw [hps y]
    split_ifs with c1 c2
    · subst c1; omega
    · subst c2; omega
    · exact e
  · intro y hy ho
    have e := h.same.out y hy ho
    have e1 := h.same.inX y hy
    show pos (swapNodeToPos _ _ _) y = _
    rw [hps y]
    split_ifs with c1 c2
    · subst c1; omega
    · subst c2; omega
    · exact e
  · show xb + (a.xcount + 1) ≤ xpb
    omega
  · exact hp
  · show pb ≤ (swapNodeToPos _ _ _).pxvector.length
    rw [swap_len_vec]; exact hpb
  · intro y hy
    show xb ≤ pos (swapNodeToPos _ _ _) y → pos (swapNodeToPos _ _ _) y < pb →
      (C2 y ↔ (xpb - (a.xcount + 1) ≤ pos (swapNodeToPos _ _ _) y
        ∧ pos (swapNodeToPos _ _ _) y < xpb + a.pcount))
    rw [hps y, hC2 y hy]
    split_ifs with c1 c2
    · intro _ _
      simp only [c1, or_true, true_iff]
      omega
    · intro _ _
      have hcw := h.col _ hwV (by omega) (by omega)
      have hvw : pos a.px v ≠ xpb - a.xcount - 1 := hne v hv (fun e => c1 (c2.trans e.symm))
      subst c2
      simp only [c1, or_false]
      rw [hcw]
      omega
    · intro g1 g2
      have hy1 := hne y hy c2
      simp only [c1, or_false]
      rw [h.col y hy g1 g2]
      omega

/-- Collecting a node of P that is not yet collected. -/
theorem PInv.takeP {C C2 : Nat → Prop} {a : Part} (h : PInv V s0 xb xpb pb C a) {v : Nat}
    (hv : V v) (hC : ¬ C v) (h1 : xpb ≤ pos a.px v) (h2 : pos a.px v < pb)
    (hC2 : ∀ y, V y → (C2 y ↔ C y ∨ y = v)) :
    PInv V s0 xb xpb pb C2
      ⟨swapNodeToPos a.px v (xpb + a.pcount), a.xcount, a.pcount + 1⟩ := by
  have hx := h.hx
  have hp := h.hp
  have hpb := h.hpb
  have hcv := h.col v hv (by omega) h2
  have hlt : xpb + a.pcount ≤ pos a.px v := by
    by_contra hn
    exact hC (hcv.mpr ⟨by omega, by omega⟩)
  have ht : xpb + a.pcount < a.px.pxvector.length := by omega
  obtain ⟨hwV, hwp⟩ := h.inv.vec _ ht
  have hne : ∀ y, V y → y ≠ nodeAt a.px (xpb + a.pcount) → pos a.px y ≠ xpb + a.pcount := by
    intro y hy hn he
    exact hn (pos_inj h.inv hy hwV (he.trans hwp.symm))
  have hps := fun y => pos_swap h.inv hv ht y
  refine ⟨inv_swap h.inv hv ht, ⟨?_, ?_, ?_, ?_⟩, ?_, ?_, ?_, ?_⟩
  · rw [swap_len_vec]; exact h.same.len
  · intro y hy
    have e := h.same.inX y hy
    show (xb ≤ pos (swapNodeToPos _ _ _) y ∧ pos (swapNodeToPos _ _ _) y < xpb) ↔ _
    rw [hps y]
    split_ifs with c1 c2
    · subst c1; omega
    · subst c2; omega
    · exact e
  · intro y hy
    have e := h.same.inP y hy
    show (xpb ≤ pos (swapNodeToPos _ _ _) y ∧ pos (swapNodeToPos _ _ _) y < pb) ↔ _
    rw [hps y]
    split_ifs with c1 c2
    · subst c1; omega
    · subst c2; omega
    · exact e
  · intro y hy ho
    have e := h.same.out y hy ho
    have e1 := h.same.inP y hy
    show pos (swapNodeToPos _ _ _) y = _
    rw [hps y]
    split_ifs with c1 c2
    · subst c1; omega
    · subst c2; omega
    · exact e
  · exact hx
  · show xpb + (a.pcount + 1) ≤ pb
    omega
  · show pb ≤ (swapNodeToPos _ _ _).pxvector.length
    rw [swap_len_vec]; exact hpb
  · intro y hy
    show xb ≤ pos (swapNodeToPos _ _ _) y → pos (swapNodeToPos _ _ _) y < pb →
      (C2 y ↔ (xpb - a.xcount ≤ pos (swapNodeToPos _ _ _) y
        ∧ pos (swapNodeToPos _ _ _) y < xpb + (a.pcount + 1)))
    rw [hps y, hC2 y hy]
    split_ifs with c1 c2
    · intro _ _
      simp only [c1, or_true, true_iff]
      omega
    · intro _ _
      have hcw := h.col _ hwV (by omega) (by omega)
      have hvw : pos a.px v ≠ xpb + a.pcount := hne v hv (fun e => c1 (c2.trans e.symm))
      subst c2
      simp only [c1, or_false]
      rw [hcw]
      omega
    · intro g1 g2
      have hy1 := hne y hy c2
      simp only [c1, or_false]
      rw [h.col y hy g1 g2]
      omega

end Pass

theorem hasNeighbor_iff (out : StaticOutGraph) (u v : Nat) :
    out.hasNeighbor u v = true ↔ v ∈ out.forOutEdgesOf u := by
  simp [StaticOutGraph.hasNeighbor]

theorem collectOut_eq (xb xpb pb : Nat) (a : Part) (v : Nat) :
    collectOut xb xpb pb a v =
      if pos a.px v < xpb ∧ pos a.px v ≥ xb then
        ⟨swapNodeToPos a.px v (xpb - a.xcount - 1), a.xcount + 1, a.pcount⟩
      else if pos a.px v ≥ xpb ∧ pos a.px v < pb then
        ⟨swapNodeToPos a.px v (xpb + a.pcount), a.xcount, a.pcount + 1⟩
      else a := rfl

theorem collectX_succ (out : StaticOutGraph) (p xpb k i : Nat) (a : Part) :
    collectX out p xpb (k + 1) i a =
      if i < xpb then
        if i = xpb - a.xcount then a
        else if out.hasNeighbor (nodeAt a.px i) p = true then
          collectX out p xpb k i
            ⟨swapNodeToPos a.px (nodeAt a.px i) (xpb - a.xcount - 1), a.xcount + 1, a.pcount⟩
        else collectX out p xpb k (i + 1) a
      else a := rfl

theorem collectP_succ (out : StaticOutGraph) (p xpb k i : Nat) (a : Part) :
    collectP out p xpb (k + 1) i a =
      if out.hasNeighbor (nodeAt a.px i) p = true then
        collectP out p xpb k (i + 1)
          ⟨swapNodeToPos a.px (nodeAt a.px i) (xpb + a.pcount), a.xcount, a.pcount + 1⟩
      else collectP out p xpb k (i + 1) a := rfl

section Pass
variable {V : Nat → Prop} {s0 : PX} {xb xpb pb : Nat}

/-- Folding a handler that acts as `collectOut` over a list of distinct uncollected nodes
collects those of them that lie in the window. -/
theorem collect_fold {f : Part → Nat → Part}
    (hf : ∀ (a : Part) (C : Nat → Prop) (v : Nat), PInv V s0 xb xpb pb C a → V v →
      f a v = collectOut xb xpb pb a v) :
    ∀ (l : List Nat) (a : Part) (C : Nat → Prop),
    PInv V s0 xb xpb pb C a → l.Nodup → (∀ v ∈ l, V v ∧ ¬ C v) →
    PInv V s0 xb xpb pb (fun y => C y ∨ y ∈ l) (l.foldl f a) := by
  intro l
  induction l with
  | nil =>
    intro a C h _ _
    exact h.congrOn (fun y _ _ _ => by simp)
  | cons v l ih =>
    intro a C h hnd hl
    obtain ⟨hvl, hnd2⟩ := List.nodup_cons.mp hnd
    obtain ⟨hv, hCv⟩ := hl v (List.mem_cons_self _ _)
    have hrest : ∀ w ∈ l, V w ∧ ¬ (C w ∨ w = v) := by
      intro w hw
      refine ⟨(hl w (List.mem_cons_of_mem _ hw)).1, ?_⟩
      rintro (hc | rfl)
      · exact (hl w (List.mem_cons_of_mem _ hw)).2 hc
      · exact hvl hw
    have hfin : ∀ {b : Part}, PInv V s0 xb xpb pb (fun y => C y ∨ y = v) b →
        PInv V s0 xb xpb pb (fun y => C y ∨ y ∈ v :: l) (l.foldl f b) := by
      intro b hb
      refine (ih b _ hb hnd2 hrest).congrOn ?_
      intro y _ _ _
      simp only [List.mem_cons]
      tauto
    rw [List.foldl_cons, hf a C v h hv]
    by_cases hX : pos a.px v < xpb ∧ pos a.px v ≥ xb
    · have e : collectOut xb xpb pb a v
          = ⟨swapNodeToPos a.px v (xpb - a.xcount - 1), a.xcount + 1, a.pcount⟩ := by
        rw [collectOut_eq, if_pos hX]
      rw [e]
      exact hfin (h.takeX hv hCv hX.2 hX.1 (fun _ _ => Iff.rfl))
    · by_cases hP : pos a.px v ≥ xpb ∧ pos a.px v < pb
      · have e : collectOut xb xpb pb a v
            = ⟨swapNodeToPos a.px v (xpb + a.pcount), a.xcount, a.pcount + 1⟩ := by
          rw [collectOut_eq, if_neg hX, if_pos hP]
        rw [e]
        exact hfin (h.takeP hv hCv hP.1 hP.2 (fun _ _ => Iff.rfl))
      · have e : collectOut xb xpb pb a v = a := by
          rw [collectOut_eq, if_neg hX, if_neg hP]
        rw [e]
        apply hfin
        refine h.congrOn ?_
        intro y hy g1 g2
        have hw := (h.win hy).mpr ⟨g1, g2⟩
        constructor
        · exact Or.inl
        · rintro (hc | rfl)
          · exact hc
          · exfalso; omega

theorem collectOut_fold : ∀ (l : List Nat) (a : Part) (C : Nat → Prop),
    PInv V s0 xb xpb pb C a → l.Nodup → (∀ v ∈ l, V v ∧ ¬ C v) →
    PInv V s0 xb xpb pb (fun y => C y ∨ y ∈ l) (l.foldl (collectOut xb xpb pb) a) :=
  collect_fold (fun _ _ _ _ _ => rfl)

/-- The second pass: the scan of the uncollected part of X. -/
theorem collectX_spec {out : StaticOutGraph} {p : Nat} {Cg : Nat → Prop}
    (h4 : ∀ y, V y → xb ≤ pos s0 y → pos s0 y < xpb → p ∈ out.forOutEdgesOf y → Cg y) :
    ∀ (k i : Nat) (a : Part) (C : Nat → Prop), PInv V s0 xb xpb pb C a →
    i + a.xcount ≤ xpb → xb ≤ i → xpb - a.xcount - i < k →
    (∀ y, V y → C y → Cg y) →
    (∀ y, V y → xb ≤ pos s0 y → pos s0 y < pb → Cg y → ¬ C y →
      (i ≤ pos a.px y ∧ pos a.px y < xpb ∧ p ∈ out.forOutEdgesOf y)) →
    PInv V s0 xb xpb pb Cg (collectX out p xpb k i a) := by
  intro k
  induction k with
  | zero => intro i a C _ _ _ hk; omega
  | succ k ih =>
    intro i a C h hi hxi hk h2 h3
    have hx := h.hx
    have hp := h.hp
    have hpb := h.hpb
    -- leaving the loop: every goal node is collected
    have hdone : i = xpb - a.xcount → PInv V s0 xb xpb pb Cg a := by
      intro he
      refine h.congrOn ?_
      intro y hy g1 g2
      refine ⟨h2 y hy, fun hg => ?_⟩
      by_contra hc
      obtain ⟨q1, q2, _⟩ := h3 y hy g1 g2 hg hc
      exact hc ((h.col y hy (by omega) (by omega)).mpr ⟨by omega, by omega⟩)
    rw [collectX_succ]
    by_cases c1 : i < xpb
    · rw [if_pos c1]
      by_cases c2 : i = xpb - a.xcount
      · rw [if_pos c2]; exact hdone c2
      · rw [if_neg c2]
        have hlen : i < a.px.pxvector.length := by omega
        obtain ⟨hxV, hxp⟩ := h.inv.vec i hlen
        have hxC : ¬ C (nodeAt a.px i) := by
          intro hc
          have := (h.col _ hxV (by omega) (by omega)).mp hc
          omega
        have hx0 := (h.same.inX _ hxV).mp ⟨by omega, by omega⟩
        by_cases c3 : out.hasNeighbor (nodeAt a.px i) p = true
        · rw [if_pos c3]
          have hmem : p ∈ out.forOutEdgesOf (nodeAt a.px i) := by
            simpa [hasNeighbor_iff] using c3
          have ht : xpb - a.xcount - 1 < a.px.pxvector.length := by omega
          obtain ⟨hwV, hwp⟩ := h.inv.vec _ ht
          refine ih i _ (fun y => C y ∨ y = nodeAt a.px i)
            (h.takeX hxV hxC (by omega) (by omega) (fun _ _ => Iff.rfl)) ?_ hxi ?_ ?_ ?_
          · show i + (a.xcount + 1) ≤ xpb
            omega
          · show xpb - (a.xcount + 1) - i < k
            omega
          · rintro y hy (hc | rfl)
            · exact h2 y hy hc
            · exact h4 _ hxV hx0.1 hx0.2 hmem
          · intro y hy g1 g2 hg hc
            have hc1 : ¬ C y := fun q => hc (Or.inl q)
            have hne : y ≠ nodeAt a.px i := fun q => hc (Or.inr q)
            obtain ⟨q1, q2, q3⟩ := h3 y hy g1 g2 hg hc1
            refine ⟨?_, ?_, q3⟩
            · show i ≤ pos (swapNodeToPos _ _ _) y
              rw [pos_swap h.inv hxV ht]
              split_ifs <;> omega
            · show pos (swapNodeToPos _ _ _) y < xpb
              rw [pos_swap h.inv hxV ht]
              split_ifs <;> omega
        · rw [if_neg c3]
          have hmem : p ∉ out.forOutEdgesOf (nodeAt a.px i) := by
            simpa [hasNeighbor_iff] using c3
          refine ih (i + 1) a C h (by omega) (by omega) (by omega) h2 ?_
          intro y hy g1 g2 hg hc
          obtain ⟨q1, q2, q3⟩ := h3 y hy g1 g2 hg hc
          refine ⟨?_, q2, q3⟩
          by_contra hlt
          have hyi : pos a.px y = i := by omega
          have : y = nodeAt a.px i := pos_inj h.inv hy hxV (hyi.trans hxp.symm)
          exact hmem (this ▸ q3)
    · rw [if_neg c1]
      exact hdone (by omega)

/-- The third pass: the scan of the uncollected part of P. -/
theorem collectP_spec {out : StaticOutGraph} {p : Nat} {Cg : Nat → Prop}
    (h4 : ∀ y, V y → xpb ≤ pos s0 y → pos s0 y < pb → p ∈ out.forOutEdgesOf y → Cg y) :
    ∀ (k i : Nat) (a : Part) (C : Nat → Prop), PInv V s0 xb xpb pb C a →
    xpb + a.pcount ≤ i → i + k = pb →
    (∀ y, V y → C y → Cg y) →
    (∀ y, V y → xb ≤ pos s0 y → pos s0 y < pb → Cg y → ¬ C y →
      (i ≤ pos a.px y ∧ pos a.px y < pb ∧ p ∈ out.forOutEdgesOf y)) →
    PInv V s0 xb xpb pb Cg (collectP out p xpb k i a) := by
  intro k
  induction k with
  | zero =>
    intro i a C h _ hk h2 h3
    simp only [collectP]
    refine h.congrOn ?_
    intro y hy g1 g2
    refine ⟨h2 y hy, fun hg => ?_⟩
    by_contra hc
    obtain ⟨q1, q2, _⟩ := h3 y hy g1 g2 hg hc
    omega
  | succ k ih =>
    intro i a C h hi hk h2 h3
    have hx := h.hx
    have hp := h.hp
    have hpb := h.hpb
    rw [collectP_succ]
    have hlen : i < a.px.pxvector.length := by omega
    obtain ⟨hxV, hxp⟩ := h.inv.vec i hlen
    have hxC : ¬ C (nodeAt a.px i) := by
      intro hc
      have := (h.col _ hxV (by omega) (by omega)).mp hc
      omega
    have hx0 := (h.same.inP _ hxV).mp ⟨by omega, by omega⟩
    by_cases c3 : out.hasNeighbor (nodeAt a.px i) p = true
    · rw [if_pos c3]
      have hmem : p ∈ out.forOutEdgesOf (nodeAt a.px i) := by
        simpa [hasNeighbor_iff] using c3
      have ht : xpb + a.pcount < a.px.pxvector.length := by omega
      obtain ⟨hwV, hwp⟩ := h.inv.vec _ ht
      refine ih (i + 1) _ (fun y => C y ∨ y = nodeAt a.px i)
        (h.takeP hxV hxC (by omega) (by omega) (fun _ _ => Iff.rfl)) ?_ (by omega) ?_ ?_
      · show xpb + (a.pcount + 1) ≤ i + 1
        omega
      · rintro y hy (hc | rfl)
        · exact h2 y hy hc
        · exact h4 _ hxV hx0.1 hx0.2 hmem
      · intro y hy g1 g2 hg hc
        have hc1 : ¬ C y := fun q => hc (Or.inl q)
        have hne : y ≠ nodeAt a.px i := fun q => hc (Or.inr q)
        obtain ⟨q1, q2, q3⟩ := h3 y hy g1 g2 hg hc1
        have hyi : pos a.px y ≠ i := fun q => hne (pos_inj h.inv hy hxV (q.trans hxp.symm))
        refine ⟨?_, ?_, q3⟩
        · show i + 1 ≤ pos (swapNodeToPos _ _ _) y
          rw [pos_swap h.inv hxV ht]
          split_ifs with e1 e2
          · exact absurd e1 hne
          · subst e2; omega
          · omega
        · show pos (swapNodeToPos _ _ _) y < pb
          rw [pos_swap h.inv hxV ht]
          split_ifs <;> omega
    · rw [if_neg c3]
      have hmem : p ∉ out.forOutEdgesOf (nodeAt a.px i) := by
        simpa [hasNeighbor_iff] using c3
      refine ih (i + 1) a C h (by omega) (by omega) h2 ?_
      intro y hy g1 g2 hg hc
      obtain ⟨q1, q2, q3⟩ := h3 y hy g1 g2 hg hc
      refine ⟨?_, q2, q3⟩
      by_contra hlt
      have hyi : pos a.px y = i := by omega
      have : y = nodeAt a.px i := pos_inj h.inv hy hxV (hyi.trans hxp.symm)
      exact hmem (this ▸ q3)

/-- The three passes of `partitionFor` group exactly the neighbours of the candidate
around `xpbound`. -/
theorem partitionFor_spec {out : StaticOutGraph} (hO : OutOK V out) {s : PX} (hI : Inv V s)
    {p : Nat} (hp : V p) (h1 : xb ≤ xpb) (h2 : xpb ≤ pb) (h3 : pb ≤ s.pxvector.length) :
    PInv V s xb xpb pb (oadj out p) (partitionFor out s p xb xpb pb) := by
  have s1 := collectOut_fold (out.forOutEdgesOf p) _ _ (PInv.start hI h1 h2 h3) (hO.nd p hp)
    (fun v hv => ⟨hO.mem p hp v hv, fun hf => hf⟩)
  have s2 : PInv V s xb xpb pb
      (fun y => y ∈ out.forOutEdgesOf p
        ∨ ((xb ≤ pos s y ∧ pos s y < xpb) ∧ p ∈ out.forOutEdgesOf y))
      (collectX out p xpb (xpb - xb + 1) xb
        ((out.forOutEdgesOf p).foldl (collectOut xb xpb pb) ⟨s, 0, 0⟩)) :=
    collectX_spec
    (fun y _ g1 g2 g3 => Or.inr ⟨⟨g1, g2⟩, g3⟩)
    (xpb - xb + 1) xb _ _ s1 (by have := s1.hx; omega) le_rfl (by omega)
    (fun y _ hc => by
      rcases hc with hc | hc
      · exact hc.elim
      · exact Or.inl hc)
    (fun y hy g1 g2 hg hc => by
      have hc1 : y ∉ out.forOutEdgesOf p := fun q => hc (Or.inr q)
      rcases hg with hg | ⟨hg, hg2⟩
      · exact absurd hg hc1
      · have := (s1.same.inX y hy).mpr hg
        exact ⟨this.1, this.2, hg2⟩)
  have s3 : PInv V s xb xpb pb (oadj out p) (partitionFor out s p xb xpb pb) :=
    collectP_spec
    (fun y _ _ _ g3 => Or.inr g3)
    (pb - (xpb + (collectX out p xpb (xpb - xb + 1) xb
        ((out.forOutEdgesOf p).foldl (collectOut xb xpb pb) ⟨s, 0, 0⟩)).pcount))
    (xpb + (collectX out p xpb (xpb - xb + 1) xb
        ((out.forOutEdgesOf p).foldl (collectOut xb xpb pb) ⟨s, 0, 0⟩)).pcount) _ _ s2 le_rfl
    (by have := s2.hp; omega)
    (fun y _ hc => by
      rcases hc with hc | ⟨_, hc⟩
      · exact Or.inl hc
      · exact Or.inr hc)
    (fun y hy g1 g2 hg hc => by
      have hc1 : y ∉ out.forOutEdgesOf p := fun q => hc (Or.inl q)
      have hgo : p ∈ out.forOutEdgesOf y := by
        rcases hg with hg | hg
        · exact absurd hg hc1
        · exact hg
      have hnx : ¬ (xb ≤ pos s y ∧ pos s y < xpb) := fun q => hc (Or.inr ⟨q, hgo⟩)
      have hw := (s2.win hy).mpr ⟨g1, g2⟩
      have hcol := s2.col y hy hw.1 hw.2
      have hnc := hcol.not.mp hc
      have hX := s2.same.inX y hy
      have := s2.hx
      refine ⟨?_, hw.2, hgo⟩
      omega)
  exact s3

end Pass

/-! ## The pivot lies in the window -/

theorem incr_length (pn : List Nat) (i : Nat) : (incr pn i).length = pn.length := by
  simp [incr]

theorem pivotCountX_fold_length (s : PX) (xpb pb i : Nat) :
    ∀ (l : List Nat) (pn : List Nat),
      (l.foldl (pivotCountX s xpb pb i) pn).length = pn.length := by
  intro l
  induction l with
  | nil => intro pn; rfl
  | cons v l ih =>
    intro pn
    rw [List.foldl_cons, ih]
    unfold pivotCountX
    split_ifs
    · exact incr_length _ _
    · rfl

theorem pivotCountP_fold_length (s : PX) (xb xpb pb i : Nat) :
    ∀ (l : List Nat) (pn : List Nat),
      (l.foldl (pivotCountP s xb xpb pb i) pn).length = pn.length := by
  intro l
  induction l with
  | nil => intro pn; rfl
  | cons v l ih =>
    intro pn
    rw [List.foldl_cons, ih]
    unfold pivotCountP
    simp only
    split_ifs <;> simp [incr_length]

theorem pivotLoopX_inl (out : StaticOutGraph) (s : PX) (xb xpb pb : Nat) :
    ∀ (k i : Nat) (pn : List Nat) (u : Nat),
      pivotLoopX out s xb xpb pb k i pn = Sum.inl u →
      ∃ j, i ≤ j ∧ j < i + k ∧ u = nodeAt s (j + xb) := by
  intro k
  induction k with
  | zero => intro i pn u h; simp [pivotLoopX] at h
  | succ k ih =>
    intro i pn u h
    simp only [pivotLoopX] at h
    split_ifs at h with c
    · exact ⟨i, le_rfl, by omega, (Sum.inl.inj h).symm⟩
    · obtain ⟨j, h1, h2, h3⟩ := ih _ _ _ h
      exact ⟨j, by omega, by omega, h3⟩

theorem pivotLoopX_inr (out : StaticOutGraph) (s : PX) (xb xpb pb : Nat) :
    ∀ (k i : Nat) (pn pn2 : List Nat),
      pivotLoopX out s xb xpb pb k i pn = Sum.inr pn2 → pn2.length = pn.length := by
  intro k
  induction k with
  | zero =>
    intro i pn pn2 h
    simp only [pivotLoopX] at h
    rw [← Sum.inr.inj h]
  | succ k ih =>
    intro i pn pn2 h
    simp only [pivotLoopX] at h
    split_ifs at h with c
    rw [ih _ _ _ h, pivotCountX_fold_length]

theorem pivotLoopP_length (out : StaticOutGraph) (s : PX) (xb xpb pb : Nat) :
    ∀ (k i : Nat) (pn : List Nat),
      (pivotLoopP out s xb xpb pb k i pn).length = pn.length := by
  intro k
  induction k with
  | zero => intro i pn; rfl
  | succ k ih =>
    intro i pn
    simp only [pivotLoopP]
    rw [ih, pivotCountP_fold_length]

theorem pivotLoopMax_window (s : PX) (xb B : Nat) (pn : List Nat) :
    ∀ (k i : Nat) (m : Nat × Nat), (∃ j, xb ≤ j ∧ j < B ∧ m.2 = nodeAt s j) →
      i + k + xb ≤ B →
      ∃ j, xb ≤ j ∧ j < B ∧ (pivotLoopMax s xb pn k i m).2 = nodeAt s j := by
  intro k
  induction k with
  | zero => intro i m hm _; exact hm
  | succ k ih =>
    intro i m hm hk
    simp only [pivotLoopMax]
    split_ifs with c
    · exact ih _ _ ⟨i + xb, by omega, by omega, rfl⟩ (by omega)
    · exact ih _ _ hm (by omega)

/-- The node that `findPivot` returns is stored inside the window `[xbound, pbound)`. -/
theorem findPivot_window (out : StaticOutGraph) (s : PX) {xb xpb pb : Nat}
    (h1 : xb ≤ xpb) (h2 : xpb ≤ pb) (h3 : xb < pb) :
    ∃ j, xb ≤ j ∧ j < pb ∧ findPivot out s xb xpb pb = nodeAt s j := by
  unfold findPivot
  simp only
  cases hX : pivotLoopX out s xb xpb pb (xpb - xb) 0 (List.replicate (pb - xb) 0) with
  | inl u =>
    obtain ⟨j, _, g2, g3⟩ := pivotLoopX_inl out s xb xpb pb _ _ _ _ hX
    exact ⟨j + xb, by omega, by omega, g3⟩
  | inr pn1 =>
    have hl1 : pn1.length = pb - xb := by
      rw [pivotLoopX_inr out s xb xpb pb _ _ _ _ hX, List.length_replicate]
    simp only
    apply pivotLoopMax_window
    · exact ⟨xb, le_rfl, h3, rfl⟩
    · rw [pivotLoopP_length, hl1]
      omega

/-! ## The candidates of a call -/

theorem markPivotNeighbor_fold_length (s : PX) (xpb pb : Nat) :
    ∀ (l : List Nat) (pn : List Bool),
      (l.foldl (markPivotNeighbor s xpb pb) pn).length = pn.length := by
  intro l
  induction l with
  | nil => intro pn; rfl
  | cons v l ih =>
    intro pn
    rw [List.foldl_cons, ih]
    unfold markPivotNeighbor
    simp only
    split_ifs <;> simp

theorem markPivotNeighbor_fold_get (s : PX) (xpb pb : Nat) :
    ∀ (l : List Nat) (pn : List Bool) (j : Nat), pn.length = pb - xpb →
      ((l.foldl (markPivotNeighbor s xpb pb) pn).getD j false = true ↔
        (pn.getD j false = true ∨
          ∃ v ∈ l, xpb ≤ pos s v ∧ pos s v < pb ∧ pos s v - xpb = j)) := by
  intro l
  induction l with
  | nil => intro pn j _; simp
  | cons v l ih =>
    intro pn j hlen
    rw [List.foldl_cons]
    have hstep : markPivotNeighbor s xpb pb pn v
        = if pos s v ≥ xpb ∧ pos s v < pb then pn.set (pos s v - xpb) true else pn := rfl
    by_cases c : pos s v ≥ xpb ∧ pos s v < pb
    · rw [hstep, if_pos c, ih _ j (by rw [List.length_set]; exact hlen), getD_set]
      simp only [List.mem_cons, exists_eq_or_imp]
      have hin : pos s v - xpb < pn.length := by omega
      by_cases e : pos s v - xpb = j
      · simp [e, hin, c.1, c.2]
        left; omega
      · have : ¬ (pos s v - xpb = j ∧ pos s v - xpb < pn.length) := fun q => e q.1
        rw [if_neg this]
        constructor
        · rintro (q | q)
          · exact Or.inl q
          · exact Or.inr (Or.inr q)
        · rintro (q | ⟨_, _, q⟩ | q)
          · exact Or.inl q
          · exact absurd q e
          · exact Or.inr q
    · rw [hstep, if_neg c, ih _ j hlen]
      simp only [List.mem_cons, exists_eq_or_imp]
      constructor
      · rintro (q | q)
        · exact Or.inl q
        · exact Or.inr (Or.inr q)
      · rintro (q | ⟨q1, q2, _⟩ | q)
        · exact Or.inl q
        · exact absurd ⟨q1, q2⟩ c
        · exact Or.inr q

theorem toCheckStep_fold (out : StaticOutGraph) (s : PX) (u xpb : Nat) (pn : List Bool) :
    ∀ (l : List Nat) (acc : List Nat),
      l.foldl (toCheckStep out s u xpb pn) acc
        = acc ++ (l.filter (fun i => !pn.getD (i - xpb) false
            && !out.hasNeighbor (nodeAt s i) u)).map (nodeAt s) := by
  intro l
  induction l with
  | nil => intro acc; simp
  | cons i l ih =>
    intro acc
    rw [List.foldl_cons, ih]
    have hstep : toCheckStep out s u xpb pn acc i
        = if (!pn.getD (i - xpb) false) = true then
            (if (!out.hasNeighbor (nodeAt s i) u) = true then acc ++ [nodeAt s i] else acc)
          else acc := rfl
    rw [hstep, List.filter_cons]
    cases e1 : pn.getD (i - xpb) false <;> cases e2 : out.hasNeighbor (nodeAt s i) u <;>
      simp only [Bool.not_false, Bool.not_true, Bool.and_true, Bool.and_false,
        Bool.false_and, if_true, if_false, ↓reduceIte, List.map_cons, List.append_assoc,
        List.singleton_append, Bool.false_eq_true, Bool.and_self]

theorem getD_replicate_false (n j : Nat) : (List.replicate n false).getD j false = false := by
  rw [List.getD_eq_getElem?_getD, List.getElem?_replicate]
  split_ifs <;> rfl

/-- The list `toCheck` holds, without repetition, the nodes of P that are not adjacent
to the pivot. -/
theorem buildToCheck_spec {V : Nat → Prop} {out : StaticOutGraph} (hO : OutOK V out) {s : PX}
    (hI : Inv V s) {u xpb pb : Nat} (hu : V u) (h2 : xpb ≤ pb) (h3 : pb ≤ s.pxvector.length) :
    (buildToCheck out s u xpb pb).Nodup ∧
    ∀ y, y ∈ buildToCheck out s u xpb pb ↔
      (V y ∧ (xpb ≤ pos s y ∧ pos s y < pb) ∧ ¬ oadj out u y) := by
  unfold buildToCheck
  simp only
  rw [toCheckStep_fold, List.nil_append]
  constructor
  · apply List.Nodup.map_on
    · intro i hi j hj hij
      have hi2 := (List.mem_filter.mp hi).1
      have hj2 := (List.mem_filter.mp hj).1
      rw [List.mem_range'_1] at hi2 hj2
      have e1 := (hI.vec i (by omega)).2
      have e2 := (hI.vec j (by omega)).2
      rw [← e1, hij, e2]
    · exact (List.nodup_range' _ _).filter _
  · intro y
    simp only [List.mem_map, List.mem_filter, List.mem_range'_1, Bool.and_eq_true,
      Bool.not_eq_true', Bool.not_eq_true]
    have hmark : ∀ i, xpb ≤ i → i < pb →
        (((out.forOutEdgesOf u).foldl (markPivotNeighbor s xpb pb)
          (List.replicate (pb - xpb) false)).getD (i - xpb) false = true
          ↔ nodeAt s i ∈ out.forOutEdgesOf u) := by
      intro i g1 g2
      rw [markPivotNeighbor_fold_get s xpb pb _ _ _ (by simp)]
      obtain ⟨hiV, hip⟩ := hI.vec i (by omega)
      constructor
      · rintro (q | ⟨v, hv, q1, q2, q3⟩)
        · rw [getD_replicate_false] at q
          exact Bool.noConfusion q
        · have : v = nodeAt s i :=
            pos_inj hI (hO.mem u hu v hv) hiV (by rw [hip]; omega)
          exact this ▸ hv
      · intro q
        exact Or.inr ⟨_, q, by omega, by omega, by omega⟩
    constructor
    · rintro ⟨i, ⟨⟨g1, g2⟩, g3, g4⟩, rfl⟩
      have g2' : i < pb := by omega
      obtain ⟨hiV, hip⟩ := hI.vec i (by omega)
      refine ⟨hiV, by omega, ?_⟩
      rintro (q | q)
      · have := (hmark i g1 g2').mpr q
        rw [this] at g3
        exact Bool.noConfusion g3
      · have := (hasNeighbor_iff out _ _).mpr q
        rw [this] at g4
        exact Bool.noConfusion g4
    · rintro ⟨hy, ⟨g1, g2⟩, g3⟩
      obtain ⟨_, _, hyp⟩ := hI.look y hy
      refine ⟨pos s y, ⟨⟨g1, by omega⟩, ?_, ?_⟩, hyp⟩
      · by_contra q
        have q2 : ((out.forOutEdgesOf u).foldl (markPivotNeighbor s xpb pb)
          (List.replicate (pb - xpb) false)).getD (pos s y - xpb) false = true := by
          simpa using q
        have := (hmark _ g1 g2).mp q2
        rw [hyp] at this
        exact g3 (Or.inl this)
      · by_contra q
        have q2 : out.hasNeighbor (nodeAt s (pos s y)) u = true := by simpa using q
        rw [hyp, hasNeighbor_iff] at q2
        exact g3 (Or.inr q2)

/-! ## The enumeration argument on sets -/

section Sets
variable {adj : Nat → Nat → Prop}

theorem Enum.congrSets {X P X2 P2 : Nat → Prop} {L : List (List Nat)} (h : Enum adj X P L)
    (hX : ∀ w, X w ↔ X2 w) (hP : ∀ w, P w ↔ P2 w) : Enum adj X2 P2 L := by
  have e1 : X = X2 := funext fun w => propext (hX w)
  have e2 : P = P2 := funext fun w => propext (hP w)
  subst e1; subst e2; exact h

theorem LoopEnum.congrLoop {X P X2 P2 : Nat → Prop} {cs : List Nat} {L : List (List Nat)}
    (h : LoopEnum adj X P cs L)
    (hX : ∀ w, X w ↔ X2 w) (hP : ∀ w, P w ↔ P2 w) : LoopEnum adj X2 P2 cs L := by
  have e1 : X = X2 := funext fun w => propext (hX w)
  have e2 : P = P2 := funext fun w => propext (hP w)
  subst e1; subst e2; exact h

/-- With X and P both empty the only qualified clique is the empty one. -/
theorem Enum.emit {X P : Nat → Prop} (hX : ∀ w, ¬ X w) (hP : ∀ w, ¬ P w) :
    Enum adj X P [[]] := by
  refine ⟨?_, ?_, ?_⟩
  · intro S hS
    rw [List.mem_singleton] at hS
    subst hS
    refine ⟨List.nodup_nil, ⟨?_, ?_, ?_⟩⟩
    · intro v hv; exact absurd hv (List.not_mem_nil v)
    · intro u v hu; exact absurd hu (List.not_mem_nil u)
    · rintro w (hw | hw)
      · exact absurd hw (hX w)
      · exact absurd hw (hP w)
  · intro T hT
    refine ⟨[], List.mem_singleton.mpr rfl, fun v => ⟨fun hv => absurd hv (List.not_mem_nil v), fun hv => absurd (hT.sub v hv) (hP v)⟩⟩
  · exact List.pairwise_singleton _ _

/-- With P empty and X inhabited there is no qualified clique. -/
theorem Enum.prune {X P : Nat → Prop} (hX : ∃ w, X w) (hP : ∀ w, ¬ P w) :
    Enum adj X P [] := by
  refine ⟨?_, ?_, List.Pairwise.nil⟩
  · intro S hS; exact absurd hS (List.not_mem_nil S)
  · intro T hT
    obtain ⟨w, hw⟩ := hX
    have hTw : ¬ T w := fun q => hP w (hT.sub w q)
    obtain ⟨v, hv, _⟩ := hT.maxi w (Or.inl hw) hTw
    exact absurd (hT.sub v hv) (hP v)

theorem LoopEnum.stop {X P : Nat → Prop} : LoopEnum adj X P [] [] := by
  refine ⟨?_, ?_, List.Pairwise.nil⟩
  · intro S hS; exact absurd hS (List.not_mem_nil S)
  · rintro T _ ⟨c, hc, _⟩; exact absurd hc (List.not_mem_nil c)

/-- One round of the candidate loop: the cliques through `p`, then those of the
remaining candidates with `p` moved from P to X. -/
theorem LoopEnum.round {X P : Nat → Prop} {p : Nat} {rest : List Nat}
    {Lp Lr : List (List Nat)}
    (hsym : ∀ u v, adj u v → adj v u) (hirr : ∀ w, P w → ¬ adj w w) (hp : P p)
    (hLp : Enum adj (fun w => X w ∧ adj p w) (fun w => P w ∧ adj p w) Lp)
    (hLr : LoopEnum adj (fun w => X w ∨ w = p) (fun w => P w ∧ w ≠ p) rest Lr) :
    LoopEnum adj X P (p :: rest) (Lp.map (List.cons p) ++ Lr) := by
  have hpS : ∀ S ∈ Lp, p ∉ S := by
    intro S hS hpS
    exact hirr p hp ((hLp.sound S hS).2.sub p hpS).2
  have hpR : ∀ S ∈ Lr, p ∉ S := by
    intro S hS hpS
    exact ((hLr.sound S hS).2.sub p hpS).2 rfl
  refine ⟨?_, ?_, ?_⟩
  · intro S hS
    rcases List.mem_append.mp hS with hS | hS
    · obtain ⟨S2, hS2, rfl⟩ := List.mem_map.mp hS
      obtain ⟨hnd, hq⟩ := hLp.sound S2 hS2
      refine ⟨List.nodup_cons.mpr ⟨hpS S2 hS2, hnd⟩, ⟨?_, ?_, ?_⟩⟩
      · intro v hv
        rcases List.mem_cons.mp hv with rfl | hv
        · exact hp
        · exact (hq.sub v hv).1
      · intro u v hu hv huv
        rcases List.mem_cons.mp hu with e1 | hu2
        · rcases List.mem_cons.mp hv with e2 | hv2
          · exact absurd (e1.trans e2.symm) huv
          · rw [e1]; exact (hq.sub v hv2).2
        · rcases List.mem_cons.mp hv with e2 | hv2
          · rw [e2]; exact hsym _ _ (hq.sub u hu2).2
          · exact hq.clique u v hu2 hv2 huv
      · intro w hw hwS
        have hwp : w ≠ p := fun e => hwS (e ▸ List.mem_cons_self _ _)
        have hwS2 : w ∉ S2 := fun e => hwS (List.mem_cons_of_mem _ e)
        by_cases hadj : adj p w
        · have hw2 : (X w ∧ adj p w) ∨ (P w ∧ adj p w) := by
            rcases hw with hw | hw
            · exact Or.inl ⟨hw, hadj⟩
            · exact Or.inr ⟨hw, hadj⟩
          obtain ⟨v, hv, hnv⟩ := hq.maxi w hw2 hwS2
          exact ⟨v, List.mem_cons_of_mem _ hv, hnv⟩
        · exact ⟨p, List.mem_cons_self _ _, fun e => hadj (hsym _ _ e)⟩
    · obtain ⟨hnd, hq⟩ := hLr.sound S hS
      refine ⟨hnd, ⟨fun v hv => (hq.sub v hv).1, hq.clique, ?_⟩⟩
      intro w hw hwS
      apply hq.maxi w _ hwS
      by_cases e : w = p
      · exact Or.inl (Or.inr e)
      · rcases hw with hw | hw
        · exact Or.inl (Or.inl hw)
        · exact Or.inr ⟨hw, e⟩
  · intro T hT hc
    by_cases hTp : T p
    · have hq : Qual adj (fun w => X w ∧ adj p w) (fun w => P w ∧ adj p w)
          (fun v => T v ∧ v ≠ p) := by
        refine ⟨?_, ?_, ?_⟩
        · rintro v ⟨hv, hne⟩
          exact ⟨hT.sub v hv, hT.clique p v hTp hv (Ne.symm hne)⟩
        · rintro u v ⟨hu, _⟩ ⟨hv, _⟩ huv
          exact hT.clique u v hu hv huv
        · intro w hw hwT
          have hadj : adj p w := by
            rcases hw with hw | hw
            · exact hw.2
            · exact hw.2
          have hwp : w ≠ p := by
            rintro rfl
            exact hirr w hp hadj
          have hXP : X w ∨ P w := by
            rcases hw with hw | hw
            · exact Or.inl hw.1
            · exact Or.inr hw.1
          have hwT2 : ¬ T w := fun q => hwT ⟨q, hwp⟩
          obtain ⟨v, hv, hnv⟩ := hT.maxi w hXP hwT2
          refine ⟨v, ⟨hv, ?_⟩, hnv⟩
          rintro rfl
          exact hnv (hsym _ _ hadj)
      obtain ⟨S, hS, hSv⟩ := hLp.complete _ hq
      refine ⟨p :: S, List.mem_append_left _ (List.mem_map_of_mem _ hS), ?_⟩
      intro v
      rw [List.mem_cons, hSv v]
      constructor
      · rintro (rfl | h)
        · exact hTp
        · exact h.1
      · intro h
        by_cases e : v = p
        · exact Or.inl e
        · exact Or.inr ⟨h, e⟩
    · have hq : Qual adj (fun w => X w ∨ w = p) (fun w => P w ∧ w ≠ p) T := by
        refine ⟨?_, hT.clique, ?_⟩
        · intro v hv
          refine ⟨hT.sub v hv, ?_⟩
          rintro rfl
          exact hTp hv
        · intro w hw hwT
          apply hT.maxi w _ hwT
          rcases hw with (hw | rfl) | hw
          · exact Or.inl hw
          · exact Or.inr hp
          · exact Or.inr hw.1
      obtain ⟨c, hc, hTc⟩ := hc
      have hc2 : c ∈ rest := by
        rcases List.mem_cons.mp hc with rfl | hc
        · exact absurd hTc hTp
        · exact hc
      obtain ⟨S, hS, hSv⟩ := hLr.complete T hq ⟨c, hc2, hTc⟩
      exact ⟨S, List.mem_append_right _ hS, hSv⟩
  · rw [List.pairwise_append]
    refine ⟨?_, hLr.distinct, ?_⟩
    · rw [List.pairwise_map]
      refine hLp.distinct.imp_of_mem ?_
      intro S T hS hT hne hsame
      apply hne
      intro v
      constructor
      · intro hv
        rcases List.mem_cons.mp ((hsame v).mp (List.mem_cons_of_mem _ hv)) with rfl | h
        · exact absurd hv (hpS S hS)
        · exact h
      · intro hv
        rcases List.mem_cons.mp ((hsame v).mpr (List.mem_cons_of_mem _ hv)) with rfl | h
        · exact absurd hv (hpS T hT)
        · exact h
    · intro S hS T hT hsame
      obtain ⟨S2, _, rfl⟩ := List.mem_map.mp hS
      exact hpR T hT ((hsame p).mp (List.mem_cons_self _ _))

/-- The pivot argument: every qualified clique meets the non-neighbours of the pivot,
so the candidate loop over them enumerates all qualified cliques. -/
theorem Enum.of_loop {X P : Nat → Prop} {cs : List Nat} {L : List (List Nat)} {u : Nat}
    (hirr : ∀ w, P w → ¬ adj w w) (hu : X u ∨ P u)
    (hcs : ∀ y, y ∈ cs ↔ (P y ∧ ¬ adj u y))
    (h : LoopEnum adj X P cs L) : Enum adj X P L := by
  refine ⟨h.sound, ?_, h.distinct⟩
  intro T hT
  apply h.complete T hT
  by_contra hno
  have hall : ∀ t, T t → adj u t := by
    intro t ht
    by_contra hn
    exact hno ⟨t, (hcs t).mpr ⟨hT.sub t ht, hn⟩, ht⟩
  have hTu : ¬ T u := fun q => hirr u (hT.sub u q) (hall u q)
  obtain ⟨v, hv, hnv⟩ := hT.maxi u hu hTu
  exact hnv (hall v hv)

end Sets

/-! ## Window contents across states -/

section Frames
variable {V : Nat → Prop}

theorem Same.refl (s : PX) (xb xpb pb : Nat) : Same V s s xb xpb pb :=
  ⟨rfl, fun _ _ => Iff.rfl, fun _ _ => Iff.rfl, fun _ _ _ => rfl⟩

theorem Same.trans {s t u : PX} {xb xpb pb : Nat} (h1 : Same V s t xb xpb pb)
    (h2 : Same V t u xb xpb pb) : Same V s u xb xpb pb := by
  refine ⟨h2.len.trans h1.len, ?_, ?_, ?_⟩
  · intro v hv; exact (h2.inX v hv).trans (h1.inX v hv)
  · intro v hv; exact (h2.inP v hv).trans (h1.inP v hv)
  · intro v hv ho
    have e1 := h1.out v hv ho
    have e2 := h2.out v hv (by omega)
    omega

/-- Window contents kept on an inner window are kept on every enclosing window with the
same boundary between X and P. -/
theorem Same.mono {s t : PX} {xb xb2 xpb pb pb2 : Nat} (h : Same V s t xb2 xpb pb2)
    (h1 : xb ≤ xb2) (h4 : pb2 ≤ pb) :
    Same V s t xb xpb pb := by
  refine ⟨h.len, ?_, ?_, ?_⟩
  · intro v hv
    have e1 := h.inX v hv
    have e2 := h.inP v hv
    have e3 := h.out v hv
    omega
  · intro v hv
    have e1 := h.inX v hv
    have e2 := h.inP v hv
    have e3 := h.out v hv
    omega
  · intro v hv ho
    exact h.out v hv (by omega)

theorem Moved.still (s : PX) (xb xpb pb : Nat) : Moved V s s xb xpb pb xpb [] :=
  ⟨rfl, fun _ _ => by simp, fun _ _ => by simp, fun _ _ _ => rfl⟩

theorem Moved.toSame {s t : PX} {xb xpb pb : Nat} (h : Moved V s t xb xpb pb xpb []) :
    Same V s t xb xpb pb :=
  ⟨h.len, fun v hv => by simpa using h.inX v hv, fun v hv => by simpa using h.inP v hv, h.out⟩

/-- The undo loop of lines 235-239 moves the nodes of `movedNodes` back to P. -/
theorem moveBack_fold {s0 : PX} {xb xpb pb : Nat} (hx : xb ≤ xpb) :
    ∀ (l : List Nat) (s : PX) (x : Nat), Inv V s → l.Nodup →
      (∀ v ∈ l, V v ∧ xpb ≤ pos s0 v ∧ pos s0 v < pb) →
      x = xpb + l.length → x ≤ pb → pb ≤ s.pxvector.length →
      Moved V s0 s xb xpb pb x l →
      Inv V (l.foldl moveBack (s, x)).1 ∧ Same V s0 (l.foldl moveBack (s, x)).1 xb xpb pb := by
  intro l
  induction l with
  | nil =>
    intro s x hI _ _ hxl _ _ hM
    simp only [List.length_nil, Nat.add_zero] at hxl
    subst hxl
    exact ⟨hI, hM.toSame⟩
  | cons v l ih =>
    intro s x hI hnd hl hxl hxpb hlen hM
    obtain ⟨hvl, hnd2⟩ := List.nodup_cons.mp hnd
    obtain ⟨hv, hv1, hv2⟩ := hl v (List.mem_cons_self _ _)
    simp only [List.length_cons] at hxl
    have hvX := (hM.inX v hv).mpr (Or.inr (List.mem_cons_self _ _))
    have ht : x - 1 < s.pxvector.length := by omega
    obtain ⟨hwV, hwp⟩ := hI.vec _ ht
    have hps := fun y => pos_swap hI hv ht y
    rw [List.foldl_cons]
    show Inv V (l.foldl moveBack (swapNodeToPos s v (x - 1), x - 1)).1 ∧
      Same V s0 (l.foldl moveBack (swapNodeToPos s v (x - 1), x - 1)).1 xb xpb pb
    apply ih _ _ (inv_swap hI hv ht) hnd2 (fun w hw => hl w (List.mem_cons_of_mem _ hw))
      (by omega) (by omega) (by rw [swap_len_vec]; exact hlen)
    have hne : ∀ y, V y → y ≠ nodeAt s (x - 1) → pos s y ≠ x - 1 := by
      intro y hy hn he
      exact hn (pos_inj hI hy hwV (he.trans hwp.symm))
    refine ⟨?_, ?_, ?_, ?_⟩
    · rw [swap_len_vec]; exact hM.len
    · intro y hy
      have e := hM.inX y hy
      rw [hps y]
      split_ifs with c1 c2
      · subst c1
        constructor
        · intro q; omega
        · rintro (q | q)
          · omega
          · exact absurd q hvl
      · subst c2
        have hvw : pos s v ≠ x - 1 := hne v hv (fun q => c1 q.symm)
        have e2 : (xb ≤ pos s v ∧ pos s v < x - 1) := by omega
        simp only [e2, and_self, true_iff]
        rcases e.mp (by omega) with q | q
        · exact Or.inl q
        · rcases List.mem_cons.mp q with q | q
          · exact absurd q c1
          · exact Or.inr q
      · have hy1 := hne y hy c2
        simp only [List.mem_cons, c1, false_or] at e
        rw [← e]
        omega
    · intro y hy
      have e := hM.inP y hy
      rw [hps y]
      split_ifs with c1 c2
      · subst c1
        constructor
        · intro _; exact ⟨⟨hv1, hv2⟩, hvl⟩
        · intro _; omega
      · subst c2
        have hvw : pos s v ≠ x - 1 := hne v hv (fun q => c1 q.symm)
        constructor
        · intro q; omega
        · rintro ⟨q1, q2⟩
          have : (nodeAt s (x - 1)) ∉ v :: l := by
            intro q3
            rcases List.mem_cons.mp q3 with q3 | q3
            · exact c1 q3
            · exact q2 q3
          have := e.mpr ⟨q1, this⟩
          omega
      · have hy1 := hne y hy c2
        simp only [List.mem_cons, c1, false_or] at e
        rw [← e]
        omega
    · intro y hy ho
      have e := hM.out y hy ho
      have e1 := hM.inX y hy
      have e2 := hM.inP y hy
      have hyl : y ∉ v :: l := by
        intro q
        have := (hl y q).2
        omega
      have hyX : ¬ (xb ≤ pos s y ∧ pos s y < x) := by
        rw [e1]; rintro (q | q)
        · omega
        · exact hyl q
      rw [hps y]
      split_ifs with c1 c2
      · subst c1; exact absurd (List.mem_cons_self _ _) hyl
      · subst c2; omega
      · exact e

end Frames

/-! ## The recursive enumerator -/

theorem oadj_symm (out : StaticOutGraph) (u v : Nat) : oadj out u v → oadj out v u :=
  Or.symm

theorem oadj_irrefl {V : Nat → Prop} {out : StaticOutGraph} (hO : OutOK V out) {u : Nat}
    (hu : V u) : ¬ oadj out u u := by
  rintro (h | h) <;> exact hO.irrefl u hu h

theorem branchLoop_cons (rec : Mem → Nat → Nat → Nat → Option Mem) (out : StaticOutGraph)
    (xb pb p : Nat) (rest : List Nat) (b : Branch) :
    branchLoop rec out xb pb (p :: rest) b =
      match rec ⟨(partitionFor out b.mem.px p xb b.xpbound pb).px, b.mem.r ++ [p], b.mem.result⟩
          (b.xpbound - (partitionFor out b.mem.px p xb b.xpbound pb).xcount) b.xpbound
          (b.xpbound + (partitionFor out b.mem.px p xb b.xpbound pb).pcount) with
      | none => none
      | some m =>
        branchLoop rec out xb pb rest
          ⟨⟨swapNodeToPos m.px p b.xpbound, m.r.dropLast, m.result⟩,
            b.xpbound + 1, b.movedNodes ++ [p]⟩ := rfl

/-- The candidate loop, given that the recursive calls meet their specification. -/
theorem branchLoop_spec {V : Nat → Prop} {out : StaticOutGraph} (hO : OutOK V out) {fuel : Nat}
    (ih : ∀ (m : Mem) (xb xpb pb : Nat), Inv V m.px → xb ≤ xpb → xpb ≤ pb →
      pb ≤ m.px.pxvector.length → pb - xpb < fuel →
      ∃ m2, tomita out fuel m xb xpb pb = some m2 ∧ TomitaPost V out m xb xpb pb m2)
    {xb pb : Nat} :
    ∀ (cs : List Nat) (b : Branch), Inv V b.mem.px → xb ≤ b.xpbound → b.xpbound ≤ pb →
      pb ≤ b.mem.px.pxvector.length → pb - b.xpbound ≤ fuel → cs.Nodup →
      (∀ c ∈ cs, V c ∧ b.xpbound ≤ pos b.mem.px c ∧ pos b.mem.px c < pb) →
      ∃ (b2 : Branch) (L : List (List Nat)),
        branchLoop (tomita out fuel) out xb pb cs b = some b2 ∧
        Inv V b2.mem.px ∧ b2.xpbound = b.xpbound + cs.length ∧ b2.xpbound ≤ pb ∧
        b2.movedNodes = b.movedNodes ++ cs ∧ b2.mem.r = b.mem.r ∧
        b2.mem.result = b.mem.result ++ L.map (fun S => b.mem.r ++ S) ∧
        Moved V b.mem.px b2.mem.px xb b.xpbound pb b2.xpbound cs ∧
        LoopEnum (oadj out)
          (fun w => V w ∧ xb ≤ pos b.mem.px w ∧ pos b.mem.px w < b.xpbound)
          (fun w => V w ∧ b.xpbound ≤ pos b.mem.px w ∧ pos b.mem.px w < pb) cs L := by
  intro cs
  induction cs with
  | nil =>
    intro b hI _ hxp _ _ _ _
    exact ⟨b, [], rfl, hI, rfl, hxp, by simp, rfl, by simp, Moved.still _ _ _ _, LoopEnum.stop⟩
  | cons p rest ihl =>
    intro b hI hxb hxp hlen hfuel hnd hcs
    obtain ⟨hprest, hnd2⟩ := List.nodup_cons.mp hnd
    obtain ⟨hpV, hp1, hp2⟩ := hcs p (List.mem_cons_self _ _)
    have hPI := partitionFor_spec hO hI hpV hxb hxp hlen
    rw [branchLoop_cons]
    generalize partitionFor out b.mem.px p xb b.xpbound pb = a at hPI ⊢
    have hirr := oadj_irrefl hO hpV
    have hpa := (hPI.same.inP p hpV).mpr ⟨hp1, hp2⟩
    have hx := hPI.hx
    have hp := hPI.hp
    have hpb := hPI.hpb
    have hpnc := (hPI.col p hpV (by omega) hpa.2).not.mp hirr
    have hpc : b.xpbound + a.pcount ≤ pos a.px p := by omega
    obtain ⟨m2, hm2, hpost⟩ := ih ⟨a.px, b.mem.r ++ [p], b.mem.result⟩
      (b.xpbound - a.xcount) b.xpbound (b.xpbound + a.pcount) hPI.inv (by omega) (by omega)
      (by show _ ≤ a.px.pxvector.length; omega) (by omega)
    obtain ⟨Lp, hres, henum⟩ := hpost.enum
    have hsame2 := hpost.same
    have hr2 := hpost.r
    dsimp only at hres henum hsame2 hr2
    have hS2 : Same V b.mem.px m2.px xb b.xpbound pb :=
      hPI.same.trans (hsame2.mono (by omega) (by omega))
    have hpm2 : pos m2.px p = pos a.px p := hsame2.out p hpV (Or.inr (by omega))
    have hlen2 : m2.px.pxvector.length = b.mem.px.pxvector.length := hS2.len
    have ht : b.xpbound < m2.px.pxvector.length := by omega
    obtain ⟨hwV, hwp⟩ := hpost.inv.vec _ ht
    have hne : ∀ y, V y → y ≠ nodeAt m2.px b.xpbound → pos m2.px y ≠ b.xpbound := by
      intro y hy hn he
      exact hn (pos_inj hpost.inv hy hwV (he.trans hwp.symm))
    have hps := fun y => pos_swap hpost.inv hpV ht y
    have hI1 : Inv V (swapNodeToPos m2.px p b.xpbound) := inv_swap hpost.inv hpV ht
    have hM1 : Moved V b.mem.px (swapNodeToPos m2.px p b.xpbound) xb b.xpbound pb
        (b.xpbound + 1) [p] := by
      refine ⟨?_, ?_, ?_, ?_⟩
      · rw [swap_len_vec]; exact hlen2
      · intro y hy
        have e := hS2.inX y hy
        rw [hps y, List.mem_singleton]
        split_ifs with c1 c2
        · simp only [c1, or_true, iff_true]; omega
        · subst c2
          have := hne p hpV (fun q => c1 q.symm)
          simp only [c1, or_false]
          rw [← e]; omega
        · have := hne y hy c2
          simp only [c1, or_false]
          rw [← e]; omega
      · intro y hy
        have e := hS2.inP y hy
        rw [hps y, List.mem_singleton]
        split_ifs with c1 c2
        · simp only [c1, not_true_eq_false, and_false, iff_false]; omega
        · subst c2
          have := hne p hpV (fun q => c1 q.symm)
          simp only [c1, not_false_eq_true, and_true]
          rw [← e]; omega
        · have := hne y hy c2
          simp only [c1, not_false_eq_true, and_true]
          rw [← e]; omega
      · intro y hy ho
        have e := hS2.out y hy ho
        rw [hps y]
        split_ifs with c1 c2
        · subst c1; omega
        · subst c2; omega
        · exact e
    obtain ⟨b2, Lr, hb2, hI2, hx2, hxle2, hmv2, hrr2, hres2, hM2, hLE2⟩ :=
      ihl ⟨⟨swapNodeToPos m2.px p b.xpbound, m2.r.dropLast, m2.result⟩,
          b.xpbound + 1, b.movedNodes ++ [p]⟩ hI1 (by show xb ≤ b.xpbound + 1; omega)
        (by show b.xpbound + 1 ≤ pb; omega)
        (by show pb ≤ (swapNodeToPos m2.px p b.xpbound).pxvector.length
            rw [swap_len_vec]; omega)
        (by show pb - (b.xpbound + 1) ≤ fuel; omega) hnd2
        (fun c hc => by
          obtain ⟨hcV, hc1, hc2⟩ := hcs c (List.mem_cons_of_mem _ hc)
          have hcp : c ∉ [p] := by
            rw [List.mem_singleton]; rintro rfl; exact hprest hc
          exact ⟨hcV, (hM1.inP c hcV).mpr ⟨⟨hc1, hc2⟩, hcp⟩⟩)
    dsimp only at hx2 hmv2 hrr2 hres2 hM2 hLE2 hI2
    have hdrop : m2.r.dropLast = b.mem.r := by rw [hr2, List.dropLast_concat]
    refine ⟨b2, Lp.map (List.cons p) ++ Lr, ?_, hI2, ?_, hxle2, ?_, ?_, ?_, ?_, ?_⟩
    · rw [hm2]; exact hb2
    · rw [hx2, List.length_cons]; omega
    · rw [hmv2, List.append_assoc]; rfl
    · rw [hrr2, hdrop]
    · rw [hres2, hres, hdrop]
      simp [List.map_append, List.map_map, Function.comp, List.append_assoc]
    · refine ⟨hM2.len.trans hM1.len, ?_, ?_, ?_⟩
      · intro y hy
        rw [hM2.inX y hy, hM1.inX y hy, List.mem_singleton, List.mem_cons]
        tauto
      · intro y hy
        rw [hM2.inP y hy, hM1.inP y hy, List.mem_singleton, List.mem_cons]
        tauto
      · intro y hy ho
        have e1 := hM1.out y hy ho
        rw [hM2.out y hy (by omega), e1]
    · refine LoopEnum.round (oadj_symm out) (fun w hw => oadj_irrefl hO hw.1)
        ⟨hpV, hp1, hp2⟩ ?_ ?_
      · refine henum.congrSets ?_ ?_
        · intro w
          constructor
          · rintro ⟨hw, g1, g2⟩
            have hc := (hPI.col w hw (by omega) (by omega)).mpr ⟨g1, by omega⟩
            have := (hPI.same.inX w hw).mp ⟨by omega, g2⟩
            exact ⟨⟨hw, this⟩, hc⟩
          · rintro ⟨⟨hw, g⟩, hc⟩
            have g2 := (hPI.same.inX w hw).mpr g
            have := (hPI.col w hw g2.1 (by omega)).mp hc
            exact ⟨hw, this.1, g2.2⟩
        · intro w
          constructor
          · rintro ⟨hw, g1, g2⟩
            have hc := (hPI.col w hw (by omega) (by omega)).mpr ⟨by omega, g2⟩
            have := (hPI.same.inP w hw).mp ⟨g1, by omega⟩
            exact ⟨⟨hw, this⟩, hc⟩
          · rintro ⟨⟨hw, g⟩, hc⟩
            have g2 := (hPI.same.inP w hw).mpr g
            have := (hPI.col w hw (by omega) g2.2).mp hc
            exact ⟨hw, g2.1, this.2⟩
      · refine hLE2.congrLoop ?_ ?_
        · intro w
          constructor
          · rintro ⟨hw, g⟩
            rcases (hM1.inX w hw).mp g with q | q
            · exact Or.inl ⟨hw, q⟩
            · exact Or.inr (List.mem_singleton.mp q)
          · rintro (⟨hw, q⟩ | rfl)
            · exact ⟨hw, (hM1.inX w hw).mpr (Or.inl q)⟩
            · exact ⟨hpV, (hM1.inX w hpV).mpr (Or.inr (List.mem_singleton.mpr rfl))⟩
        · intro w
          constructor
          · rintro ⟨hw, g⟩
            obtain ⟨q1, q2⟩ := (hM1.inP w hw).mp g
            exact ⟨⟨hw, q1⟩, fun e => q2 (List.mem_singleton.mpr e)⟩
          · rintro ⟨⟨hw, q⟩, hne2⟩
            exact ⟨hw, (hM1.inP w hw).mpr ⟨q, fun e => hne2 (List.mem_singleton.mp e)⟩⟩

theorem tomita_succ (out : StaticOutGraph) (fuel : Nat) (m : Mem) (xb xpb pb : Nat) :
    tomita out (fuel + 1) m xb xpb pb =
      if xb = pb then some ⟨m.px, m.r, m.result ++ [m.r]⟩
      else if xpb = pb then some m
      else
        match branchLoop (tomita out fuel) out xb pb
            (buildToCheck out m.px (findPivot out m.px xb xpb pb) xpb pb) ⟨m, xpb, []⟩ with
        | none => none
        | some b =>
          some ⟨(b.movedNodes.foldl moveBack (b.mem.px, b.xpbound)).1, b.mem.r, b.mem.result⟩ :=
  rfl

/-- The specification of `tomita`: with a budget above the size of P the call returns,
and it meets `TomitaPost`. -/
theorem tomita_spec {V : Nat → Prop} {out : StaticOutGraph} (hO : OutOK V out) :
    ∀ (fuel : Nat) (m : Mem) (xb xpb pb : Nat), Inv V m.px → xb ≤ xpb → xpb ≤ pb →
      pb ≤ m.px.pxvector.length → pb - xpb < fuel →
      ∃ m2, tomita out fuel m xb xpb pb = some m2 ∧ TomitaPost V out m xb xpb pb m2 := by
  intro fuel
  induction fuel with
  | zero => intro m xb xpb pb _ _ _ _ h; omega
  | succ fuel ih =>
    intro m xb xpb pb hI hx hp hlen hfuel
    rw [tomita_succ]
    by_cases c1 : xb = pb
    · rw [if_pos c1]
      refine ⟨_, rfl, ⟨hI, Same.refl _ _ _ _, rfl, [[]], by simp, ?_⟩⟩
      apply Enum.emit
      · rintro w ⟨_, g1, g2⟩; omega
      · rintro w ⟨_, g1, g2⟩; omega
    · rw [if_neg c1]
      by_cases c2 : xpb = pb
      · rw [if_pos c2]
        refine ⟨_, rfl, ⟨hI, Same.refl _ _ _ _, rfl, [], by simp, ?_⟩⟩
        apply Enum.prune
        · obtain ⟨hwV, hwp⟩ := hI.vec xb (by omega)
          exact ⟨nodeAt m.px xb, hwV, by omega, by omega⟩
        · rintro w ⟨_, g1, g2⟩; omega
      · rw [if_neg c2]
        obtain ⟨j, hj1, hj2, hj⟩ := findPivot_window out m.px hx hp (by omega)
        obtain ⟨huV, hup⟩ := hI.vec j (by omega)
        rw [← hj] at huV hup
        generalize findPivot out m.px xb xpb pb = u at huV hup ⊢
        obtain ⟨hcnd, hcmem⟩ := buildToCheck_spec hO hI huV hp hlen
        generalize buildToCheck out m.px u xpb pb = cs at hcnd hcmem ⊢
        obtain ⟨b2, L, hb2, hI2, hx2, hxle2, hmv2, hr2, hres2, hM2, hLE2⟩ :=
          branchLoop_spec hO ih cs ⟨m, xpb, []⟩ hI hx hp hlen (by show pb - xpb ≤ fuel; omega)
            hcnd (fun c hc => ⟨((hcmem c).mp hc).1, ((hcmem c).mp hc).2.1⟩)
        dsimp only at hx2 hmv2 hr2 hres2 hM2 hLE2
        rw [hb2]
        simp only [List.nil_append] at hmv2
        have hcsP : ∀ c ∈ cs, V c ∧ xpb ≤ pos m.px c ∧ pos m.px c < pb :=
          fun c hc => ⟨((hcmem c).mp hc).1, ((hcmem c).mp hc).2.1⟩
        obtain ⟨hI3, hS3⟩ := moveBack_fold hx cs b2.mem.px b2.xpbound hI2 hcnd hcsP hx2
          hxle2 (by rw [hM2.len]; exact hlen) hM2
        rw [← hmv2] at hI3 hS3
        refine ⟨_, rfl, ⟨hI3, hS3, hr2, L, hres2, ?_⟩⟩
        apply Enum.of_loop (u := u) (fun w hw => oadj_irrefl hO hw.1) ?_ ?_ hLE2
        · by_cases q : j < xpb
          · exact Or.inl ⟨huV, by omega, by omega⟩
          · exact Or.inr ⟨huV, by omega, by omega⟩
        · intro y
          rw [hcmem y]
          tauto

/-! ## The driver argument on sets -/

theorem DriverEnum.halt {adj : Nat → Nat → Prop} {V : Nat → Prop} {done later : List Nat} :
    DriverEnum adj V done [] later [] := by
  refine ⟨?_, ?_, List.Pairwise.nil⟩
  · intro c hc; exact absurd hc (List.not_mem_nil c)
  · rintro T _ _ ⟨v, hv, _⟩; exact absurd hv (List.not_mem_nil v)

/-- One driver iteration: the maximal cliques whose earliest node is `u`, then those of
the later iterations. -/
theorem DriverEnum.iteration {adj : Nat → Nat → Prop} {done rest later : List Nat} {u : Nat}
    {Lu Lr : List (List Nat)}
    (hnd : (done ++ u :: rest ++ later).Nodup)
    (hsym : ∀ a b, adj a b → adj b a)
    (hirr : ∀ w, w ∈ done ++ u :: rest ++ later → ¬ adj w w)
    (hLu : Enum adj (fun w => w ∈ done ∧ adj u w) (fun w => w ∈ rest ++ later ∧ adj u w) Lu)
    (hLr : DriverEnum adj (fun v => v ∈ done ++ u :: rest ++ later) (done ++ [u]) rest later Lr) :
    DriverEnum adj (fun v => v ∈ done ++ u :: rest ++ later) done (u :: rest) later
      (Lu.map (List.cons u) ++ Lr) := by
  have hu_mem : u ∈ done ++ u :: rest ++ later := by simp
  have hsplit : ∀ w, w ∈ done ++ u :: rest ++ later ↔ (w ∈ done ∨ w = u ∨ w ∈ rest ++ later) := by
    intro w; simp only [List.mem_append, List.mem_cons]; tauto
  have hnd2 : (done ++ u :: (rest ++ later)).Nodup := by
    have e : done ++ u :: rest ++ later = done ++ u :: (rest ++ later) := by simp
    rw [← e]; exact hnd
  have hu_tail : u ∉ rest ++ later :=
    (List.nodup_cons.mp (List.nodup_append.mp hnd2).2.1).1
  have hu_done : u ∉ done := fun h =>
    (List.nodup_append.mp hnd2).2.2 h (List.mem_cons_self _ _)
  have huS : ∀ S ∈ Lu, u ∉ S := by
    intro S hS hmem
    exact hu_tail ((hLu.sound S hS).2.sub u hmem).1
  have huR : ∀ c ∈ Lr, u ∉ c := by
    intro c hc hmem
    obtain ⟨pre, x, post, S, hrest, hcx, _, hS, _⟩ := hLr.sound c hc
    rw [hcx] at hmem
    rcases List.mem_cons.mp hmem with e | e
    · apply hu_tail
      rw [hrest, e]; simp
    · apply hu_tail
      have := hS u e
      rw [hrest]
      simp only [List.mem_append, List.mem_cons] at this ⊢
      tauto
  refine ⟨?_, ?_, ?_⟩
  · intro c hc
    rcases List.mem_append.mp hc with hc | hc
    · obtain ⟨S, hS, rfl⟩ := List.mem_map.mp hc
      obtain ⟨hSnd, hq⟩ := hLu.sound S hS
      refine ⟨[], u, rest, S, rfl, rfl, hSnd, fun v hv => (hq.sub v hv).1, ⟨?_, ?_, ?_, ?_⟩⟩
      · intro v hv
        rcases List.mem_cons.mp hv with e | e
        · rw [e]; exact hu_mem
        · exact (hsplit v).mpr (Or.inr (Or.inr (hq.sub v e).1))
      · exact ⟨u, List.mem_cons_self _ _⟩
      · intro a b ha hb hab
        rcases List.mem_cons.mp ha with e1 | ha2
        · rcases List.mem_cons.mp hb with e2 | hb2
          · exact absurd (e1.trans e2.symm) hab
          · rw [e1]; exact (hq.sub b hb2).2
        · rcases List.mem_cons.mp hb with e2 | hb2
          · rw [e2]; exact hsym _ _ (hq.sub a ha2).2
          · exact hq.clique a b ha2 hb2 hab
      · intro w hw hwS
        have hwu : w ≠ u := fun e => hwS (e ▸ List.mem_cons_self _ _)
        have hwS2 : w ∉ S := fun e => hwS (List.mem_cons_of_mem _ e)
        by_cases hadj : adj u w
        · have hw2 : (w ∈ done ∧ adj u w) ∨ (w ∈ rest ++ later ∧ adj u w) := by
            rcases (hsplit w).mp hw with h | h | h
            · exact Or.inl ⟨h, hadj⟩
            · exact absurd h hwu
            · exact Or.inr ⟨h, hadj⟩
          obtain ⟨v, hv, hnv⟩ := hq.maxi w hw2 hwS2
          exact ⟨v, List.mem_cons_of_mem _ hv, hnv⟩
        · exact ⟨u, List.mem_cons_self _ _, fun e => hadj (hsym _ _ e)⟩
    · obtain ⟨pre, x, post, S, hrest, hcx, hSnd, hS, hmc⟩ := hLr.sound c hc
      exact ⟨u :: pre, x, post, S, by rw [hrest]; rfl, hcx, hSnd, hS, hmc⟩
  · intro T hT hdone hex
    by_cases hTu : T u
    · have hq : Qual adj (fun w => w ∈ done ∧ adj u w) (fun w => w ∈ rest ++ later ∧ adj u w)
          (fun v => T v ∧ v ≠ u) := by
        refine ⟨?_, ?_, ?_⟩
        · rintro v ⟨hv, hne⟩
          refine ⟨?_, hT.clique u v hTu hv (Ne.symm hne)⟩
          rcases (hsplit v).mp (hT.sub v hv) with h | h | h
          · exact absurd hv (hdone v h)
          · exact absurd h hne
          · exact h
        · rintro a b ⟨ha, _⟩ ⟨hb, _⟩ hab
          exact hT.clique a b ha hb hab
        · intro w hw hwT
          have hadj : adj u w := by
            rcases hw with hw | hw
            · exact hw.2
            · exact hw.2
          have hwV : w ∈ done ++ u :: rest ++ later := by
            rcases hw with hw | hw
            · exact (hsplit w).mpr (Or.inl hw.1)
            · exact (hsplit w).mpr (Or.inr (Or.inr hw.1))
          have hwu : w ≠ u := by
            rintro rfl
            exact hirr w hwV hadj
          have hwT2 : ¬ T w := fun q => hwT ⟨q, hwu⟩
          obtain ⟨v, hv, hnv⟩ := hT.maxi w hwV hwT2
          refine ⟨v, ⟨hv, ?_⟩, hnv⟩
          rintro rfl
          exact hnv (hsym _ _ hadj)
      obtain ⟨S, hS, hSv⟩ := hLu.complete _ hq
      refine ⟨u :: S, List.mem_append_left _ (List.mem_map_of_mem _ hS), ?_⟩
      intro v
      rw [List.mem_cons, hSv v]
      constructor
      · rintro (rfl | h)
        · exact hTu
        · exact h.1
      · intro h
        by_cases e : v = u
        · exact Or.inl e
        · exact Or.inr ⟨h, e⟩
    · obtain ⟨x, hx, hTx⟩ := hex
      have hx2 : x ∈ rest := by
        rcases List.mem_cons.mp hx with e | e
        · rw [e] at hTx; exact absurd hTx hTu
        · exact e
      have hdone2 : ∀ v ∈ done ++ [u], ¬ T v := by
        intro v hv
        rcases List.mem_append.mp hv with h | h
        · exact hdone v h
        · rw [List.mem_singleton.mp h]; exact hTu
      obtain ⟨c, hc, hcv⟩ := hLr.complete T hT hdone2 ⟨x, hx2, hTx⟩
      exact ⟨c, List.mem_append_right _ hc, hcv⟩
  · rw [List.pairwise_append]
    refine ⟨?_, hLr.distinct, ?_⟩
    · rw [List.pairwise_map]
      refine hLu.distinct.imp_of_mem ?_
      intro S T hS hT hne hsame
      apply hne
      intro v
      constructor
      · intro hv
        rcases List.mem_cons.mp ((hsame v).mp (List.mem_cons_of_mem _ hv)) with e | h
        · rw [e] at hv; exact absurd hv (huS S hS)
        · exact h
      · intro hv
        rcases List.mem_cons.mp ((hsame v).mpr (List.mem_cons_of_mem _ hv)) with e | h
        · rw [e] at hv; exact absurd hv (huS T hT)
        · exact h
    · intro c1 hc1 c2 hc2 hsame
      obtain ⟨S, _, rfl⟩ := List.mem_map.mp hc1
      exact huR c2 hc2 ((hsame u).mp (List.mem_cons_self _ _))

/-! ## Initialisation of the partition array -/

theorem initStep_fold : ∀ (l : List Nat) (s : PX) (ii : Nat),
    ii + l.length ≤ s.pxvector.length → (∀ v ∈ l, v < s.pxlookup.length) → l.Nodup →
    (l.foldl initStep (s, ii)).1.pxvector.length = s.pxvector.length ∧
    (l.foldl initStep (s, ii)).1.pxlookup.length = s.pxlookup.length ∧
    (∀ k, k < l.length → nodeAt (l.foldl initStep (s, ii)).1 (ii + k) = l.getD k 0 ∧
      pos (l.foldl initStep (s, ii)).1 (l.getD k 0) = ii + k) ∧
    (∀ i, i < ii → nodeAt (l.foldl initStep (s, ii)).1 i = nodeAt s i) ∧
    (∀ v, v ∉ l → pos (l.foldl initStep (s, ii)).1 v = pos s v) := by
  intro l
  induction l with
  | nil =>
    intro s ii _ _ _
    refine ⟨rfl, rfl, ?_, fun _ _ => rfl, fun _ _ => rfl⟩
    intro k hk; exact absurd hk (Nat.not_lt_zero k)
  | cons v l ih =>
    intro s ii hlen hlook hnd
    obtain ⟨hvl, hnd2⟩ := List.nodup_cons.mp hnd
    simp only [List.length_cons] at hlen
    have hv := hlook v (List.mem_cons_self _ _)
    have hstep : initStep (s, ii) v = (⟨s.pxvector.set ii v, s.pxlookup.set v ii⟩, ii + 1) := rfl
    rw [List.foldl_cons, hstep]
    obtain ⟨h1, h2, h3, h4, h5⟩ := ih ⟨s.pxvector.set ii v, s.pxlookup.set v ii⟩ (ii + 1)
      (by simp only [List.length_set]; omega)
      (fun w hw => by simp only [List.length_set]; exact hlook w (List.mem_cons_of_mem _ hw))
      hnd2
    simp only [List.length_set] at h1 h2
    refine ⟨h1, h2, ?_, ?_, ?_⟩
    · intro k hk
      cases k with
      | zero =>
        simp only [List.getD_cons_zero, Nat.add_zero]
        constructor
        · rw [h4 ii (by omega)]
          show (s.pxvector.set ii v).getD ii 0 = v
          rw [getD_set, if_pos ⟨rfl, by omega⟩]
        · rw [h5 v hvl]
          show (s.pxlookup.set v ii).getD v 0 = ii
          rw [getD_set, if_pos ⟨rfl, hv⟩]
      | succ k =>
        simp only [List.getD_cons_succ]
        have := h3 k (by simpa using hk)
        rw [show ii + (k + 1) = ii + 1 + k by omega]
        exact this
    · intro i hi
      rw [h4 i (by omega)]
      show (s.pxvector.set ii v).getD i 0 = s.pxvector.getD i 0
      rw [getD_set, if_neg (by omega)]
    · intro w hw
      rw [h5 w (fun q => hw (List.mem_cons_of_mem _ q))]
      show (s.pxlookup.set v ii).getD w 0 = s.pxlookup.getD w 0
      have hne : v ≠ w := fun e => hw (e ▸ List.mem_cons_self _ _)
      rw [getD_set, if_neg (fun q => hne q.1)]

theorem mem_getD {l : List Nat} {v : Nat} (h : v ∈ l) : ∃ k, k < l.length ∧ l.getD k 0 = v := by
  obtain ⟨k, hk, e⟩ := List.mem_iff_getElem.mp h
  refine ⟨k, hk, ?_⟩
  rw [List.getD_eq_getElem?_getD, List.getElem?_eq_getElem hk]
  exact e

theorem getD_mem {l : List Nat} {k : Nat} (h : k < l.length) : l.getD k 0 ∈ l := by
  rw [List.getD_eq_getElem?_getD, List.getElem?_eq_getElem h]
  exact List.getElem_mem h

/-- After lines 48-58 the partition array holds the ordering and satisfies the bijection
invariant. -/
theorem initPX_inv (G : Graph) {order : List Nat} (hn : G.n = order.length)
    (hz : ∀ v ∈ order, v < G.z) (hnd : order.Nodup) :
    Inv (fun v => v ∈ order) (initPX G order) ∧
      (initPX G order).pxvector.length = order.length := by
  have hn2 : G.numberOfNodes = order.length := hn
  obtain ⟨h1, h2, h3, _, _⟩ := initStep_fold order
    ⟨List.replicate G.numberOfNodes 0, List.replicate G.upperNodeIdBound 0⟩ 0
    (by simp [hn2])
    (fun v hv => by simpa [Graph.upperNodeIdBound] using hz v hv) hnd
  simp only [List.length_replicate] at h1 h2
  have e : initPX G order = (order.foldl initStep
    (⟨List.replicate G.numberOfNodes 0, List.replicate G.upperNodeIdBound 0⟩, 0)).1 := rfl
  rw [e]
  refine ⟨⟨?_, ?_⟩, by rw [h1, hn2]⟩
  · intro v hv
    obtain ⟨k, hk, hkv⟩ := mem_getD hv
    obtain ⟨g1, g2⟩ := h3 k hk
    rw [hkv, Nat.zero_add] at g1 g2
    refine ⟨by rw [h2]; exact hz v hv, by rw [g2, h1, hn2]; exact hk, by rw [g2]; exact g1⟩
  · intro i hi
    rw [h1, hn2] at hi
    obtain ⟨g1, g2⟩ := h3 i hi
    rw [Nat.zero_add] at g1 g2
    rw [g1]
    exact ⟨getD_mem hi, g2⟩

/-! ## The out-graph of a simple graph -/

theorem build_out (G : Graph) (look : List Nat) {u : Nat} (hu : u < G.z) :
    (StaticOutGraph.build G look).forOutEdgesOf u
      = (G.forNeighborsOf u).filter (fun v => decide (look.getD u 0 < look.getD v 0)) := by
  unfold StaticOutGraph.forOutEdgesOf StaticOutGraph.build Graph.upperNodeIdBound
  simp only [List.getD_eq_getElem?_getD, List.getElem?_map, List.getElem?_range hu,
    Option.map_some', Option.getD_some]

theorem mem_nodes_lt {G : Graph} {u : Nat} (h : u ∈ G.nodes) : u < G.z := by
  unfold Graph.nodes at h
  exact List.mem_range.mp (List.mem_filter.mp h).1

theorem nodes_nodup (G : Graph) : G.nodes.Nodup :=
  (List.nodup_range G.z).filter _

/-- The out-graph built in `run` is well formed over the nodes of a simple graph. -/
theorem build_ok {G : Graph} (hG : G.Simple) (look : List Nat) :
    OutOK (fun v => v ∈ G.nodes) (StaticOutGraph.build G look) := by
  refine ⟨?_, ?_, ?_⟩
  · intro u hu
    rw [build_out G look (mem_nodes_lt hu)]
    exact (hG.2 u hu).1.filter _
  · intro u hu v hv
    rw [build_out G look (mem_nodes_lt hu)] at hv
    exact ((hG.2 u hu).2.2 v (List.mem_filter.mp hv).1).1
  · intro u hu hmem
    rw [build_out G look (mem_nodes_lt hu)] at hmem
    exact (hG.2 u hu).2.1 (List.mem_filter.mp hmem).1

/-- Adjacency in the out-graph is adjacency in the graph. -/
theorem build_adj {G : Graph} (hG : G.Simple) {s : PX} (hI : Inv (fun v => v ∈ G.nodes) s)
    {u v : Nat} (hu : u ∈ G.nodes) (hv : v ∈ G.nodes) :
    oadj (StaticOutGraph.build G s.pxlookup) u v ↔ v ∈ G.forNeighborsOf u := by
  unfold oadj
  rw [build_out G _ (mem_nodes_lt hu), build_out G _ (mem_nodes_lt hv)]
  simp only [List.mem_filter, decide_eq_true_eq]
  constructor
  · rintro (h | h)
    · exact h.1
    · exact ((hG.2 v hv).2.2 u h.1).2
  · intro h
    have hne : u ≠ v := by
      rintro rfl
      exact (hG.2 u hu).2.1 h
    have hpos : pos s u ≠ pos s v := fun e => hne (pos_inj hI hu hv e)
    have hpos2 : s.pxlookup.getD u 0 ≠ s.pxlookup.getD v 0 := hpos
    rcases Nat.lt_or_gt_of_ne hpos2 with q | q
    · exact Or.inl ⟨h, q⟩
    · exact Or.inr ⟨((hG.2 u hu).2.2 v h).2, q⟩

/-! ## The driver loop -/

theorem neighborStep_eq {V : Nat → Prop} {s0 : PX} {xpb pb : Nat} (a : Part) (C : Nat → Prop)
    (v : Nat) (h : PInv V s0 0 xpb pb C a) (hv : V v) (hpb : pb = a.px.pxvector.length) :
    neighborStep xpb a v = collectOut 0 xpb pb a v := by
  have hlt := (h.inv.look v hv).2.1
  have e : neighborStep xpb a v
      = if pos a.px v < xpb then
          ⟨swapNodeToPos a.px v (xpb - a.xcount - 1), a.xcount + 1, a.pcount⟩
        else ⟨swapNodeToPos a.px v (xpb + a.pcount), a.xcount, a.pcount + 1⟩ := rfl
  rw [e, collectOut_eq]
  by_cases c : pos a.px v < xpb
  · rw [if_pos c, if_pos ⟨c, Nat.zero_le _⟩]
  · rw [if_neg c, if_neg (fun q => c q.1), if_pos ⟨by omega, by omega⟩]

theorem driverLoop_cons (G : Graph) (out : StaticOutGraph) (fuel u : Nat) (rest : List Nat)
    (d : Driver) :
    driverLoop G out fuel (u :: rest) d =
      match tomita out fuel
          ⟨((G.forNeighborsOf u).foldl (neighborStep d.xpbound)
              ⟨swapNodeToPos d.px u (d.xpbound - 1), 0, 0⟩).px, [u], d.result⟩
          (d.xpbound - ((G.forNeighborsOf u).foldl (neighborStep d.xpbound)
              ⟨swapNodeToPos d.px u (d.xpbound - 1), 0, 0⟩).xcount) d.xpbound
          (d.xpbound + ((G.forNeighborsOf u).foldl (neighborStep d.xpbound)
              ⟨swapNodeToPos d.px u (d.xpbound - 1), 0, 0⟩).pcount) with
      | none => none
      | some m => driverLoop G out fuel rest ⟨m.px, d.xpbound + 1, m.result⟩ := rfl

section DriverLoop
variable {G : Graph} {out : StaticOutGraph} {order : List Nat} {fuel : Nat}

/-- One iteration of the driver loop. -/
theorem driver_step (hO : OutOK (fun v => v ∈ order) out)
    (hadj : ∀ u v, u ∈ order → v ∈ order → (oadj out u v ↔ v ∈ G.forNeighborsOf u))
    (hnb : ∀ u, u ∈ order → (G.forNeighborsOf u).Nodup ∧ ∀ v ∈ G.forNeighborsOf u, v ∈ order)
    (hfuel : order.length ≤ fuel) (hnd : order.Nodup)
    {done tail : List Nat} {u : Nat} (hord : order = done ++ u :: tail) {d : Driver}
    (hD : DInv (fun v => v ∈ order) order done d) :
    ∃ (m2 : Mem) (Lu : List (List Nat)),
      tomita out fuel
          ⟨((G.forNeighborsOf u).foldl (neighborStep d.xpbound)
              ⟨swapNodeToPos d.px u (d.xpbound - 1), 0, 0⟩).px, [u], d.result⟩
          (d.xpbound - ((G.forNeighborsOf u).foldl (neighborStep d.xpbound)
              ⟨swapNodeToPos d.px u (d.xpbound - 1), 0, 0⟩).xcount) d.xpbound
          (d.xpbound + ((G.forNeighborsOf u).foldl (neighborStep d.xpbound)
              ⟨swapNodeToPos d.px u (d.xpbound - 1), 0, 0⟩).pcount) = some m2 ∧
      DInv (fun v => v ∈ order) order (done ++ [u]) ⟨m2.px, d.xpbound + 1, m2.result⟩ ∧
      m2.result = d.result ++ Lu.map (List.cons u) ∧
      Enum (oadj out) (fun w => w ∈ done ∧ oadj out u w) (fun w => w ∈ tail ∧ oadj out u w)
        Lu := by
  have hI := hD.inv
  have hlen := hD.len
  have hxpb := hD.xpb
  have huV : u ∈ order := by rw [hord]; simp
  have hnd2 : (done ++ u :: tail).Nodup := hord ▸ hnd
  have hu_done : u ∉ done := fun h =>
    (List.nodup_append.mp hnd2).2.2 h (List.mem_cons_self _ _)
  have hu_tail : u ∉ tail := (List.nodup_cons.mp (List.nodup_append.mp hnd2).2.1).1
  have htail_done : ∀ w, w ∈ tail → w ∉ done := fun w hw h =>
    (List.nodup_append.mp hnd2).2.2 h (List.mem_cons_of_mem _ hw)
  have hsplit : ∀ w, w ∈ order ↔ (w ∈ done ∨ w = u ∨ w ∈ tail) := by
    intro w; rw [hord]; simp only [List.mem_append, List.mem_cons]
  have hk : done.length < order.length := by
    rw [hord]; simp only [List.length_append, List.length_cons]; omega
  have hupos : done.length ≤ pos d.px u := by
    by_contra q
    exact hu_done ((hD.proc u huV).mp (by omega))
  rw [hxpb, Nat.add_sub_cancel]
  have ht : done.length < d.px.pxvector.length := by omega
  obtain ⟨hwV, hwp⟩ := hI.vec _ ht
  have hps := fun y => pos_swap hI huV ht y
  have hI1 : Inv (fun v => v ∈ order) (swapNodeToPos d.px u done.length) := inv_swap hI huV ht
  have hlen1 : (swapNodeToPos d.px u done.length).pxvector.length = order.length := by
    rw [swap_len_vec]; exact hlen
  have hpu1 : pos (swapNodeToPos d.px u done.length) u = done.length := by
    rw [hps u, if_pos rfl]
  have hproc1 : ∀ y, y ∈ order →
      (pos (swapNodeToPos d.px u done.length) y < done.length ↔ y ∈ done) := by
    intro y hy
    have e := hD.proc y hy
    rw [hps y]
    split_ifs with c1 c2
    · subst c1
      constructor
      · intro q; omega
      · intro q; exact absurd q hu_done
    · subst c2
      rw [← e]; omega
    · exact e
  -- the neighbours of `u` are grouped around the boundary
  have hPI : PInv (fun v => v ∈ order) (swapNodeToPos d.px u done.length) 0
      (done.length + 1) order.length (fun y => False ∨ y ∈ G.forNeighborsOf u)
      ((G.forNeighborsOf u).foldl (neighborStep (done.length + 1))
        ⟨swapNodeToPos d.px u done.length, 0, 0⟩) :=
    collect_fold
    (fun a C v h hv => neighborStep_eq a C v h hv (by rw [h.same.len, hlen1]))
    (G.forNeighborsOf u) ⟨swapNodeToPos d.px u done.length, 0, 0⟩ (fun _ => False)
    (PInv.start hI1 (Nat.zero_le _) (by omega) (by omega))
    (hnb u huV).1 (fun v hv => ⟨(hnb u huV).2 v hv, fun q => q⟩)
  generalize (G.forNeighborsOf u).foldl (neighborStep (done.length + 1))
    ⟨swapNodeToPos d.px u done.length, 0, 0⟩ = a at hPI ⊢
  have hx := hPI.hx
  have hp := hPI.hp
  have hpb := hPI.hpb
  have hcol : ∀ w, w ∈ order → (oadj out u w ↔
      (done.length + 1 - a.xcount ≤ pos a.px w ∧ pos a.px w < done.length + 1 + a.pcount)) := by
    intro w hw
    have hlt := (hPI.inv.look w hw).2.1
    rw [hadj u w huV hw, ← hPI.col w hw (Nat.zero_le _) (by rw [hPI.same.len, hlen1] at hlt; exact hlt)]
    simp
  obtain ⟨m2, hm2, hpost⟩ := tomita_spec hO fuel ⟨a.px, [u], d.result⟩
    (done.length + 1 - a.xcount) (done.length + 1) (done.length + 1 + a.pcount) hPI.inv
    (by omega) (by omega) (by show _ ≤ a.px.pxvector.length; omega) (by omega)
  obtain ⟨Lu, hres, henum⟩ := hpost.enum
  have hsame2 := hpost.same
  dsimp only at hres henum hsame2
  have hS2 : Same (fun v => v ∈ order) (swapNodeToPos d.px u done.length) m2.px 0
      (done.length + 1) order.length :=
    hPI.same.trans (hsame2.mono (Nat.zero_le _) (by omega))
  have hin1 : ∀ w, w ∈ order →
      (pos (swapNodeToPos d.px u done.length) w < done.length + 1 ↔ (w ∈ done ∨ w = u)) := by
    intro w hw
    have e := hproc1 w hw
    constructor
    · intro q
      by_cases c : pos (swapNodeToPos d.px u done.length) w < done.length
      · exact Or.inl (e.mp c)
      · exact Or.inr (pos_inj hI1 hw huV (by rw [hpu1]; omega))
    · rintro (q | q)
      · have := e.mpr q; omega
      · rw [q, hpu1]; omega
  have hunb : ¬ oadj out u u := oadj_irrefl hO huV
  refine ⟨m2, Lu, hm2, ⟨hpost.inv, by rw [hS2.len, hlen1], ?_, ?_⟩, ?_, ?_⟩
  · show done.length + 1 + 1 = (done ++ [u]).length + 1
    simp
  · intro y hy
    show pos m2.px y < (done ++ [u]).length ↔ y ∈ done ++ [u]
    have e := hS2.inX y hy
    have e1 := hin1 y hy
    rw [List.length_append, List.length_singleton, List.mem_append, List.mem_singleton, ← e1]
    omega
  · rw [hres]; rfl
  · refine henum.congrSets ?_ ?_
    · intro w
      constructor
      · rintro ⟨hw, g1, g2⟩
        have hc := (hcol w hw).mpr ⟨g1, by omega⟩
        have e := (hPI.same.inX w hw).mp ⟨Nat.zero_le _, g2⟩
        rcases (hin1 w hw).mp e.2 with q | q
        · exact ⟨q, hc⟩
        · rw [q] at hc; exact absurd hc hunb
      · rintro ⟨hw, hc⟩
        have hwV : w ∈ order := (hsplit w).mpr (Or.inl hw)
        have e := (hPI.same.inX w hwV).mpr ⟨Nat.zero_le _, (hin1 w hwV).mpr (Or.inl hw)⟩
        have := (hcol w hwV).mp hc
        exact ⟨hwV, this.1, e.2⟩
    · intro w
      constructor
      · rintro ⟨hw, g1, g2⟩
        have hc := (hcol w hw).mpr ⟨by omega, g2⟩
        have e := (hPI.same.inP w hw).mp ⟨g1, by omega⟩
        have hn : ¬ (w ∈ done ∨ w = u) := by
          rw [← hin1 w hw]; omega
        rcases (hsplit w).mp hw with q | q | q
        · exact absurd (Or.inl q) hn
        · exact absurd (Or.inr q) hn
        · exact ⟨q, hc⟩
      · rintro ⟨hw, hc⟩
        have hwV : w ∈ order := (hsplit w).mpr (Or.inr (Or.inr hw))
        have hn : ¬ (w ∈ done ∨ w = u) := by
          rintro (q | q)
          · exact htail_done w hw q
          · rw [q] at hw; exact hu_tail hw
        rw [← hin1 w hwV] at hn
        have hlt := (hI1.look w hwV).2.1
        have e := (hPI.same.inP w hwV).mpr ⟨by omega, by omega⟩
        have := (hcol w hwV).mp hc
        exact ⟨hwV, e.1, this.2⟩

/-- The driver loop over a stretch `rest` of the ordering. -/
theorem driverLoop_spec (hO : OutOK (fun v => v ∈ order) out)
    (hadj : ∀ u v, u ∈ order → v ∈ order → (oadj out u v ↔ v ∈ G.forNeighborsOf u))
    (hnb : ∀ u, u ∈ order → (G.forNeighborsOf u).Nodup ∧ ∀ v ∈ G.forNeighborsOf u, v ∈ order)
    (hfuel : order.length ≤ fuel) (hnd : order.Nodup) :
    ∀ (rest done later : List Nat) (d : Driver), order = done ++ rest ++ later →
      DInv (fun v => v ∈ order) order done d →
      ∃ (d2 : Driver) (L : List (List Nat)),
        driverLoop G out fuel rest d = some d2 ∧ d2.result = d.result ++ L ∧
        DInv (fun v => v ∈ order) order (done ++ rest) d2 ∧
        DriverEnum (oadj out) (fun v => v ∈ order) done rest later L := by
  intro rest
  induction rest with
  | nil =>
    intro done later d _ hD
    exact ⟨d, [], rfl, by simp, by simpa using hD, DriverEnum.halt⟩
  | cons u rest ih =>
    intro done later d hord hD
    have hord2 : order = done ++ u :: (rest ++ later) := by rw [hord]; simp
    obtain ⟨m2, Lu, hm2, hD2, hres, hLu⟩ := driver_step hO hadj hnb hfuel hnd hord2 hD
    obtain ⟨d2, Lr, hd2, hres2, hD3, hLr⟩ := ih (done ++ [u]) later
      ⟨m2.px, d.xpbound + 1, m2.result⟩ (by rw [hord]; simp) hD2
    refine ⟨d2, Lu.map (List.cons u) ++ Lr, ?_, ?_, ?_, ?_⟩
    · rw [driverLoop_cons, hm2]; exact hd2
    · rw [hres2, hres, List.append_assoc]
    · have e : done ++ u :: rest = done ++ [u] ++ rest := by simp
      rw [e]; exact hD3
    · have hV : (fun v => v ∈ order) = (fun v => v ∈ done ++ u :: rest ++ later) := by
        rw [hord]
      rw [hV] at hLr ⊢
      exact DriverEnum.iteration (hord ▸ hnd) (oadj_symm out)
        (fun w hw => oadj_irrefl hO (by rw [hord]; exact hw)) hLu hLr

end DriverLoop

/-! ## The whole run -/

theorem driverLoop_append (G : Graph) (out : StaticOutGraph) (fuel : Nat) :
    ∀ (l1 l2 : List Nat) (d : Driver),
      driverLoop G out fuel (l1 ++ l2) d
        = (driverLoop G out fuel l1 d).bind (driverLoop G out fuel l2) := by
  intro l1
  induction l1 with
  | nil => intro l2 d; rfl
  | cons u l1 ih =>
    intro l2 d
    rw [List.cons_append, driverLoop_cons, driverLoop_cons]
    cases tomita out fuel
        ⟨((G.forNeighborsOf u).foldl (neighborStep d.xpbound)
            ⟨swapNodeToPos d.px u (d.xpbound - 1), 0, 0⟩).px, [u], d.result⟩
        (d.xpbound - ((G.forNeighborsOf u).foldl (neighborStep d.xpbound)
            ⟨swapNodeToPos d.px u (d.xpbound - 1), 0, 0⟩).xcount) d.xpbound
        (d.xpbound + ((G.forNeighborsOf u).foldl (neighborStep d.xpbound)
            ⟨swapNodeToPos d.px u (d.xpbound - 1), 0, 0⟩).pcount) with
    | none => rfl
    | some m => exact ih l2 _

theorem run_eq (fuel : Nat) (A : MaximalCliques) (order : List Nat) :
    A.run fuel order =
      match driverLoop A.G (StaticOutGraph.build A.G (initPX A.G order).pxlookup) fuel order
          ⟨initPX A.G order, 1, []⟩ with
      | none => none
      | some d => some ⟨A.G, d.result, true⟩ := by
  unfold MaximalCliques.run MaximalCliques.runLoop MaximalCliques.runEnter
  simp only
  cases driverLoop A.G (StaticOutGraph.build A.G (initPX A.G order).pxlookup) fuel order
      ⟨initPX A.G order, 1, []⟩ <;> rfl

/-- The hypotheses of the driver loop hold in `run` on a simple graph with a permutation
ordering. -/
theorem run_setup {G : Graph} {order : List Nat} (hG : G.Simple)
    (hO : order.Perm G.nodes) :
    order.Nodup ∧ G.numberOfNodes = order.length ∧
    OutOK (fun v => v ∈ order) (StaticOutGraph.build G (initPX G order).pxlookup) ∧
    (∀ u v, u ∈ order → v ∈ order →
      (oadj (StaticOutGraph.build G (initPX G order).pxlookup) u v ↔ v ∈ G.forNeighborsOf u)) ∧
    (∀ u, u ∈ order → (G.forNeighborsOf u).Nodup ∧ ∀ v ∈ G.forNeighborsOf u, v ∈ order) ∧
    DInv (fun v => v ∈ order) order [] ⟨initPX G order, 1, []⟩ := by
  have hnd : order.Nodup := hO.nodup_iff.mpr (nodes_nodup G)
  have hn : G.n = order.length := by rw [hG.1, hO.length_eq]
  have hV : (fun v => v ∈ order) = (fun v => v ∈ G.nodes) :=
    funext fun v => propext hO.mem_iff
  obtain ⟨hI, hlen⟩ := initPX_inv G hn (fun v hv => mem_nodes_lt (hO.mem_iff.mp hv)) hnd
  refine ⟨hnd, hn, ?_, ?_, ?_, ⟨hI, hlen, rfl, ?_⟩⟩
  · rw [hV]; exact build_ok hG _
  · intro u v hu hv
    exact build_adj hG (hV ▸ hI) (hO.mem_iff.mp hu) (hO.mem_iff.mp hv)
  · intro u hu
    have h := hG.2 u (hO.mem_iff.mp hu)
    exact ⟨h.1, fun v hv => hO.mem_iff.mpr (h.2.2 v hv).1⟩
  · intro y _
    simp

/-- On a simple graph with a permutation ordering and a budget of the number of nodes,
`run` completes, and `result` enumerates the maximal cliques. -/
theorem run_spec (A : MaximalCliques) (order : List Nat) (fuel : Nat) (hG : A.G.Simple)
    (hO : order.Perm A.G.nodes) (hf : A.G.numberOfNodes ≤ fuel) :
    ∃ B, A.run fuel order = some B ∧ B.G = A.G ∧ B.hasRun = true ∧
      DriverEnum (oadj (StaticOutGraph.build A.G (initPX A.G order).pxlookup))
        (fun v => v ∈ order) [] order [] B.result := by
  obtain ⟨hnd, hn, hOK, hadj, hnb, hD⟩ := run_setup hG hO
  obtain ⟨d2, L, hd2, hres, _, hL⟩ := driverLoop_spec hOK hadj hnb (hn ▸ hf) hnd
    order [] [] ⟨initPX A.G order, 1, []⟩ (by simp) hD
  refine ⟨⟨A.G, d2.result, true⟩, ?_, rfl, rfl, ?_⟩
  · rw [run_eq, hd2]
  · rw [hres]; exact hL

/-- Entries with different node sets stay different as finite sets. -/
theorem distinct_toFinset {L : List (List Nat)}
    (h : L.Pairwise (fun S T => ¬ SameSet S T)) : (L.map List.toFinset).Nodup := by
  unfold List.Nodup
  rw [List.pairwise_map]
  refine h.imp ?_
  intro S T hne e
  apply hne
  intro v
  rw [← List.mem_toFinset, e, List.mem_toFinset]

/-- A maximal clique of the graph, given as a finite set, is one over the out-graph. -/
theorem maxClique_of {G : Graph} {order : List Nat} {out : StaticOutGraph}
    (hO : order.Perm G.nodes)
    (hadj : ∀ u v, u ∈ order → v ∈ order → (oadj out u v ↔ v ∈ G.forNeighborsOf u))
    {T : Finset Nat} (hT : G.IsMaximalClique T) :
    MaxClique (oadj out) (fun v => v ∈ order) (fun v => v ∈ T) := by
  obtain ⟨h1, h2, h3, h4⟩ := hT
  have hV : ∀ v, v ∈ T → v ∈ order := fun v hv => hO.mem_iff.mpr (h2 v hv)
  refine ⟨hV, h1, ?_, ?_⟩
  · intro u v hu hv huv
    rw [hadj u v (hV u hu) (hV v hv)]
    simpa [Graph.hasEdge] using h3 u hu v hv huv
  · intro w hw hwT
    obtain ⟨v, hv, hn⟩ := h4 w (hO.mem_iff.mp hw) hwT
    refine ⟨v, hv, ?_⟩
    rw [hadj w v hw (hV v hv)]
    simpa [Graph.hasEdge] using hn

/-! ## The budget is immaterial -/

theorem branchLoop_mono {rec1 rec2 : Mem → Nat → Nat → Nat → Option Mem}
    (h : ∀ m a b c m2, rec1 m a b c = some m2 → rec2 m a b c = some m2)
    (out : StaticOutGraph) (xb pb : Nat) :
    ∀ (cs : List Nat) (b b2 : Branch), branchLoop rec1 out xb pb cs b = some b2 →
      branchLoop rec2 out xb pb cs b = some b2 := by
  intro cs
  induction cs with
  | nil => intro b b2 hb; exact hb
  | cons p rest ih =>
    intro b b2 hb
    rw [branchLoop_cons] at hb ⊢
    cases h1 : rec1 ⟨(partitionFor out b.mem.px p xb b.xpbound pb).px, b.mem.r ++ [p],
        b.mem.result⟩ (b.xpbound - (partitionFor out b.mem.px p xb b.xpbound pb).xcount)
        b.xpbound (b.xpbound + (partitionFor out b.mem.px p xb b.xpbound pb).pcount) with
    | none => rw [h1] at hb; exact Option.noConfusion hb
    | some m =>
      rw [h1] at hb
      rw [h _ _ _ _ _ h1]
      exact ih _ _ hb

/-- A call of `tomita` that returns within a budget returns the same with a larger one. -/
theorem tomita_mono (out : StaticOutGraph) :
    ∀ (fuel : Nat) (m : Mem) (xb xpb pb : Nat) (m2 : Mem),
      tomita out fuel m xb xpb pb = some m2 → tomita out (fuel + 1) m xb xpb pb = some m2 := by
  intro fuel
  induction fuel with
  | zero => intro m xb xpb pb m2 h; exact Option.noConfusion h
  | succ fuel ih =>
    intro m xb xpb pb m2 h
    rw [tomita_succ] at h ⊢
    by_cases c1 : xb = pb
    · rw [if_pos c1] at h ⊢; exact h
    · rw [if_neg c1] at h ⊢
      by_cases c2 : xpb = pb
      · rw [if_pos c2] at h ⊢; exact h
      · rw [if_neg c2] at h ⊢
        cases hb : branchLoop (tomita out fuel) out xb pb
            (buildToCheck out m.px (findPivot out m.px xb xpb pb) xpb pb) ⟨m, xpb, []⟩ with
        | none => rw [hb] at h; exact Option.noConfusion h
        | some b =>
          rw [hb] at h
          rw [branchLoop_mono ih out xb pb _ _ _ hb]
          exact h

theorem tomita_mono_le (out : StaticOutGraph) {fuel fuel2 : Nat} (hle : fuel ≤ fuel2)
    {m : Mem} {xb xpb pb : Nat} {m2 : Mem} (h : tomita out fuel m xb xpb pb = some m2) :
    tomita out fuel2 m xb xpb pb = some m2 := by
  induction hle with
  | refl => exact h
  | step _ ih => exact tomita_mono out _ _ _ _ _ _ ih

theorem driverLoop_mono (G : Graph) (out : StaticOutGraph) {fuel fuel2 : Nat}
    (hle : fuel ≤ fuel2) :
    ∀ (l : List Nat) (d d2 : Driver), driverLoop G out fuel l d = some d2 →
      driverLoop G out fuel2 l d = some d2 := by
  intro l
  induction l with
  | nil => intro d d2 h; exact h
  | cons u l ih =>
    intro d d2 h
    rw [driverLoop_cons] at h ⊢
    cases h1 : tomita out fuel
        ⟨((G.forNeighborsOf u).foldl (neighborStep d.xpbound)
            ⟨swapNodeToPos d.px u (d.xpbound - 1), 0, 0⟩).px, [u], d.result⟩
        (d.xpbound - ((G.forNeighborsOf u).foldl (neighborStep d.xpbound)
            ⟨swapNodeToPos d.px u (d.xpbound - 1), 0, 0⟩).xcount) d.xpbound
        (d.xpbound + ((G.forNeighborsOf u).foldl (neighborStep d.xpbound)
            ⟨swapNodeToPos d.px u (d.xpbound - 1), 0, 0⟩).pcount) with
    | none => rw [h1] at h; exact Option.noConfusion h
    | some m =>
      rw [h1] at h
      rw [tomita_mono_le out hle h1]
      exact ih _ _ h

/-- A run that completes within a budget completes with the same outcome within every
larger budget. -/
theorem run_mono {fuel fuel2 : Nat} (hle : fuel ≤ fuel2) {A B : MaximalCliques}
    {order : List Nat} (h : A.run fuel order = some B) : A.run fuel2 order = some B := by
  rw [run_eq] at h ⊢
  cases hd : driverLoop A.G (StaticOutGraph.build A.G (initPX A.G order).pxlookup) fuel order
      ⟨initPX A.G order, 1, []⟩ with
  | none => rw [hd] at h; exact Option.noConfusion h
  | some d =>
    rw [hd] at h
    rw [driverLoop_mono A.G _ hle order _ _ hd]
    exact h

/-- A maximal clique over the out-graph, given as a list, is one of the graph. -/
theorem maxClique_to {G : Graph} {order : List Nat} {out : StaticOutGraph}
    (hO : order.Perm G.nodes)
    (hadj : ∀ u v, u ∈ order → v ∈ order → (oadj out u v ↔ v ∈ G.forNeighborsOf u))
    {c : List Nat} (hc : MaxClique (oadj out) (fun v => v ∈ order) (fun v => v ∈ c)) :
    G.IsMaximalClique c.toFinset := by
  obtain ⟨h1, ⟨x, hx⟩, h3, h4⟩ := hc
  refine ⟨⟨x, List.mem_toFinset.mpr hx⟩, ?_, ?_, ?_⟩
  · intro v hv
    exact hO.mem_iff.mp (h1 v (List.mem_toFinset.mp hv))
  · intro u hu v hv huv
    rw [List.mem_toFinset] at hu hv
    have := (hadj u v (h1 u hu) (h1 v hv)).mp (h3 u v hu hv huv)
    simpa [Graph.hasEdge] using this
  · intro w hw hwc
    rw [List.mem_toFinset] at hwc
    obtain ⟨v, hv, hn⟩ := h4 w (hO.mem_iff.mpr hw) hwc
    refine ⟨v, List.mem_toFinset.mpr hv, ?_⟩
    rw [hadj w v (hO.mem_iff.mpr hw) (h1 v hv)] at hn
    simpa [Graph.hasEdge] using hn

/-- On a simple graph with a permutation ordering, `run` completes and the node sets of
the entries of `result` are, without repetition, the maximal cliques of the graph. -/
theorem run_sets (A : MaximalCliques) (order : List Nat) (fuel : Nat) (hG : A.G.Simple)
    (hO : order.Perm A.G.nodes) (hf : A.G.numberOfNodes ≤ fuel) :
    ∃ B, A.run fuel order = some B ∧ (B.result.map List.toFinset).Nodup ∧
      (∀ T : Finset Nat, T ∈ B.result.map List.toFinset ↔ A.G.IsMaximalClique T) ∧
      (∀ c ∈ B.result, c.Nodup) := by
  obtain ⟨B, hB, _, _, hE⟩ := run_spec A order fuel hG hO hf
  obtain ⟨hnd, _, _, hadj, _, _⟩ := run_setup hG hO
  refine ⟨B, hB, distinct_toFinset hE.distinct, ?_, ?_⟩
  · intro T
    constructor
    · intro hT
      obtain ⟨c, hc, rfl⟩ := List.mem_map.mp hT
      obtain ⟨pre, u, post, S, _, hcu, _, _, hmc⟩ := hE.sound c hc
      rw [hcu]
      exact maxClique_to hO hadj hmc
    · intro hT
      obtain ⟨c, hc, hcv⟩ := hE.complete _ (maxClique_of hO hadj hT)
        (fun v hv => absurd hv (List.not_mem_nil v))
        (by
          obtain ⟨x, hx⟩ := hT.1
          exact ⟨x, hO.mem_iff.mpr (hT.2.1 x hx), hx⟩)
      refine List.mem_map.mpr ⟨c, hc, ?_⟩
      ext v
      rw [List.mem_toFinset, hcv v]
  · intro c hc
    obtain ⟨pre, u, post, S, hord, hcu, hSnd, hS, _⟩ := hE.sound c hc
    rw [hcu]
    refine List.nodup_cons.mpr ⟨?_, hSnd⟩
    intro huS
    have h1 := hS u huS
    rw [List.append_nil] at h1
    rw [hord] at hnd
    exact (List.nodup_cons.mp (List.nodup_append.mp hnd).2.1).1 h1

/-! ## Contract of the enumeration -/

/-- C1 (completeness). For a simple undirected graph, an ordering that is a permutation
of its nodes and a recursion budget of at least the number of nodes, `run` completes,
and every maximal clique of the graph (a non-empty set of pairwise adjacent nodes that
no further node extends) is the node set of exactly one entry of `result`. -/
theorem run_complete (A : MaximalCliques) (orderedNodes : List Nat) (fuel : Nat)
    (hG : A.G.Simple) (hO : orderedNodes.Perm A.G.nodes) (hf : A.G.numberOfNodes ≤ fuel) :
    ∃ B, A.run fuel orderedNodes = some B ∧
      ∀ T : Finset Nat, A.G.IsMaximalClique T →
        (B.result.map List.toFinset).count T = 1 := by
  obtain ⟨B, hB, hnd, hmem, _⟩ := run_sets A orderedNodes fuel hG hO hf
  exact ⟨B, hB, fun T hT => List.count_eq_one_of_mem hnd ((hmem T).mpr hT)⟩

theorem run_complete_witness :
    ∃ B, (MaximalCliques.new edgeGraph).run 2 [1, 0] = some B ∧
      ∀ T : Finset Nat, (MaximalCliques.new edgeGraph).G.IsMaximalClique T →
        (B.result.map List.toFinset).count T = 1 :=
  run_complete (MaximalCliques.new edgeGraph) [1, 0] 2 (by decide) (by decide) (by decide)

/-- C2 (maximality). Under the same conditions `run` completes, and for every entry `c`
of `result` and every node `v` of the graph outside `c`, some node of `c` is not adjacent
to `v`. -/
theorem run_maximal (A : MaximalCliques) (orderedNodes : List Nat) (fuel : Nat)
    (hG : A.G.Simple) (hO : orderedNodes.Perm A.G.nodes) (hf : A.G.numberOfNodes ≤ fuel) :
    ∃ B, A.run fuel orderedNodes = some B ∧
      ∀ c ∈ B.result, ∀ v ∈ A.G.nodes, v ∉ c → ∃ w ∈ c, A.G.hasEdge w v = false := by
  obtain ⟨B, hB, hnd, hmem, _⟩ := run_sets A orderedNodes fuel hG hO hf
  refine ⟨B, hB, ?_⟩
  intro c hc v hv hvc
  have hT := (hmem c.toFinset).mp (List.mem_map_of_mem _ hc)
  obtain ⟨w, hw, hn⟩ := hT.2.2.2 v hv (fun q => hvc (List.mem_toFinset.mp q))
  have hwc := List.mem_toFinset.mp hw
  refine ⟨w, hwc, ?_⟩
  have hwV := hT.2.1 w hw
  -- adjacency is symmetric in a simple graph
  cases hwv : A.G.hasEdge w v with
  | false => rfl
  | true =>
    have h1 : v ∈ A.G.forNeighborsOf w := by simpa [Graph.hasEdge] using hwv
    have h2 := ((hG.2 w hwV).2.2 v h1).2
    have h3 : A.G.hasEdge v w = true := by simpa [Graph.hasEdge] using h2
    rw [h3] at hn
    exact Bool.noConfusion hn

theorem run_maximal_witness :
    ∃ B, (MaximalCliques.new pathGraph).run 3 [2, 0, 1] = some B ∧
      ∀ c ∈ B.result, ∀ v ∈ (MaximalCliques.new pathGraph).G.nodes, v ∉ c →
        ∃ w ∈ c, (MaximalCliques.new pathGraph).G.hasEdge w v = false :=
  run_maximal (MaximalCliques.new pathGraph) [2, 0, 1] 3 (by decide) (by decide) (by decide)

/-- C3 (validity). Under the same conditions `run` completes, and every entry of `result`
is a list of pairwise distinct nodes of the graph, any two of them joined by an edge. -/
theorem run_valid (A : MaximalCliques) (orderedNodes : List Nat) (fuel : Nat)
    (hG : A.G.Simple) (hO : orderedNodes.Perm A.G.nodes) (hf : A.G.numberOfNodes ≤ fuel) :
    ∃ B, A.run fuel orderedNodes = some B ∧
      ∀ c ∈ B.result, c.Nodup ∧ (∀ v ∈ c, v ∈ A.G.nodes) ∧
        ∀ u ∈ c, ∀ v ∈ c, u ≠ v → A.G.hasEdge u v = true := by
  obtain ⟨B, hB, hnd, hmem, hcn⟩ := run_sets A orderedNodes fuel hG hO hf
  refine ⟨B, hB, ?_⟩
  intro c hc
  have hT := (hmem c.toFinset).mp (List.mem_map_of_mem _ hc)
  refine ⟨hcn c hc, fun v hv => hT.2.1 v (List.mem_toFinset.mpr hv), ?_⟩
  intro u hu v hv huv
  exact hT.2.2.1 u (List.mem_toFinset.mpr hu) v (List.mem_toFinset.mpr hv) huv

theorem run_valid_witness :
    ∃ B, (MaximalCliques.new twoTriangles).run 6 [3, 0, 4, 1, 5, 2] = some B ∧
      ∀ c ∈ B.result, c.Nodup ∧ (∀ v ∈ c, v ∈ (MaximalCliques.new twoTriangles).G.nodes) ∧
        ∀ u ∈ c, ∀ v ∈ c, u ≠ v → (MaximalCliques.new twoTriangles).G.hasEdge u v = true :=
  run_valid (MaximalCliques.new twoTriangles) [3, 0, 4, 1, 5, 2] 6 (by decide) (by decide)
    (by decide)

/-- C4 (no duplicates). Under the same conditions `run` completes, and no two entries of
`result` at different indices have the same node set. -/
theorem run_no_duplicates (A : MaximalCliques) (orderedNodes : List Nat) (fuel : Nat)
    (hG : A.G.Simple) (hO : orderedNodes.Perm A.G.nodes) (hf : A.G.numberOfNodes ≤ fuel) :
    ∃ B, A.run fuel orderedNodes = some B ∧
      ∀ i j : Fin B.result.length, i ≠ j →
        (B.result.get i).toFinset ≠ (B.result.get j).toFinset := by
  obtain ⟨B, hB, _, _, hE⟩ := run_spec A orderedNodes fuel hG hO hf
  refine ⟨B, hB, ?_⟩
  have hp := List.pairwise_iff_get.mp hE.distinct
  intro i j hij e
  have hs : SameSet (B.result.get i) (B.result.get j) := by
    intro v
    rw [← List.mem_toFinset, e, List.mem_toFinset]
  rcases lt_or_gt_of_ne hij with h | h
  · exact hp i j h hs
  · exact hp j i h (fun v => (hs v).symm)

theorem run_no_duplicates_witness :
    ∃ B, (MaximalCliques.new (starGraph 3)).run 4 [2, 0, 3, 1] = some B ∧
      ∀ i j : Fin B.result.length, i ≠ j →
        (B.result.get i).toFinset ≠ (B.result.get j).toFinset :=
  run_no_duplicates (MaximalCliques.new (starGraph 3)) [2, 0, 3, 1] 4 (by decide) (by decide)
    (by decide)

theorem driverLoop_three (G : Graph) (out : StaticOutGraph) (fuel : Nat) {pre post : List Nat}
    {u : Nat} {d0 d1 d2 d3 : Driver} (h1 : driverLoop G out fuel pre d0 = some d1)
    (h2 : driverLoop G out fuel [u] d1 = some d2) (h3 : driverLoop G out fuel post d2 = some d3) :
    driverLoop G out fuel (pre ++ u :: post) d0 = some d3 := by
  have e : pre ++ u :: post = pre ++ ([u] ++ post) := by simp
  rw [e, driverLoop_append, h1, Option.some_bind, driverLoop_append, h2, Option.some_bind, h3]

/-- C5 (anchoring). Under the conditions of C1 `run` completes, and every entry `c` of
`result` was emitted in the driver iteration of its first element: the ordering splits as
`pre ++ u :: post` with `c = u :: S`, every element of `S` occurs in `post` (strictly
later than `u`), and `c` is among the entries `E` that the driver iteration for `u`,
started in the state `d1` reached after the iterations for `pre`, appends to `result`. -/
theorem run_anchored (A : MaximalCliques) (orderedNodes : List Nat) (fuel : Nat)
    (hG : A.G.Simple) (hO : orderedNodes.Perm A.G.nodes) (hf : A.G.numberOfNodes ≤ fuel) :
    ∃ B, A.run fuel orderedNodes = some B ∧
      ∀ c ∈ B.result, ∃ (pre : List Nat) (u : Nat) (post S : List Nat),
        orderedNodes = pre ++ u :: post ∧ c = u :: S ∧ (∀ v ∈ S, v ∈ post) ∧
        ∃ (d1 d2 : Driver) (E : List (List Nat)),
          driverLoop A.G (StaticOutGraph.build A.G (initPX A.G orderedNodes).pxlookup) fuel
            pre ⟨initPX A.G orderedNodes, 1, []⟩ = some d1 ∧
          driverLoop A.G (StaticOutGraph.build A.G (initPX A.G orderedNodes).pxlookup) fuel
            [u] d1 = some d2 ∧
          d2.result = d1.result ++ E ∧ c ∈ E := by
  obtain ⟨B, hB, _, _, hE⟩ := run_spec A orderedNodes fuel hG hO hf
  obtain ⟨hnd, hn, hOK, hadj, hnb, hD⟩ := run_setup hG hO
  refine ⟨B, hB, ?_⟩
  intro c hc
  obtain ⟨pre, u, post, S, hord, hcu, _, hS, _⟩ := hE.sound c hc
  have hfu : orderedNodes.length ≤ fuel := hn ▸ hf
  obtain ⟨d1, L1, hd1, hr1, hD1, hE1⟩ := driverLoop_spec hOK hadj hnb hfu hnd
    pre [] (u :: post) ⟨initPX A.G orderedNodes, 1, []⟩ (by rw [hord]; simp) hD
  obtain ⟨d2, E, hd2, hr2, hD2, hE2⟩ := driverLoop_spec hOK hadj hnb hfu hnd
    [u] ([] ++ pre) post d1 (by rw [hord]; simp) hD1
  obtain ⟨d3, L3, hd3, hr3, _, hE3⟩ := driverLoop_spec hOK hadj hnb hfu hnd
    post ([] ++ pre ++ [u]) [] d2 (by rw [hord]; simp) hD2
  have hall : driverLoop A.G (StaticOutGraph.build A.G (initPX A.G orderedNodes).pxlookup) fuel
      orderedNodes ⟨initPX A.G orderedNodes, 1, []⟩ = some d3 := by
    have e := congrArg (fun l => driverLoop A.G
      (StaticOutGraph.build A.G (initPX A.G orderedNodes).pxlookup) fuel l
      ⟨initPX A.G orderedNodes, 1, []⟩) hord
    simp only at e
    rw [e, driverLoop_three _ _ _ hd1 hd2 hd3]
  have hBr : B.result = d3.result := by
    rw [run_eq, hall] at hB
    rw [← Option.some.inj hB]
  have hnd2 : (pre ++ u :: post).Nodup := hord ▸ hnd
  have hu_pre : u ∉ pre := fun h =>
    (List.nodup_append.mp hnd2).2.2 h (List.mem_cons_self _ _)
  have hu_post : u ∉ post := (List.nodup_cons.mp (List.nodup_append.mp hnd2).2.1).1
  refine ⟨pre, u, post, S, hord, hcu, fun v hv => by simpa using hS v hv,
    d1, d2, E, hd1, hd2, hr2, ?_⟩
  rw [hBr, hr3, hr2, hr1] at hc
  simp only [List.nil_append, List.mem_append] at hc
  rcases hc with (h | h) | h
  · exfalso
    obtain ⟨p1, x, p2, S2, hpre, hcx, _⟩ := hE1.sound c h
    have : x = u := by
      rw [hcu] at hcx
      exact (List.cons.inj hcx).1.symm
    apply hu_pre
    rw [hpre, this]; simp
  · exact h
  · exfalso
    obtain ⟨p1, x, p2, S2, hpost, hcx, _⟩ := hE3.sound c h
    have : x = u := by
      rw [hcu] at hcx
      exact (List.cons.inj hcx).1.symm
    apply hu_post
    rw [hpost, this]; simp

theorem run_anchored_witness :
    ∃ B, (MaximalCliques.new pathGraph).run 3 [1, 2, 0] = some B ∧
      ∀ c ∈ B.result, ∃ (pre : List Nat) (u : Nat) (post S : List Nat),
        [1, 2, 0] = pre ++ u :: post ∧ c = u :: S ∧ (∀ v ∈ S, v ∈ post) ∧
        ∃ (d1 d2 : Driver) (E : List (List Nat)),
          driverLoop (MaximalCliques.new pathGraph).G
            (StaticOutGraph.build (MaximalCliques.new pathGraph).G
              (initPX (MaximalCliques.new pathGraph).G [1, 2, 0]).pxlookup) 3
            pre ⟨initPX (MaximalCliques.new pathGraph).G [1, 2, 0], 1, []⟩ = some d1 ∧
          driverLoop (MaximalCliques.new pathGraph).G
            (StaticOutGraph.build (MaximalCliques.new pathGraph).G
              (initPX (MaximalCliques.new pathGraph).G [1, 2, 0]).pxlookup) 3
            [u] d1 = some d2 ∧
          d2.result = d1.result ++ E ∧ c ∈ E :=
  run_anchored (MaximalCliques.new pathGraph) [1, 2, 0] 3 (by decide) (by decide) (by decide)

/-- C6 (result export). `getCliques` fails when `hasRun` is false, in particular on a
fresh object, and returns exactly the stored `result` when `hasRun` is true; `run` is
the entry step, which sets `hasRun` to false, followed by the driver loop, which does
not write `hasRun`, and sets `hasRun` to true only when the loop has finished. -/
theorem getCliques_spec (A : MaximalCliques) (G : Graph) (fuel : Nat)
    (orderedNodes : List Nat) :
    (A.hasRun = false → A.getCliques = Except.error "Error, run must be called first") ∧
    (A.hasRun = true → A.getCliques = Except.ok A.result) ∧
    (MaximalCliques.new G).getCliques = Except.error "Error, run must be called first" ∧
    (A.runEnter).hasRun = false ∧
    (∀ B, A.runLoop fuel orderedNodes = some B → B.hasRun = A.hasRun) ∧
    (∀ B, A.run fuel orderedNodes = some B → B.hasRun = true ∧ B.getCliques = Except.ok B.result) ∧
    A.run fuel orderedNodes
      = ((A.runEnter).runLoop fuel orderedNodes).map (fun B => ⟨B.G, B.result, true⟩) := by
  refine ⟨?_, ?_, rfl, rfl, ?_, ?_, ?_⟩
  · intro h
    simp [MaximalCliques.getCliques, MaximalCliques.assureFinished, h]
  · intro h
    simp [MaximalCliques.getCliques, MaximalCliques.assureFinished, h]
  · intro B hB
    unfold MaximalCliques.runLoop at hB
    simp only at hB
    split at hB
    · exact Option.noConfusion hB
    · rw [← Option.some.inj hB]
  · intro B hB
    rw [run_eq] at hB
    split at hB
    · exact Option.noConfusion hB
    · rw [← Option.some.inj hB]
      exact ⟨rfl, rfl⟩
  · unfold MaximalCliques.run
    cases (A.runEnter).runLoop fuel orderedNodes <;> rfl

/-- C7 (determinism of repeated runs). Under the conditions of C1 `run` completes with
some object `B`, and every further run on the same graph and ordering, whatever `result`
and `hasRun` held before (in particular a second run on `B` itself) and whatever budget
at least as large is given, completes with exactly `B`: the same entries in the same
order, nothing accumulated. -/
theorem run_deterministic (A : MaximalCliques) (orderedNodes : List Nat) (fuel : Nat)
    (hG : A.G.Simple) (hO : orderedNodes.Perm A.G.nodes) (hf : A.G.numberOfNodes ≤ fuel) :
    ∃ B, A.run fuel orderedNodes = some B ∧ B.run fuel orderedNodes = some B ∧
      ∀ (A2 : MaximalCliques) (fuel2 : Nat), A2.G = A.G → fuel ≤ fuel2 →
        A2.run fuel2 orderedNodes = some B := by
  obtain ⟨B, hB, hBG, _, _⟩ := run_spec A orderedNodes fuel hG hO hf
  have h2 : ∀ (A2 : MaximalCliques) (fuel2 : Nat), A2.G = A.G → fuel ≤ fuel2 →
      A2.run fuel2 orderedNodes = some B := by
    intro A2 fuel2 h hle
    apply run_mono hle
    rw [run_eq, h, ← run_eq]
    exact hB
  exact ⟨B, hB, h2 B fuel hBG le_rfl, h2⟩

theorem run_deterministic_witness :
    ∃ B, (MaximalCliques.new twoTriangles).run 6 [5, 4, 3, 2, 1, 0] = some B ∧
      B.run 6 [5, 4, 3, 2, 1, 0] = some B ∧
      ∀ (A2 : MaximalCliques) (fuel2 : Nat), A2.G = (MaximalCliques.new twoTriangles).G →
        6 ≤ fuel2 → A2.run fuel2 [5, 4, 3, 2, 1, 0] = some B :=
  run_deterministic (MaximalCliques.new twoTriangles) [5, 4, 3, 2, 1, 0] 6 (by decide)
    (by decide) (by decide)

/-! ## Concrete scenarios -/

theorem path_cliques (T : Finset Nat) :
    pathGraph.IsMaximalClique T ↔ (T = {0, 1} ∨ T = {1, 2}) := by
  have key : ∀ T ∈ ({0, 1, 2} : Finset Nat).powerset,
      pathGraph.IsMaximalClique T ↔ (T = {0, 1} ∨ T = {1, 2}) := by decide
  by_cases hT : T ⊆ {0, 1, 2}
  · exact key T (Finset.mem_powerset.mpr hT)
  · constructor
    · intro h
      exfalso
      apply hT
      intro v hv
      have := h.2.1 v hv
      have hn : pathGraph.nodes = [0, 1, 2] := by decide
      rw [hn] at this
      simpa using this
    · rintro (h | h) <;> (exfalso; apply hT; rw [h]; decide)

/-- The shape of `result` when the maximal cliques are known: the node sets of the
entries are a rearrangement of the list of maximal cliques. -/
theorem run_perm (A : MaximalCliques) (order : List Nat) (fuel : Nat) (hG : A.G.Simple)
    (hO : order.Perm A.G.nodes) (hf : A.G.numberOfNodes ≤ fuel) (M : List (Finset Nat))
    (hM : M.Nodup) (hMc : ∀ T, A.G.IsMaximalClique T ↔ T ∈ M) :
    ∃ B, A.run fuel order = some B ∧ B.result.length = M.length ∧
      (B.result.map List.toFinset).Perm M ∧ (∀ c ∈ B.result, c.Nodup) := by
  obtain ⟨B, hB, hnd, hmem, hcn⟩ := run_sets A order fuel hG hO hf
  have hp : (B.result.map List.toFinset).Perm M :=
    (List.perm_ext_iff_of_nodup hnd hM).mpr (fun T => (hmem T).trans (hMc T))
  refine ⟨B, hB, ?_, hp, hcn⟩
  rw [← hp.length_eq, List.length_map]

/-- C8 (path). For the path 0 - 1 - 2, every ordering that is a permutation of its three
nodes and every budget of at least 3, `run` completes with exactly two entries, whose
node sets are {0,1} and {1,2}. -/
theorem run_path (A : MaximalCliques) (orderedNodes : List Nat) (fuel : Nat)
    (hA : A.G = pathGraph) (hO : orderedNodes.Perm [0, 1, 2]) (hf : 3 ≤ fuel) :
    ∃ B, A.run fuel orderedNodes = some B ∧ B.result.length = 2 ∧
      (B.result.map List.toFinset).Perm [{0, 1}, {1, 2}] := by
  have hG : A.G.Simple := by rw [hA]; decide
  have hO2 : orderedNodes.Perm A.G.nodes := by
    rw [hA]; exact hO
  have hf2 : A.G.numberOfNodes ≤ fuel := by rw [hA]; exact hf
  obtain ⟨B, hB, hl, hp, _⟩ := run_perm A orderedNodes fuel hG hO2 hf2
    [{0, 1}, {1, 2}] (by decide) (fun T => by rw [hA, path_cliques]; simp)
  exact ⟨B, hB, hl, hp⟩

theorem run_path_witness :
    ∃ B, (MaximalCliques.new pathGraph).run 3 [1, 0, 2] = some B ∧ B.result.length = 2 ∧
      (B.result.map List.toFinset).Perm [{0, 1}, {1, 2}] :=
  run_path (MaximalCliques.new pathGraph) [1, 0, 2] 3 rfl (by decide) (by decide)

theorem triangles_cliques (T : Finset Nat) :
    twoTriangles.IsMaximalClique T ↔ (T = {0, 1, 2} ∨ T = {3, 4, 5}) := by
  have key : ∀ T ∈ ({0, 1, 2, 3, 4, 5} : Finset Nat).powerset,
      twoTriangles.IsMaximalClique T ↔ (T = {0, 1, 2} ∨ T = {3, 4, 5}) := by decide
  by_cases hT : T ⊆ {0, 1, 2, 3, 4, 5}
  · exact key T (Finset.mem_powerset.mpr hT)
  · constructor
    · intro h
      exfalso
      apply hT
      intro v hv
      have := h.2.1 v hv
      have hn : twoTriangles.nodes = [0, 1, 2, 3, 4, 5] := by decide
      rw [hn] at this
      simpa using this
    · rintro (h | h) <;> (exfalso; apply hT; rw [h]; decide)

/-- C10 (two triangles). For the two disjoint triangles {0,1,2} and {3,4,5}, every
ordering that is a permutation of the six nodes and every budget of at least 6, `run`
completes with exactly two entries, each of size 3, with node sets {0,1,2} and {3,4,5};
no entry holds nodes of both triangles. -/
theorem run_two_triangles (A : MaximalCliques) (orderedNodes : List Nat) (fuel : Nat)
    (hA : A.G = twoTriangles) (hO : orderedNodes.Perm [0, 1, 2, 3, 4, 5]) (hf : 6 ≤ fuel) :
    ∃ B, A.run fuel orderedNodes = some B ∧ B.result.length = 2 ∧
      (B.result.map List.toFinset).Perm [{0, 1, 2}, {3, 4, 5}] ∧
      (∀ c ∈ B.result, c.length = 3) ∧
      (∀ c ∈ B.result, (∀ v ∈ c, v ≤ 2) ∨ (∀ v ∈ c, 3 ≤ v)) := by
  have hG : A.G.Simple := by rw [hA]; decide
  have hO2 : orderedNodes.Perm A.G.nodes := by
    rw [hA]; exact hO
  have hf2 : A.G.numberOfNodes ≤ fuel := by rw [hA]; exact hf
  obtain ⟨B, hB, hl, hp, hcn⟩ := run_perm A orderedNodes fuel hG hO2 hf2
    [{0, 1, 2}, {3, 4, 5}] (by decide) (fun T => by rw [hA, triangles_cliques]; simp)
  have hset : ∀ c ∈ B.result, c.toFinset = {0, 1, 2} ∨ c.toFinset = {3, 4, 5} := by
    intro c hc
    have := hp.mem_iff.mp (List.mem_map_of_mem List.toFinset hc)
    simpa using this
  refine ⟨B, hB, hl, hp, ?_, ?_⟩
  · intro c hc
    rw [← List.toFinset_card_of_nodup (hcn c hc)]
    rcases hset c hc with h | h <;> rw [h] <;> rfl
  · intro c hc
    rcases hset c hc with h | h
    · left
      intro v hv
      have : v ∈ ({0, 1, 2} : Finset Nat) := h ▸ List.mem_toFinset.mpr hv
      simp only [Finset.mem_insert, Finset.mem_singleton] at this
      omega
    · right
      intro v hv
      have : v ∈ ({3, 4, 5} : Finset Nat) := h ▸ List.mem_toFinset.mpr hv
      simp only [Finset.mem_insert, Finset.mem_singleton] at this
      omega

theorem run_two_triangles_witness :
    ∃ B, (MaximalCliques.new twoTriangles).run 6 [0, 3, 1, 4, 2, 5] = some B ∧
      B.result.length = 2 ∧
      (B.result.map List.toFinset).Perm [{0, 1, 2}, {3, 4, 5}] ∧
      (∀ c ∈ B.result, c.length = 3) ∧
      (∀ c ∈ B.result, (∀ v ∈ c, v ≤ 2) ∨ (∀ v ∈ c, 3 ≤ v)) :=
  run_two_triangles (MaximalCliques.new twoTriangles) [0, 3, 1, 4, 2, 5] 6 rfl (by decide)
    (by decide)

/-! ## The star -/

theorem star_nodes (k : Nat) : (starGraph k).nodes = List.range (k + 1) := by
  unfold Graph.nodes
  apply List.filter_eq_self.mpr
  intro u hu
  have hu2 := List.mem_range.mp hu
  show (List.replicate (k + 1) true).getD u false = true
  rw [List.getD_eq_getElem?_getD, List.getElem?_replicate]
  have : u < k + 1 := hu2
  simp [this]

theorem star_nbrs_zero (k : Nat) : (starGraph k).forNeighborsOf 0 = List.range' 1 k := by
  show (((List.range' 1 k).map some)).filterMap id = List.range' 1 k
  rw [List.filterMap_map]
  simp

theorem star_nbrs_leaf {k i : Nat} (h1 : 1 ≤ i) (h2 : i ≤ k) :
    (starGraph k).forNeighborsOf i = [0] := by
  obtain ⟨j, rfl⟩ : ∃ j, i = j + 1 := ⟨i - 1, by omega⟩
  show ((List.replicate k [some 0]).getD j []).filterMap id = [0]
  rw [List.getD_eq_getElem?_getD, List.getElem?_replicate]
  have : j < k := by omega
  simp [this]

theorem star_simple (k : Nat) : (starGraph k).Simple := by
  refine ⟨?_, ?_⟩
  · rw [star_nodes, List.length_range]; rfl
  · intro u hu
    rw [star_nodes] at hu ⊢
    have hu2 := List.mem_range.mp hu
    by_cases h0 : u = 0
    · subst h0
      rw [star_nbrs_zero]
      refine ⟨List.nodup_range' _ _, ?_, ?_⟩
      · rw [List.mem_range'_1]; omega
      · intro v hv
        rw [List.mem_range'_1] at hv
        rw [star_nbrs_leaf hv.1 (by omega)]
        exact ⟨List.mem_range.mpr (by omega), List.mem_singleton.mpr rfl⟩
    · rw [star_nbrs_leaf (by omega) (by omega)]
      refine ⟨List.nodup_singleton _, ?_, ?_⟩
      · rw [List.mem_singleton]; exact h0
      · intro v hv
        rw [List.mem_singleton] at hv
        subst hv
        rw [star_nbrs_zero, List.mem_range'_1]
        exact ⟨List.mem_range.mpr (by omega), by omega, by omega⟩

theorem star_edge_zero (k v : Nat) :
    (starGraph k).hasEdge 0 v = true ↔ (1 ≤ v ∧ v ≤ k) := by
  unfold Graph.hasEdge
  rw [star_nbrs_zero, decide_eq_true_eq, List.mem_range'_1]
  omega

theorem star_edge_leaf {k i : Nat} (h1 : 1 ≤ i) (h2 : i ≤ k) (v : Nat) :
    (starGraph k).hasEdge i v = true ↔ v = 0 := by
  unfold Graph.hasEdge
  rw [star_nbrs_leaf h1 h2, decide_eq_true_eq, List.mem_singleton]

/-- The maximal cliques of the star are the pairs of the centre with a leaf. -/
theorem star_cliques {k : Nat} (hk : 1 ≤ k) (T : Finset Nat) :
    (starGraph k).IsMaximalClique T ↔ ∃ i, 1 ≤ i ∧ i ≤ k ∧ T = {0, i} := by
  unfold Graph.IsMaximalClique
  rw [star_nodes]
  constructor
  · rintro ⟨⟨x, hx⟩, hsub, hcl, hmax⟩
    have hlt : ∀ v ∈ T, v ≤ k := fun v hv => by
      have := List.mem_range.mp (hsub v hv); omega
    -- the centre belongs to the clique
    have h0 : 0 ∈ T := by
      by_contra h
      obtain ⟨v, hv, hn⟩ := hmax 0 (List.mem_range.mpr (by omega)) h
      have hv0 : v ≠ 0 := fun e => h (e ▸ hv)
      have := (star_edge_zero k v).mpr ⟨by omega, hlt v hv⟩
      rw [this] at hn
      exact Bool.noConfusion hn
    -- and so does a leaf
    have hleaf : ∃ i ∈ T, i ≠ 0 := by
      by_contra h
      have hall : ∀ v ∈ T, v = 0 := fun v hv => by
        by_contra q; exact h ⟨v, hv, q⟩
      have h1 : (1 : Nat) ∉ T := fun q => by
        have := hall 1 q; omega
      obtain ⟨v, hv, hn⟩ := hmax 1 (List.mem_range.mpr (by omega)) h1
      rw [hall v hv] at hn
      have := (star_edge_leaf (le_refl 1) hk 0).mpr rfl
      rw [this] at hn
      exact Bool.noConfusion hn
    obtain ⟨i, hi, hi0⟩ := hleaf
    refine ⟨i, by omega, hlt i hi, ?_⟩
    ext v
    rw [Finset.mem_insert, Finset.mem_singleton]
    constructor
    · intro hv
      by_cases e : v = i
      · exact Or.inr e
      · left
        exact (star_edge_leaf (by omega) (hlt i hi) v).mp (hcl i hi v hv (Ne.symm e))
    · rintro (e | e)
      · rw [e]; exact h0
      · rw [e]; exact hi
  · rintro ⟨i, h1, h2, rfl⟩
    refine ⟨⟨0, by simp⟩, ?_, ?_, ?_⟩
    · intro v hv
      rw [Finset.mem_insert, Finset.mem_singleton] at hv
      rw [List.mem_range]
      omega
    · intro u hu v hv huv
      rw [Finset.mem_insert, Finset.mem_singleton] at hu hv
      rcases hu with rfl | rfl
      · exact (star_edge_zero k v).mpr (by omega)
      · exact (star_edge_leaf h1 h2 v).mpr (by omega)
    · intro w hw hwT
      rw [Finset.mem_insert, Finset.mem_singleton] at hwT
      rw [List.mem_range] at hw
      refine ⟨i, by simp, ?_⟩
      cases hwi : (starGraph k).hasEdge w i with
      | false => rfl
      | true =>
        have := (star_edge_leaf (by omega) (by omega) i).mp hwi
        omega

/-- C9 (star). For every `k ≥ 1`, the star with centre 0 and leaves 1..k, every ordering
that is a permutation of its nodes and every budget of at least `k + 1`, `run` completes
with exactly `k` entries, whose node sets are {0,1}, {0,2}, ..., {0,k}, each once. -/
theorem run_star (k : Nat) (A : MaximalCliques) (orderedNodes : List Nat) (fuel : Nat)
    (hk : 1 ≤ k) (hA : A.G = starGraph k) (hO : orderedNodes.Perm (List.range (k + 1)))
    (hf : k + 1 ≤ fuel) :
    ∃ B, A.run fuel orderedNodes = some B ∧ B.result.length = k ∧
      (B.result.map List.toFinset).Perm
        ((List.range' 1 k).map (fun i => ({0, i} : Finset Nat))) := by
  have hG : A.G.Simple := by rw [hA]; exact star_simple k
  have hO2 : orderedNodes.Perm A.G.nodes := by
    rw [hA, star_nodes]; exact hO
  have hf2 : A.G.numberOfNodes ≤ fuel := by rw [hA]; exact hf
  have hM : ((List.range' 1 k).map (fun i => ({0, i} : Finset Nat))).Nodup := by
    apply List.Nodup.map_on _ (List.nodup_range' _ _)
    intro i hi j hj e
    rw [List.mem_range'_1] at hi hj
    have : i ∈ ({0, j} : Finset Nat) := by rw [← e]; simp
    rw [Finset.mem_insert, Finset.mem_singleton] at this
    omega
  obtain ⟨B, hB, hl, hp, _⟩ := run_perm A orderedNodes fuel hG hO2 hf2 _ hM (fun T => by
    rw [hA, star_cliques hk, List.mem_map]
    constructor
    · rintro ⟨i, h1, h2, rfl⟩
      exact ⟨i, List.mem_range'_1.mpr ⟨h1, by omega⟩, rfl⟩
    · rintro ⟨i, hi, rfl⟩
      rw [List.mem_range'_1] at hi
      exact ⟨i, hi.1, by omega, rfl⟩)
  refine ⟨B, hB, ?_, hp⟩
  rw [hl, List.length_map, List.length_range']

theorem run_star_witness :
    ∃ B, (MaximalCliques.new (starGraph 4)).run 5 [3, 0, 4, 1, 2] = some B ∧
      B.result.length = 4 ∧
      (B.result.map List.toFinset).Perm
        ((List.range' 1 4).map (fun i => ({0, i} : Finset Nat))) :=
  run_star 4 (MaximalCliques.new (starGraph 4)) [3, 0, 4, 1, 2] 5 (by decide) rfl
    (by decide) (by decide)

/-! ## The invariants in list form -/

theorem nodeAt_eq_getElem (s : PX) {i : Nat} (h : i < s.pxvector.length) :
    nodeAt s i = s.pxvector[i] := by
  unfold nodeAt
  rw [List.getD_eq_getElem?_getD, List.getElem?_eq_getElem h, Option.getD_some]

theorem nodeAt_mem (s : PX) {i : Nat} (h : i < s.pxvector.length) :
    nodeAt s i ∈ s.pxvector := by
  rw [nodeAt_eq_getElem s h]
  exact List.getElem_mem h

theorem mem_nodeAt (s : PX) {v : Nat} (h : v ∈ s.pxvector) :
    ∃ i, i < s.pxvector.length ∧ nodeAt s i = v := by
  obtain ⟨i, hi, e⟩ := List.mem_iff_getElem.mp h
  exact ⟨i, hi, by rw [nodeAt_eq_getElem s hi]; exact e⟩

/-- A partition array of distinct nodes with `pxvector[pxlookup[v]] == v` satisfies the
two-sided invariant over its own nodes. -/
theorem inv_of_bijection {s : PX} (hB : Bijection s) (hN : s.pxvector.Nodup) :
    Inv (fun v => v ∈ s.pxvector) s := by
  refine ⟨hB, ?_⟩
  intro i hi
  have hm := nodeAt_mem s hi
  refine ⟨hm, ?_⟩
  obtain ⟨_, h2, h3⟩ := hB _ hm
  have e : s.pxvector[pos s (nodeAt s i)] = s.pxvector[i] :=
    ((nodeAt_eq_getElem s h2).symm.trans h3).trans (nodeAt_eq_getElem s hi)
  exact (hN.getElem_inj_iff).mp e

/-- The two-sided invariant over any node set gives `pxvector[pxlookup[v]] == v` for the
stored nodes, and the stored nodes are distinct. -/
theorem bijection_of_inv {V : Nat → Prop} {s : PX} (hI : Inv V s) :
    Bijection s ∧ s.pxvector.Nodup := by
  constructor
  · intro v hv
    obtain ⟨i, hi, e⟩ := mem_nodeAt s hv
    exact hI.look v (e ▸ (hI.vec i hi).1)
  · rw [List.nodup_iff_injective_get]
    intro a b hab
    have ha := (hI.vec a.1 a.2).2
    have hb := (hI.vec b.1 b.2).2
    rw [nodeAt_eq_getElem s a.2] at ha
    rw [nodeAt_eq_getElem s b.2] at hb
    have e : s.pxvector[a.1] = s.pxvector[b.1] := hab
    rw [e] at ha
    exact Fin.ext (ha.symm.trans hb)

theorem outOK_of_oneArc {out : StaticOutGraph} {nodes : List Nat} (h : OneArc out nodes) :
    OutOK (fun v => v ∈ nodes) out :=
  ⟨fun u hu => (h u hu).1, fun u hu v hv => ((h u hu).2.2 v hv).1, fun u hu => (h u hu).2.1⟩

theorem adjacent_iff (out : StaticOutGraph) (u v : Nat) :
    out.adjacent u v = true ↔ oadj out u v := by
  unfold StaticOutGraph.adjacent oadj
  rw [Bool.or_eq_true, hasNeighbor_iff, hasNeighbor_iff]

theorem adjacent_false_iff (out : StaticOutGraph) (u v : Nat) :
    out.adjacent u v = false ↔ ¬ oadj out u v := by
  rw [← adjacent_iff, Bool.not_eq_true]

/-! ## Segments of the partition array -/

theorem mem_seg {V : Nat → Prop} {s : PX} (hI : Inv V s) {a b : Nat}
    (hb : b ≤ s.pxvector.length) (y : Nat) :
    y ∈ seg s a b ↔ (V y ∧ a ≤ pos s y ∧ pos s y < b) := by
  unfold seg
  rw [List.mem_map]
  constructor
  · rintro ⟨i, hi, rfl⟩
    rw [List.mem_range'_1] at hi
    obtain ⟨h1, h2⟩ := hI.vec i (by omega)
    exact ⟨h1, by omega, by omega⟩
  · rintro ⟨hy, h1, h2⟩
    exact ⟨pos s y, List.mem_range'_1.mpr ⟨h1, by omega⟩, (hI.look y hy).2.2⟩

theorem seg_nodup {V : Nat → Prop} {s : PX} (hI : Inv V s) {a b : Nat}
    (hb : b ≤ s.pxvector.length) : (seg s a b).Nodup := by
  unfold seg
  apply List.Nodup.map_on _ (List.nodup_range' _ _)
  intro i hi j hj e
  rw [List.mem_range'_1] at hi hj
  have e1 := (hI.vec i (by omega)).2
  have e2 := (hI.vec j (by omega)).2
  rw [← e1, e, e2]

/-- Two states with the same window contents hold rearrangements of the same nodes in
X and in P. -/
theorem seg_perm_of_same {V : Nat → Prop} {s t : PX} (hs : Inv V s) (ht : Inv V t)
    {xb xpb pb : Nat} (h : Same V s t xb xpb pb) (h2 : xpb ≤ pb)
    (h3 : pb ≤ s.pxvector.length) :
    (seg t xb xpb).Perm (seg s xb xpb) ∧ (seg t xpb pb).Perm (seg s xpb pb) := by
  have hl := h.len
  constructor
  · rw [List.perm_ext_iff_of_nodup (seg_nodup ht (by omega)) (seg_nodup hs (by omega))]
    intro y
    rw [mem_seg ht (by omega), mem_seg hs (by omega)]
    constructor
    · rintro ⟨hy, q⟩; exact ⟨hy, (h.inX y hy).mp q⟩
    · rintro ⟨hy, q⟩; exact ⟨hy, (h.inX y hy).mpr q⟩
  · rw [List.perm_ext_iff_of_nodup (seg_nodup ht (by omega)) (seg_nodup hs (by omega))]
    intro y
    rw [mem_seg ht (by omega), mem_seg hs (by omega)]
    constructor
    · rintro ⟨hy, q⟩; exact ⟨hy, (h.inP y hy).mp q⟩
    · rintro ⟨hy, q⟩; exact ⟨hy, (h.inP y hy).mpr q⟩

theorem seg_length (s : PX) (a b : Nat) : (seg s a b).length = b - a := by
  unfold seg
  rw [List.length_map, List.length_range']

/-! ## The counts of the pivot selector -/

theorem incr_getD (pn : List Nat) (i j : Nat) :
    (incr pn i).getD j 0 = if i = j ∧ i < pn.length then pn.getD i 0 + 1 else pn.getD j 0 := by
  unfold incr
  rw [getD_set]

theorem pivotCountX_eq (s : PX) (xpb pb i : Nat) (pn : List Nat) (v : Nat) :
    pivotCountX s xpb pb i pn v
      = if xpb ≤ pos s v ∧ pos s v < pb then incr pn i else pn := rfl

theorem pivotCountP_eq (s : PX) (xb xpb pb i : Nat) (pn : List Nat) (v : Nat) :
    pivotCountP s xb xpb pb i pn v
      = if xb ≤ pos s v ∧ pos s v < pb then
          (if xpb ≤ pos s v then incr (incr pn (pos s v - xb)) i
           else incr pn (pos s v - xb))
        else pn := rfl

theorem pivotLoopX_succ (out : StaticOutGraph) (s : PX) (xb xpb pb k i : Nat) (pn : List Nat) :
    pivotLoopX out s xb xpb pb (k + 1) i pn =
      if ((out.forOutEdgesOf (nodeAt s (i + xb))).foldl (pivotCountX s xpb pb i) pn).getD i 0
          = pb - xpb then Sum.inl (nodeAt s (i + xb))
      else pivotLoopX out s xb xpb pb k (i + 1)
        ((out.forOutEdgesOf (nodeAt s (i + xb))).foldl (pivotCountX s xpb pb i) pn) := rfl

theorem pivotLoopP_succ (out : StaticOutGraph) (s : PX) (xb xpb pb k i : Nat) (pn : List Nat) :
    pivotLoopP out s xb xpb pb (k + 1) i pn =
      pivotLoopP out s xb xpb pb k (i + 1)
        ((out.forOutEdgesOf (nodeAt s (i + xb))).foldl (pivotCountP s xb xpb pb i) pn) := rfl

theorem pivotLoopMax_succ (s : PX) (xb : Nat) (pn : List Nat) (k i : Nat) (m : Nat × Nat) :
    pivotLoopMax s xb pn (k + 1) i m =
      if pn.getD i 0 > m.1 then
        pivotLoopMax s xb pn k (i + 1) (pn.getD i 0, nodeAt s (i + xb))
      else pivotLoopMax s xb pn k (i + 1) m := rfl

/-- The handler of the first pass adds to the count at offset `i` the number of handled
nodes that lie in P. -/
theorem pivotCountX_fold_get (s : PX) (xpb pb i : Nat) :
    ∀ (l : List Nat) (pn : List Nat) (j : Nat),
      (l.foldl (pivotCountX s xpb pb i) pn).getD j 0
        = pn.getD j 0 + (if i = j ∧ i < pn.length then
            l.countP (fun v => decide (xpb ≤ pos s v ∧ pos s v < pb)) else 0) := by
  intro l
  induction l with
  | nil => intro pn j; simp
  | cons v l ih =>
    intro pn j
    rw [List.foldl_cons, ih, pivotCountX_eq, List.countP_cons]
    by_cases c : xpb ≤ pos s v ∧ pos s v < pb
    · rw [if_pos c, incr_getD, incr_length]
      have hd : decide (xpb ≤ pos s v ∧ pos s v < pb) = true := decide_eq_true c
      rw [hd, if_pos rfl]
      by_cases e : i = j ∧ i < pn.length
      · simp only [if_pos e]
        obtain ⟨e1, _⟩ := e
        subst e1
        omega
      · simp only [if_neg e]
    · rw [if_neg c]
      have hd : decide (xpb ≤ pos s v ∧ pos s v < pb) = false := decide_eq_false c
      rw [hd]
      simp

theorem outDegree_eq (out : StaticOutGraph) (s : PX) (xpb pb u : Nat) :
    outDegree out s xpb pb u
      = (out.forOutEdgesOf u).countP (fun v => decide (xpb ≤ pos s v ∧ pos s v < pb)) := rfl

/-- The early return of the first pass: it happens at the first offset of X whose node
has all of P among its out-neighbours. -/
theorem pivotLoopX_inl_spec (out : StaticOutGraph) (s : PX) (xb xpb pb : Nat) :
    ∀ (k i : Nat) (pn : List Nat) (u : Nat), pn.length = pb - xb → i + k = xpb - xb →
      xpb ≤ pb → (∀ j, i ≤ j → pn.getD j 0 = 0) →
      pivotLoopX out s xb xpb pb k i pn = Sum.inl u →
      ∃ i2, i ≤ i2 ∧ i2 < i + k ∧ u = nodeAt s (i2 + xb) ∧
        outDegree out s xpb pb (nodeAt s (i2 + xb)) = pb - xpb ∧
        ∀ j, i ≤ j → j < i2 → outDegree out s xpb pb (nodeAt s (j + xb)) ≠ pb - xpb := by
  intro k
  induction k with
  | zero => intro i pn u _ _ _ _ h; simp [pivotLoopX] at h
  | succ k ih =>
    intro i pn u hlen hik hp hz h
    rw [pivotLoopX_succ] at h
    have hi : i < pn.length := by omega
    have hget : ((out.forOutEdgesOf (nodeAt s (i + xb))).foldl (pivotCountX s xpb pb i) pn).getD
        i 0 = outDegree out s xpb pb (nodeAt s (i + xb)) := by
      rw [pivotCountX_fold_get, if_pos ⟨rfl, hi⟩, hz i le_rfl, Nat.zero_add, outDegree_eq]
    rw [hget] at h
    by_cases c : outDegree out s xpb pb (nodeAt s (i + xb)) = pb - xpb
    · rw [if_pos c] at h
      refine ⟨i, le_rfl, by omega, (Sum.inl.inj h).symm, c, ?_⟩
      intro j h1 h2; omega
    · rw [if_neg c] at h
      obtain ⟨i2, g1, g2, g3, g4, g5⟩ := ih (i + 1) _ u
        (by rw [pivotCountX_fold_length]; exact hlen) (by omega) hp
        (fun j hj => by
          rw [pivotCountX_fold_get, if_neg (by omega), hz j (by omega)]) h
      refine ⟨i2, by omega, by omega, g3, g4, ?_⟩
      intro j h1 h2
      by_cases e : j = i
      · rw [e]; exact c
      · exact g5 j (by omega) h2

/-- The first pass without early return: the counts of X are the out-degrees into P, the
counts of P are still zero, and no node of X has all of P among its out-neighbours. -/
theorem pivotLoopX_inr_spec (out : StaticOutGraph) (s : PX) (xb xpb pb : Nat) :
    ∀ (k i : Nat) (pn pn2 : List Nat), pn.length = pb - xb → i + k = xpb - xb →
      xpb ≤ pb → (∀ j, i ≤ j → pn.getD j 0 = 0) →
      (∀ j, j < i → pn.getD j 0 = outDegree out s xpb pb (nodeAt s (j + xb))) →
      pivotLoopX out s xb xpb pb k i pn = Sum.inr pn2 →
      pn2.length = pb - xb ∧ (∀ j, xpb - xb ≤ j → pn2.getD j 0 = 0) ∧
      (∀ j, j < xpb - xb → pn2.getD j 0 = outDegree out s xpb pb (nodeAt s (j + xb))) ∧
      ∀ j, i ≤ j → j < xpb - xb → outDegree out s xpb pb (nodeAt s (j + xb)) ≠ pb - xpb := by
  intro k
  induction k with
  | zero =>
    intro i pn pn2 hlen hik hp hz hd h
    simp only [pivotLoopX] at h
    have e := Sum.inr.inj h
    subst e
    refine ⟨hlen, fun j hj => hz j (by omega), fun j hj => hd j (by omega), ?_⟩
    intro j h1 h2; omega
  | succ k ih =>
    intro i pn pn2 hlen hik hp hz hd h
    rw [pivotLoopX_succ] at h
    have hi : i < pn.length := by omega
    have hget : ((out.forOutEdgesOf (nodeAt s (i + xb))).foldl (pivotCountX s xpb pb i) pn).getD
        i 0 = outDegree out s xpb pb (nodeAt s (i + xb)) := by
      rw [pivotCountX_fold_get, if_pos ⟨rfl, hi⟩, hz i le_rfl, Nat.zero_add, outDegree_eq]
    rw [hget] at h
    by_cases c : outDegree out s xpb pb (nodeAt s (i + xb)) = pb - xpb
    · rw [if_pos c] at h
      exact Sum.noConfusion h
    · rw [if_neg c] at h
      obtain ⟨g1, g2, g3, g4⟩ := ih (i + 1) _ pn2
        (by rw [pivotCountX_fold_length]; exact hlen) (by omega) hp
        (fun j hj => by
          rw [pivotCountX_fold_get, if_neg (by omega), hz j (by omega)])
        (fun j hj => by
          by_cases e : j = i
          · rw [e]; exact hget
          · rw [pivotCountX_fold_get, if_neg (fun q => e q.1.symm), hd j (by omega)]
            rfl) h
      refine ⟨g1, g2, g3, ?_⟩
      intro j h1 h2
      by_cases e : j = i
      · rw [e]; exact c
      · exact g4 j (by omega) h2

theorem incr_getD_add (pn : List Nat) (i j : Nat) (h : i < pn.length) :
    (incr pn i).getD j 0 = pn.getD j 0 + (if i = j then 1 else 0) := by
  rw [incr_getD]
  by_cases e : i = j
  · subst e
    rw [if_pos ⟨rfl, h⟩, if_pos rfl]
  · rw [if_neg (fun q => e q.1), if_neg e]
    rfl

/-- The handler of the second pass adds one at the offset of every handled node of the
window, and at offset `i` the number of handled nodes that lie in P. -/
theorem pivotCountP_fold_get (s : PX) (xb xpb pb i : Nat) (hx : xb ≤ xpb) :
    ∀ (l : List Nat) (pn : List Nat) (j : Nat), pn.length = pb - xb → i < pb - xb →
      (l.foldl (pivotCountP s xb xpb pb i) pn).getD j 0
        = pn.getD j 0
          + l.countP (fun v => decide (xb ≤ pos s v ∧ pos s v < pb ∧ pos s v - xb = j))
          + (if i = j then l.countP (fun v => decide (xpb ≤ pos s v ∧ pos s v < pb))
             else 0) := by
  intro l
  induction l with
  | nil => intro pn j _ _; simp
  | cons v l ih =>
    intro pn j hlen hi
    have hl1 : (pivotCountP s xb xpb pb i pn v).length = pb - xb :=
      (pivotCountP_fold_length s xb xpb pb i [v] pn).trans hlen
    have hstep : (pivotCountP s xb xpb pb i pn v).getD j 0
        = pn.getD j 0
          + (if xb ≤ pos s v ∧ pos s v < pb ∧ pos s v - xb = j then 1 else 0)
          + (if i = j then (if xpb ≤ pos s v ∧ pos s v < pb then 1 else 0) else 0) := by
      rw [pivotCountP_eq]
      by_cases c : xb ≤ pos s v ∧ pos s v < pb
      · rw [if_pos c]
        have hv : pos s v - xb < pn.length := by omega
        by_cases d : xpb ≤ pos s v
        · rw [if_pos d, incr_getD_add _ _ _ (by rw [incr_length]; omega),
            incr_getD_add _ _ _ hv]
          split_ifs <;> omega
        · rw [if_neg d, incr_getD_add _ _ _ hv]
          split_ifs <;> omega
      · rw [if_neg c]
        split_ifs <;> omega
    rw [List.foldl_cons, ih _ j hl1 hi, hstep, List.countP_cons, List.countP_cons]
    simp only [decide_eq_true_eq]
    split_ifs <;> omega

/-- Among the out-neighbours of a node, the ones stored at a given window position are
counted by the adjacency test on the node stored there. -/
theorem countP_at_position {V : Nat → Prop} {out : StaticOutGraph} (hO : OutOK V out)
    {s : PX} (hI : Inv V s) {u : Nat} (hu : V u) {xb pb j : Nat}
    (hj : j + xb < pb) (h3 : pb ≤ s.pxvector.length) :
    (out.forOutEdgesOf u).countP
        (fun v => decide (xb ≤ pos s v ∧ pos s v < pb ∧ pos s v - xb = j))
      = if out.hasNeighbor u (nodeAt s (j + xb)) then 1 else 0 := by
  obtain ⟨hw, hpw⟩ := hI.vec (j + xb) (by omega)
  have hc : (out.forOutEdgesOf u).countP
      (fun v => decide (xb ≤ pos s v ∧ pos s v < pb ∧ pos s v - xb = j))
      = (out.forOutEdgesOf u).countP (fun v => v == nodeAt s (j + xb)) := by
    apply List.countP_congr
    intro v hv
    have hVv := hO.mem u hu v hv
    simp only [decide_eq_true_eq, beq_iff_eq]
    constructor
    · intro q
      exact pos_inj hI hVv hw (by rw [hpw]; omega)
    · intro q
      rw [q, hpw]
      omega
  rw [hc, ← List.count_eq_countP]
  by_cases m : nodeAt s (j + xb) ∈ out.forOutEdgesOf u
  · rw [List.count_eq_one_of_mem (hO.nd u hu) m, if_pos ((hasNeighbor_iff _ _ _).mpr m)]
  · rw [List.count_eq_zero_of_not_mem m, if_neg (fun q => m ((hasNeighbor_iff _ _ _).mp q))]

/-- The second pass adds to every count the number of nodes of P that have the node as
an out-neighbour, and to the count of a node of P its own out-degree into P. -/
theorem pivotLoopP_get {V : Nat → Prop} {out : StaticOutGraph} (hO : OutOK V out)
    {s : PX} (hI : Inv V s) {xb xpb pb : Nat} (hx : xb ≤ xpb)
    (h3 : pb ≤ s.pxvector.length) :
    ∀ (k i : Nat) (pn : List Nat), pn.length = pb - xb → i + k = pb - xb →
      ∀ j, j < pb - xb →
      (pivotLoopP out s xb xpb pb k i pn).getD j 0
        = pn.getD j 0
          + ((List.range' (i + xb) k).map (nodeAt s)).countP
              (fun u => out.hasNeighbor u (nodeAt s (j + xb)))
          + (if i ≤ j then outDegree out s xpb pb (nodeAt s (j + xb)) else 0) := by
  intro k
  induction k with
  | zero =>
    intro i pn hlen hik j hj
    have : ¬ i ≤ j := by omega
    simp [pivotLoopP, this]
  | succ k ih =>
    intro i pn hlen hik j hj
    have hVu : V (nodeAt s (i + xb)) := (hI.vec (i + xb) (by omega)).1
    rw [pivotLoopP_succ, ih (i + 1) _ ((pivotCountP_fold_length _ _ _ _ _ _ _).trans hlen)
      (by omega) j hj, pivotCountP_fold_get s xb xpb pb i hx _ _ j hlen (by omega),
      countP_at_position hO hI hVu (by omega) h3, ← outDegree_eq]
    have hr : List.range' (i + xb) (k + 1) = (i + xb) :: List.range' (i + 1 + xb) k := by
      rw [List.range'_succ, Nat.add_right_comm]
    rw [hr, List.map_cons, List.countP_cons]
    by_cases e : i = j
    · subst e
      have q1 : ¬ (i + 1 ≤ i) := by omega
      simp only [if_pos (rfl : i = i), if_neg q1, if_pos (le_refl i), if_true]
      omega
    · by_cases f : i + 1 ≤ j
      · have q1 : i ≤ j := by omega
        simp only [if_neg e, if_pos f, if_pos q1]
        omega
      · have q1 : ¬ i ≤ j := by omega
        simp only [if_neg e, if_neg f, if_neg q1]
        omega

theorem countP_or_of_disjoint {α : Type} (p q : α → Bool) :
    ∀ l : List α, (∀ x ∈ l, ¬ (p x = true ∧ q x = true)) →
      l.countP p + l.countP q = l.countP (fun x => p x || q x) := by
  intro l
  induction l with
  | nil => intro _; rfl
  | cons a l ih =>
    intro h
    have h1 := h a (List.mem_cons_self _ _)
    have h2 := ih (fun x hx => h x (List.mem_cons_of_mem _ hx))
    rw [List.countP_cons, List.countP_cons, List.countP_cons, ← h2]
    cases hp : p a <;> cases hq : q a <;> simp_all <;> omega

/-- The out-degree into P is the number of nodes of P that are out-neighbours. -/
theorem outDegree_eq_countP {V : Nat → Prop} {out : StaticOutGraph} (hO : OutOK V out)
    {s : PX} (hI : Inv V s) {xpb pb : Nat} (h3 : pb ≤ s.pxvector.length) {w : Nat}
    (hw : V w) :
    outDegree out s xpb pb w = (seg s xpb pb).countP (fun p => out.hasNeighbor w p) := by
  rw [outDegree_eq, List.countP_eq_length_filter, List.countP_eq_length_filter]
  apply List.Perm.length_eq
  rw [List.perm_ext_iff_of_nodup ((hO.nd w hw).filter _) ((seg_nodup hI h3).filter _)]
  intro y
  rw [List.mem_filter, List.mem_filter, mem_seg hI h3, hasNeighbor_iff, decide_eq_true_eq]
  constructor
  · rintro ⟨a, b⟩
    exact ⟨⟨hO.mem w hw y a, b⟩, a⟩
  · rintro ⟨⟨_, b⟩, a⟩
    exact ⟨a, b⟩

/-- Out-degree into P plus in-degree from P is the number of neighbours in P. -/
theorem outDegree_add {V : Nat → Prop} {out : StaticOutGraph} (hO : OutOK V out)
    (hex : ∀ u, V u → ∀ v ∈ out.forOutEdgesOf u, u ∉ out.forOutEdgesOf v)
    {s : PX} (hI : Inv V s) {xpb pb : Nat} (h3 : pb ≤ s.pxvector.length) {w : Nat}
    (hw : V w) :
    outDegree out s xpb pb w + (seg s xpb pb).countP (fun p => out.hasNeighbor p w)
      = windowDegree out s xpb pb w := by
  rw [outDegree_eq_countP hO hI h3 hw]
  unfold windowDegree StaticOutGraph.adjacent
  apply countP_or_of_disjoint
  intro x _ q
  rw [hasNeighbor_iff, hasNeighbor_iff] at q
  exact hex w hw x q.1 q.2

theorem windowDegree_le (out : StaticOutGraph) (s : PX) (xpb pb w : Nat) :
    windowDegree out s xpb pb w ≤ pb - xpb := by
  unfold windowDegree
  exact (List.countP_le_length _).trans (le_of_eq (seg_length s xpb pb))

/-- The third pass returns the first offset with the maximum count. -/
theorem pivotLoopMax_spec (s : PX) (xb : Nat) (pn : List Nat) :
    ∀ (k i : Nat) (m : Nat × Nat),
      (∃ j0, j0 < i ∧ m = (pn.getD j0 0, nodeAt s (j0 + xb)) ∧
        (∀ j, j < i → pn.getD j 0 ≤ pn.getD j0 0) ∧
        (∀ j, j < j0 → pn.getD j 0 < pn.getD j0 0)) →
      ∃ j0, j0 < i + k ∧
        pivotLoopMax s xb pn k i m = (pn.getD j0 0, nodeAt s (j0 + xb)) ∧
        (∀ j, j < i + k → pn.getD j 0 ≤ pn.getD j0 0) ∧
        (∀ j, j < j0 → pn.getD j 0 < pn.getD j0 0) := by
  intro k
  induction k with
  | zero =>
    rintro i m ⟨j0, h1, h2, h3, h4⟩
    exact ⟨j0, h1, h2, h3, h4⟩
  | succ k ih =>
    rintro i m ⟨j0, h1, h2, h3, h4⟩
    rw [pivotLoopMax_succ]
    have hm : m.1 = pn.getD j0 0 := by rw [h2]
    by_cases c : pn.getD i 0 > m.1
    · rw [if_pos c]
      rw [hm] at c
      obtain ⟨j1, g1, g2, g3, g4⟩ := ih (i + 1) (pn.getD i 0, nodeAt s (i + xb))
        ⟨i, by omega, rfl, fun j hj => by
            by_cases e : j = i
            · rw [e]
            · have := h3 j (by omega); omega,
          fun j hj => by have := h3 j hj; omega⟩
      exact ⟨j1, by omega, g2, fun j hj => g3 j (by omega), g4⟩
    · rw [if_neg c]
      rw [hm] at c
      obtain ⟨j1, g1, g2, g3, g4⟩ := ih (i + 1) m
        ⟨j0, by omega, h2, fun j hj => by
            by_cases e : j = i
            · rw [e]; omega
            · exact h3 j (by omega),
          h4⟩
      exact ⟨j1, by omega, g2, fun j hj => g3 j (by omega), g4⟩

/-- After the second pass every count is the number of neighbours in P. -/
theorem pivotLoopP_counts {V : Nat → Prop} {out : StaticOutGraph} (hO : OutOK V out)
    (hex : ∀ u, V u → ∀ v ∈ out.forOutEdgesOf u, u ∉ out.forOutEdgesOf v)
    {s : PX} (hI : Inv V s) {xb xpb pb : Nat} (h1 : xb ≤ xpb) (h2 : xpb ≤ pb)
    (h3 : pb ≤ s.pxvector.length) {pn1 : List Nat} (hl : pn1.length = pb - xb)
    (hz : ∀ j, xpb - xb ≤ j → pn1.getD j 0 = 0)
    (hd : ∀ j, j < xpb - xb → pn1.getD j 0 = outDegree out s xpb pb (nodeAt s (j + xb)))
    (j : Nat) (hj : j < pb - xb) :
    (pivotLoopP out s xb xpb pb (pn1.length - (xpb - xb)) (xpb - xb) pn1).getD j 0
      = windowDegree out s xpb pb (nodeAt s (j + xb)) := by
  have hw : V (nodeAt s (j + xb)) := (hI.vec (j + xb) (by omega)).1
  rw [pivotLoopP_get hO hI h1 h3 _ _ _ hl (by omega) j hj]
  have hr : (List.range' (xpb - xb + xb) (pn1.length - (xpb - xb))).map (nodeAt s)
      = seg s xpb pb := by
    unfold seg
    rw [Nat.sub_add_cancel h1, hl]
    congr 2
    omega
  rw [hr, ← outDegree_add hO hex hI h3 hw]
  by_cases c : xpb - xb ≤ j
  · rw [if_pos c, hz j c]
    omega
  · rw [if_neg c, hd j (by omega)]
    omega

/-- What `findPivot` returns: either the first node of X that has all of P among its
out-neighbours, or, when X has no such node, the first node of the window with the
maximum number of neighbours in P. -/
theorem findPivot_cases {V : Nat → Prop} {out : StaticOutGraph} (hO : OutOK V out)
    (hex : ∀ u, V u → ∀ v ∈ out.forOutEdgesOf u, u ∉ out.forOutEdgesOf v)
    {s : PX} (hI : Inv V s) {xb xpb pb : Nat} (h1 : xb ≤ xpb) (h2 : xpb < pb)
    (h3 : pb ≤ s.pxvector.length) :
    (∃ p, xb ≤ p ∧ p < xpb ∧ findPivot out s xb xpb pb = nodeAt s p ∧
      outDegree out s xpb pb (nodeAt s p) = pb - xpb ∧
      ∀ q, xb ≤ q → q < p → outDegree out s xpb pb (nodeAt s q) ≠ pb - xpb) ∨
    ((∀ q, xb ≤ q → q < xpb → outDegree out s xpb pb (nodeAt s q) ≠ pb - xpb) ∧
      ∃ p, xb ≤ p ∧ p < pb ∧ findPivot out s xb xpb pb = nodeAt s p ∧
        (∀ q, xb ≤ q → q < pb →
          windowDegree out s xpb pb (nodeAt s q) ≤ windowDegree out s xpb pb (nodeAt s p)) ∧
        (∀ q, xb ≤ q → q < p →
          windowDegree out s xpb pb (nodeAt s q) < windowDegree out s xpb pb (nodeAt s p))) := by
  have hz0 : ∀ j, 0 ≤ j → (List.replicate (pb - xb) 0).getD j 0 = 0 := by
    intro j _
    rw [List.getD_eq_getElem?_getD]
    by_cases c : j < pb - xb
    · rw [List.getElem?_replicate, if_pos c]; rfl
    · rw [List.getElem?_replicate, if_neg c]; rfl
  unfold findPivot
  simp only
  cases hX : pivotLoopX out s xb xpb pb (xpb - xb) 0 (List.replicate (pb - xb) 0) with
  | inl u =>
    left
    obtain ⟨i2, _, g2, g3, g4, g5⟩ := pivotLoopX_inl_spec out s xb xpb pb _ _ _ u
      (List.length_replicate _ _) (by omega) (le_of_lt h2) hz0 hX
    refine ⟨i2 + xb, by omega, by omega, g3, g4, ?_⟩
    intro q hq1 hq2
    have := g5 (q - xb) (Nat.zero_le _) (by omega)
    rwa [Nat.sub_add_cancel hq1] at this
  | inr pn1 =>
    right
    obtain ⟨hl, gz, gd, gn⟩ := pivotLoopX_inr_spec out s xb xpb pb _ _ _ pn1
      (List.length_replicate _ _) (by omega) (le_of_lt h2) hz0
      (fun j hj => absurd hj (Nat.not_lt_zero _)) hX
    simp only
    have hc := pivotLoopP_counts hO hex hI h1 (le_of_lt h2) h3 hl gz gd
    have hl2 : (pivotLoopP out s xb xpb pb (pn1.length - (xpb - xb)) (xpb - xb) pn1).length
        = pb - xb := by rw [pivotLoopP_length, hl]
    obtain ⟨j0, k1, k2, k3, k4⟩ := pivotLoopMax_spec s xb
      (pivotLoopP out s xb xpb pb (pn1.length - (xpb - xb)) (xpb - xb) pn1)
      ((pivotLoopP out s xb xpb pb (pn1.length - (xpb - xb)) (xpb - xb) pn1).length - 1) 1
      ((pivotLoopP out s xb xpb pb (pn1.length - (xpb - xb)) (xpb - xb) pn1).getD 0 0,
        s.pxvector.getD xb 0)
      ⟨0, by omega, by rw [Nat.zero_add]; rfl,
        fun j hj => by
          have : j = 0 := by omega
          rw [this],
        fun j hj => absurd hj (Nat.not_lt_zero _)⟩
    rw [hl2] at k1
    have hlt : j0 < pb - xb := by omega
    refine ⟨?_, j0 + xb, by omega, by omega, by rw [k2], ?_, ?_⟩
    · intro q hq1 hq2
      have := gn (q - xb) (Nat.zero_le _) (by omega)
      rwa [Nat.sub_add_cancel hq1] at this
    · intro q hq1 hq2
      have := k3 (q - xb) (by omega)
      rwa [hc _ (by omega), hc _ hlt, Nat.sub_add_cancel hq1] at this
    · intro q hq1 hq2
      have := k4 (q - xb) (by omega)
      rwa [hc _ (by omega), hc _ hlt, Nat.sub_add_cancel hq1] at this

theorem outDegree_le_windowDegree {V : Nat → Prop} {out : StaticOutGraph} (hO : OutOK V out)
    (hex : ∀ u, V u → ∀ v ∈ out.forOutEdgesOf u, u ∉ out.forOutEdgesOf v)
    {s : PX} (hI : Inv V s) {xpb pb : Nat} (h3 : pb ≤ s.pxvector.length) {w : Nat}
    (hw : V w) : outDegree out s xpb pb w ≤ windowDegree out s xpb pb w := by
  rw [← outDegree_add hO hex hI h3 hw]
  exact Nat.le_add_right _ _

theorem foldl_max_eq (m : Nat) :
    ∀ (l : List Nat) (a : Nat), (∀ x ∈ l, x ≤ m) → a ≤ m → (m ∈ l ∨ m = a) →
      l.foldl max a = m := by
  intro l
  induction l with
  | nil =>
    intro a _ _ h
    rcases h with h | h
    · exact absurd h (List.not_mem_nil _)
    · exact h.symm
  | cons x l ih =>
    intro a hl ha h
    rw [List.foldl_cons]
    have hx := hl x (List.mem_cons_self _ _)
    apply ih _ (fun y hy => hl y (List.mem_cons_of_mem _ hy)) (max_le ha hx)
    rcases h with h | h
    · rcases List.mem_cons.mp h with h | h
      · right; rw [h]; exact (max_eq_right (h ▸ ha)).symm
      · left; exact h
    · right; rw [h]; exact (max_eq_left (h ▸ hx)).symm

theorem oneArc_exclusive {out : StaticOutGraph} {nodes : List Nat} (h : OneArc out nodes) :
    ∀ u, u ∈ nodes → ∀ v ∈ out.forOutEdgesOf u, u ∉ out.forOutEdgesOf v :=
  fun u hu v hv => ((h u hu).2.2 v hv).2

/-- A node of the window whose number of neighbours in P bounds that of every node of
the window attains the brute-force maximum. -/
theorem windowDegree_max (out : StaticOutGraph) (s : PX) {xb xpb pb p : Nat}
    (h1 : xb ≤ p) (h2 : p < pb)
    (hmax : ∀ q, xb ≤ q → q < pb →
      windowDegree out s xpb pb (nodeAt s q) ≤ windowDegree out s xpb pb (nodeAt s p)) :
    windowDegree out s xpb pb (nodeAt s p) = maxWindowDegree out s xb xpb pb := by
  unfold maxWindowDegree
  symm
  apply foldl_max_eq
  · intro x hx
    obtain ⟨w, hw, rfl⟩ := List.mem_map.mp hx
    unfold seg at hw
    obtain ⟨q, hq, rfl⟩ := List.mem_map.mp hw
    rw [List.mem_range'_1] at hq
    exact hmax q hq.1 (by omega)
  · exact Nat.zero_le _
  · left
    apply List.mem_map.mpr
    refine ⟨nodeAt s p, ?_, rfl⟩
    unfold seg
    apply List.mem_map.mpr
    exact ⟨p, by rw [List.mem_range'_1]; omega, rfl⟩

theorem mem_seg_position (s : PX) {a b w : Nat} (h : w ∈ seg s a b) :
    ∃ q, a ≤ q ∧ q < b ∧ w = nodeAt s q := by
  unfold seg at h
  obtain ⟨q, hq, rfl⟩ := List.mem_map.mp h
  rw [List.mem_range'_1] at hq
  exact ⟨q, hq.1, by omega, rfl⟩

/-- The node that `findPivot` returns has the maximum number of neighbours in P over the
window, at a position `p` of the window; `p` is below `xpb` when the first pass
returned early. -/
theorem findPivot_maximal {V : Nat → Prop} {out : StaticOutGraph} (hO : OutOK V out)
    (hex : ∀ u, V u → ∀ v ∈ out.forOutEdgesOf u, u ∉ out.forOutEdgesOf v)
    {s : PX} (hI : Inv V s) {xb xpb pb : Nat} (h1 : xb ≤ xpb) (h2 : xpb < pb)
    (h3 : pb ≤ s.pxvector.length) :
    ∃ p, xb ≤ p ∧ p < pb ∧ findPivot out s xb xpb pb = nodeAt s p ∧
      ∀ q, xb ≤ q → q < pb →
        windowDegree out s xpb pb (nodeAt s q) ≤ windowDegree out s xpb pb (nodeAt s p) := by
  rcases findPivot_cases hO hex hI h1 h2 h3 with ⟨p, g1, g2, g3, g4, _⟩ | ⟨_, p, g1, g2, g3, g4, _⟩
  · refine ⟨p, g1, by omega, g3, ?_⟩
    intro q _ _
    have hVp : V (nodeAt s p) := (hI.vec p (by omega)).1
    have a1 := windowDegree_le out s xpb pb (nodeAt s q)
    have a2 : outDegree out s xpb pb (nodeAt s p) ≤ windowDegree out s xpb pb (nodeAt s p) :=
      outDegree_le_windowDegree hO hex hI h3 hVp
    omega
  · exact ⟨p, g1, g2, g3, g4⟩

/-- C12: `findPivot` agrees with the brute-force pivot. On a partition array of distinct
nodes that satisfies the bijection invariant, with an out-graph that stores every edge
as exactly one arc, and a window `xb ≤ xpb < pb`, the returned node is stored at a
position of `[xb, pb)`, no node of the window has more neighbours in P = `[xpb, pb)`
(arcs in either direction), and its number of neighbours in P is the brute-force
maximum; the early return of the first pass is included. -/
theorem findPivot_brute_force (out : StaticOutGraph) (s : PX) (xb xpb pb : Nat)
    (hB : Bijection s) (hN : s.pxvector.Nodup) (hA : OneArc out s.pxvector)
    (h1 : xb ≤ xpb) (h2 : xpb < pb) (h3 : pb ≤ s.pxvector.length) :
    (∃ p, xb ≤ p ∧ p < pb ∧ findPivot out s xb xpb pb = nodeAt s p) ∧
    (∀ w ∈ seg s xb pb, windowDegree out s xpb pb w
        ≤ windowDegree out s xpb pb (findPivot out s xb xpb pb)) ∧
    windowDegree out s xpb pb (findPivot out s xb xpb pb)
      = maxWindowDegree out s xb xpb pb := by
  obtain ⟨p, g1, g2, g3, g4⟩ := findPivot_maximal (outOK_of_oneArc hA) (oneArc_exclusive hA)
    (inv_of_bijection hB hN) h1 h2 h3
  refine ⟨⟨p, g1, g2, g3⟩, ?_, ?_⟩
  · intro w hw
    obtain ⟨q, q1, q2, rfl⟩ := mem_seg_position s hw
    rw [g3]
    exact g4 q q1 q2
  · rw [g3]
    exact windowDegree_max out s g1 g2 g4

theorem findPivot_brute_force_witness :
    (∃ p, 2 ≤ p ∧ p < 5 ∧ findPivot tieOut tieState 2 4 5 = nodeAt tieState p) ∧
    (∀ w ∈ seg tieState 2 5, windowDegree tieOut tieState 4 5 w
        ≤ windowDegree tieOut tieState 4 5 (findPivot tieOut tieState 2 4 5)) ∧
    windowDegree tieOut tieState 4 5 (findPivot tieOut tieState 2 4 5)
      = maxWindowDegree tieOut tieState 2 4 5 :=
  findPivot_brute_force tieOut tieState 2 4 5 (by decide) (by decide) (by decide)
    (by decide) (by decide) (by decide)

/-- C13, refuted as stated: on `tieGraph` with the ordering 0, 1, ..., 7 the run reaches
the call with partition array `tieState` and window `(2, 4, 5)`. The nodes 4 (position 2)
and 0 (position 3) both have the maximum number of neighbours in P, one, and `findPivot`
returns the node 0, which is not at the earliest position. -/
theorem findPivot_tie_counterexample :
    tieGraph.Simple ∧ [0, 1, 2, 3, 4, 5, 6, 7].Perm tieGraph.nodes ∧
    tieCall.map (fun c => (c.1.pxvector, c.1.pxlookup, c.2))
      = some (tieState.pxvector, tieState.pxlookup, 2, 4, 5) ∧
    Bijection tieState ∧ tieState.pxvector.Nodup ∧ OneArc tieOut tieState.pxvector ∧
    nodeAt tieState 2 = 4 ∧ nodeAt tieState 3 = 0 ∧
    windowDegree tieOut tieState 4 5 4 = maxWindowDegree tieOut tieState 2 4 5 ∧
    windowDegree tieOut tieState 4 5 0 = maxWindowDegree tieOut tieState 2 4 5 ∧
    findPivot tieOut tieState 2 4 5 = 0 := by
  refine ⟨by decide, by decide, by decide, by decide, by decide, by decide, by decide,
    by decide, by decide, by decide, by decide⟩

/-- C13, amended: under the hypotheses of C12, either some node of X has all of P among
its out-neighbours, and `findPivot` returns the first such node of X, a node with the
maximum number of neighbours in P; or X has no such node, and `findPivot` returns the
node at the earliest position of the window among those with the maximum number of
neighbours in P. -/
theorem findPivot_tie_break (out : StaticOutGraph) (s : PX) (xb xpb pb : Nat)
    (hB : Bijection s) (hN : s.pxvector.Nodup) (hA : OneArc out s.pxvector)
    (h1 : xb ≤ xpb) (h2 : xpb < pb) (h3 : pb ≤ s.pxvector.length) :
    (∃ p, xb ≤ p ∧ p < xpb ∧ findPivot out s xb xpb pb = nodeAt s p ∧
      outDegree out s xpb pb (nodeAt s p) = pb - xpb ∧
      windowDegree out s xpb pb (nodeAt s p) = maxWindowDegree out s xb xpb pb ∧
      ∀ q, xb ≤ q → q < p → outDegree out s xpb pb (nodeAt s q) ≠ pb - xpb) ∨
    ((∀ q, xb ≤ q → q < xpb → outDegree out s xpb pb (nodeAt s q) ≠ pb - xpb) ∧
      ∃ p, xb ≤ p ∧ p < pb ∧ findPivot out s xb xpb pb = nodeAt s p ∧
        windowDegree out s xpb pb (nodeAt s p) = maxWindowDegree out s xb xpb pb ∧
        ∀ q, xb ≤ q → q < p →
          windowDegree out s xpb pb (nodeAt s q) < maxWindowDegree out s xb xpb pb) := by
  have hO := outOK_of_oneArc hA
  have hex := oneArc_exclusive hA
  have hI := inv_of_bijection hB hN
  rcases findPivot_cases hO hex hI h1 h2 h3 with
    ⟨p, g1, g2, g3, g4, g5⟩ | ⟨g0, p, g1, g2, g3, g4, g5⟩
  · left
    refine ⟨p, g1, g2, g3, g4, ?_, g5⟩
    apply windowDegree_max out s g1 (by omega)
    intro q _ _
    have hVp : nodeAt s p ∈ s.pxvector := (hI.vec p (by omega)).1
    have a1 := windowDegree_le out s xpb pb (nodeAt s q)
    have a2 : outDegree out s xpb pb (nodeAt s p) ≤ windowDegree out s xpb pb (nodeAt s p) :=
      outDegree_le_windowDegree hO hex hI h3 hVp
    omega
  · right
    have e := windowDegree_max out s g1 g2 g4
    refine ⟨g0, p, g1, g2, g3, e, ?_⟩
    intro q q1 q2
    rw [← e]
    exact g5 q q1 q2

theorem findPivot_tie_break_witness :
    (∃ p, 2 ≤ p ∧ p < 4 ∧ findPivot tieOut tieState 2 4 5 = nodeAt tieState p ∧
      outDegree tieOut tieState 4 5 (nodeAt tieState p) = 5 - 4 ∧
      windowDegree tieOut tieState 4 5 (nodeAt tieState p)
        = maxWindowDegree tieOut tieState 2 4 5 ∧
      ∀ q, 2 ≤ q → q < p → outDegree tieOut tieState 4 5 (nodeAt tieState q) ≠ 5 - 4) ∨
    ((∀ q, 2 ≤ q → q < 4 → outDegree tieOut tieState 4 5 (nodeAt tieState q) ≠ 5 - 4) ∧
      ∃ p, 2 ≤ p ∧ p < 5 ∧ findPivot tieOut tieState 2 4 5 = nodeAt tieState p ∧
        windowDegree tieOut tieState 4 5 (nodeAt tieState p)
          = maxWindowDegree tieOut tieState 2 4 5 ∧
        ∀ q, 2 ≤ q → q < p →
          windowDegree tieOut tieState 4 5 (nodeAt tieState q)
            < maxWindowDegree tieOut tieState 2 4 5) :=
  findPivot_tie_break tieOut tieState 2 4 5 (by decide) (by decide) (by decide)
    (by decide) (by decide) (by decide)

/-! ## Contracts of `tomita` in terms of the partition array -/

/-- A call of `tomita` on a partition array of distinct nodes with the bijection invariant
and a one-arc out-graph returns and meets `TomitaPost` over the stored nodes. -/
theorem tomita_post {out : StaticOutGraph} {m : Mem} (hB : Bijection m.px)
    (hN : m.px.pxvector.Nodup) (hA : OneArc out m.px.pxvector) {fuel xb xpb pb : Nat}
    (h1 : xb ≤ xpb) (h2 : xpb ≤ pb) (h3 : pb ≤ m.px.pxvector.length) (hf : pb - xpb < fuel) :
    ∃ m2, tomita out fuel m xb xpb pb = some m2 ∧
      TomitaPost (fun v => v ∈ m.px.pxvector) out m xb xpb pb m2 :=
  tomita_spec (outOK_of_oneArc hA) fuel m xb xpb pb (inv_of_bijection hB hN) h1 h2 h3 hf

/-- The qualified cliques of the enumeration are the local maximal cliques of the
window. -/
theorem qual_iff_local {V : Nat → Prop} {out : StaticOutGraph} {s : PX} (hI : Inv V s)
    {xb xpb pb : Nat} (h1 : xb ≤ xpb) (h2 : xpb ≤ pb) (h3 : pb ≤ s.pxvector.length)
    (T : Finset Nat) :
    Qual (oadj out) (fun w => V w ∧ xb ≤ pos s w ∧ pos s w < xpb)
      (fun w => V w ∧ xpb ≤ pos s w ∧ pos s w < pb) (fun v => v ∈ T)
      ↔ LocalMaxClique out s xb xpb pb T := by
  constructor
  · rintro ⟨q1, q2, q3⟩
    refine ⟨?_, ?_, ?_⟩
    · intro v hv
      exact (mem_seg hI h3 v).mpr (q1 v hv)
    · intro u hu v hv huv
      exact (adjacent_iff out u v).mpr (q2 u v hu hv huv)
    · intro w hw hwT
      obtain ⟨wV, w1, w2⟩ := (mem_seg hI h3 w).mp hw
      have hXP : (V w ∧ xb ≤ pos s w ∧ pos s w < xpb) ∨ (V w ∧ xpb ≤ pos s w ∧ pos s w < pb) := by
        by_cases c : pos s w < xpb
        · exact Or.inl ⟨wV, w1, c⟩
        · exact Or.inr ⟨wV, by omega, w2⟩
      obtain ⟨v, hv, hn⟩ := q3 w hXP hwT
      exact ⟨v, hv, (adjacent_false_iff out w v).mpr hn⟩
  · rintro ⟨q1, q2, q3⟩
    refine ⟨?_, ?_, ?_⟩
    · intro v hv
      exact (mem_seg hI h3 v).mp (q1 v hv)
    · intro u v hu hv huv
      exact (adjacent_iff out u v).mp (q2 u hu v hv huv)
    · intro w hw hwT
      have hws : w ∈ seg s xb pb := by
        rw [mem_seg hI h3]
        rcases hw with ⟨a, b, c⟩ | ⟨a, b, c⟩
        · exact ⟨a, b, by omega⟩
        · exact ⟨a, by omega, c⟩
      obtain ⟨v, hv, hn⟩ := q3 w hws hwT
      exact ⟨v, hv, (adjacent_false_iff out w v).mp hn⟩

/-- Prefixing the stack keeps entries with different node sets different, when the
entries avoid the stack. -/
theorem count_union_eq (r : List Nat) (L : List (List Nat)) (T : Finset Nat)
    (hL : ∀ S ∈ L, ∀ v ∈ S, v ∉ r) (hT : ∀ v ∈ T, v ∉ r) :
    ((L.map (fun S => r ++ S)).map List.toFinset).count (r.toFinset ∪ T)
      = (L.map List.toFinset).count T := by
  rw [List.count_eq_countP, List.count_eq_countP, List.map_map, List.countP_map,
    List.countP_map]
  apply List.countP_congr
  intro S hS
  simp only [Function.comp, beq_iff_eq, List.toFinset_append]
  constructor
  · intro e
    ext v
    constructor
    · intro hv
      have h1 : v ∈ r.toFinset ∪ T := e ▸ Finset.mem_union_right _ hv
      rcases Finset.mem_union.mp h1 with h | h
      · exact absurd (List.mem_toFinset.mp h) (hL S hS v (List.mem_toFinset.mp hv))
      · exact h
    · intro hv
      have h1 : v ∈ r.toFinset ∪ S.toFinset := e ▸ Finset.mem_union_right _ hv
      rcases Finset.mem_union.mp h1 with h | h
      · exact absurd (List.mem_toFinset.mp h) (hT v hv)
      · exact h
  · intro e
    rw [e]

/-- C14: the local enumeration lemma for `tomita`. On a partition array of distinct nodes
with the bijection invariant, a one-arc out-graph, bounds `xb ≤ xpb ≤ pb ≤ size` and a
budget above the size of P, the call returns; the entries it appends to `result` are
the stack `r` extended by the entries `S` of a list `L` such that every `S` is, without
repetition, a clique inside P that no node of `X ∪ P` outside `S` extends, and every
such clique is the node set of exactly one entry of `L`. When the nodes of the window
are outside `r`, every set `r ∪ S` is the node set of exactly one appended entry. The
clique hypotheses on `r` of the claim are not needed. -/
theorem tomita_local_enumeration (out : StaticOutGraph) (fuel : Nat) (m : Mem)
    (xb xpb pb : Nat) (hB : Bijection m.px) (hN : m.px.pxvector.Nodup)
    (hA : OneArc out m.px.pxvector) (h1 : xb ≤ xpb) (h2 : xpb ≤ pb)
    (h3 : pb ≤ m.px.pxvector.length) (hf : pb - xpb < fuel) :
    ∃ (m2 : Mem) (L : List (List Nat)), tomita out fuel m xb xpb pb = some m2 ∧
      m2.result = m.result ++ L.map (fun S => m.r ++ S) ∧
      (∀ S ∈ L, S.Nodup ∧ LocalMaxClique out m.px xb xpb pb S.toFinset) ∧
      (∀ T, LocalMaxClique out m.px xb xpb pb T → (L.map List.toFinset).count T = 1) ∧
      ((∀ w ∈ seg m.px xb pb, w ∉ m.r) →
        ∀ T, LocalMaxClique out m.px xb xpb pb T →
          ((L.map (fun S => m.r ++ S)).map List.toFinset).count (m.r.toFinset ∪ T) = 1) := by
  have hI := inv_of_bijection hB hN
  obtain ⟨m2, hm2, hP⟩ := tomita_post hB hN hA h1 h2 h3 hf
  obtain ⟨L, hres, hE⟩ := hP.enum
  have hsound : ∀ S ∈ L, S.Nodup ∧ LocalMaxClique out m.px xb xpb pb S.toFinset := by
    intro S hS
    obtain ⟨a, b⟩ := hE.sound S hS
    refine ⟨a, (qual_iff_local hI h1 h2 h3 S.toFinset).mp ?_⟩
    have e : (fun v => v ∈ S.toFinset) = (fun v => v ∈ S) :=
      funext fun v => propext List.mem_toFinset
    rw [e]
    exact b
  have hcount : ∀ T, LocalMaxClique out m.px xb xpb pb T →
      (L.map List.toFinset).count T = 1 := by
    intro T hT
    obtain ⟨S, hS, hST⟩ := hE.complete _ ((qual_iff_local hI h1 h2 h3 T).mpr hT)
    have e : S.toFinset = T := by
      ext v
      rw [List.mem_toFinset]
      exact hST v
    exact List.count_eq_one_of_mem (distinct_toFinset hE.distinct)
      (e ▸ List.mem_map_of_mem _ hS)
  refine ⟨m2, L, hm2, hres, hsound, hcount, ?_⟩
  intro hr T hT
  have hsub : ∀ {U : Finset Nat}, LocalMaxClique out m.px xb xpb pb U → ∀ v ∈ U, v ∉ m.r := by
    intro U hU v hv
    apply hr
    obtain ⟨vV, a, b⟩ := (mem_seg hI h3 v).mp (hU.1 v hv)
    exact (mem_seg hI h3 v).mpr ⟨vV, by omega, b⟩
  rw [count_union_eq m.r L T
    (fun S hS v hv => hsub (hsound S hS).2 v (List.mem_toFinset.mpr hv)) (hsub hT)]
  exact hcount T hT

theorem tomita_local_enumeration_witness :
    (∃ (m2 : Mem) (L : List (List Nat)),
      tomita tieOut 8 ⟨tieSeed, [2], [[0, 2, 3, 5]]⟩ 1 3 8 = some m2 ∧
      m2.result = [[0, 2, 3, 5]] ++ L.map (fun S => [2] ++ S) ∧
      (∀ S ∈ L, S.Nodup ∧ LocalMaxClique tieOut tieSeed 1 3 8 S.toFinset) ∧
      (∀ T, LocalMaxClique tieOut tieSeed 1 3 8 T → (L.map List.toFinset).count T = 1) ∧
      ((∀ w ∈ seg tieSeed 1 8, w ∉ [2]) →
        ∀ T, LocalMaxClique tieOut tieSeed 1 3 8 T →
          ((L.map (fun S => [2] ++ S)).map List.toFinset).count
            (([2] : List Nat).toFinset ∪ T) = 1)) ∧
    (tomita tieOut 8 ⟨tieSeed, [2], [[0, 2, 3, 5]]⟩ 1 3 8).map Mem.result
      = some [[0, 2, 3, 5], [2, 4, 5, 3]] ∧
    (∀ w ∈ seg tieSeed 1 8, w ∉ [2]) ∧
    LocalMaxClique tieOut tieSeed 1 3 8 {3, 4, 5} :=
  ⟨tomita_local_enumeration tieOut 8 ⟨tieSeed, [2], [[0, 2, 3, 5]]⟩ 1 3 8 (by decide)
    (by decide) (by decide) (by decide) (by decide) (by decide) (by decide),
    by decide, by decide, by unfold LocalMaxClique; decide⟩

/-- C15: `tomita` restores its caller's view. Under the conditions of C14 the call
returns, the nodes at the positions `[xb, xpb)` are a permutation of the nodes that were
there on entry, likewise the nodes at the positions `[xpb, pb)`, and the stack `r` is
the one of entry. -/
theorem tomita_restores (out : StaticOutGraph) (fuel : Nat) (m : Mem)
    (xb xpb pb : Nat) (hB : Bijection m.px) (hN : m.px.pxvector.Nodup)
    (hA : OneArc out m.px.pxvector) (h1 : xb ≤ xpb) (h2 : xpb ≤ pb)
    (h3 : pb ≤ m.px.pxvector.length) (hf : pb - xpb < fuel) :
    ∃ m2, tomita out fuel m xb xpb pb = some m2 ∧
      (seg m2.px xb xpb).Perm (seg m.px xb xpb) ∧
      (seg m2.px xpb pb).Perm (seg m.px xpb pb) ∧ m2.r = m.r := by
  obtain ⟨m2, hm2, hP⟩ := tomita_post hB hN hA h1 h2 h3 hf
  obtain ⟨a, b⟩ := seg_perm_of_same (inv_of_bijection hB hN) hP.inv hP.same h2 h3
  exact ⟨m2, hm2, a, b, hP.r⟩

theorem tomita_restores_witness :
    (∃ m2, tomita tieOut 8 ⟨tieSeed, [2], []⟩ 1 3 8 = some m2 ∧
      (seg m2.px 1 3).Perm (seg tieSeed 1 3) ∧
      (seg m2.px 3 8).Perm (seg tieSeed 3 8) ∧ m2.r = [2]) ∧
    (tomita tieOut 8 ⟨tieSeed, [2], []⟩ 1 3 8).map (fun m => seg m.px 3 8)
      = some [5, 4, 3, 6, 7] ∧
    seg tieSeed 3 8 = [3, 4, 5, 6, 7] :=
  ⟨tomita_restores tieOut 8 ⟨tieSeed, [2], []⟩ 1 3 8 (by decide) (by decide)
    (by decide) (by decide) (by decide) (by decide) (by decide), by decide, by decide⟩

/-- C16: `tomita` touches only its active window. Under the conditions of C14 the call
returns, the vectors keep their lengths, `pxvector[i]` is unchanged for every position
`i < xb` and every position `i ≥ pb`, and `pxlookup[v]` is unchanged for every node `v`
stored at such a position. -/
theorem tomita_frame (out : StaticOutGraph) (fuel : Nat) (m : Mem)
    (xb xpb pb : Nat) (hB : Bijection m.px) (hN : m.px.pxvector.Nodup)
    (hA : OneArc out m.px.pxvector) (h1 : xb ≤ xpb) (h2 : xpb ≤ pb)
    (h3 : pb ≤ m.px.pxvector.length) (hf : pb - xpb < fuel) :
    ∃ m2, tomita out fuel m xb xpb pb = some m2 ∧
      m2.px.pxvector.length = m.px.pxvector.length ∧
      ∀ i, (i < xb ∨ pb ≤ i) → i < m.px.pxvector.length →
        m2.px.pxvector.getD i 0 = m.px.pxvector.getD i 0 ∧
        m2.px.pxlookup.getD (m.px.pxvector.getD i 0) 0
          = m.px.pxlookup.getD (m.px.pxvector.getD i 0) 0 := by
  obtain ⟨m2, hm2, hP⟩ := tomita_post hB hN hA h1 h2 h3 hf
  have hI := inv_of_bijection hB hN
  refine ⟨m2, hm2, hP.same.len, ?_⟩
  intro i hi hlen
  obtain ⟨hV, hpos⟩ := hI.vec i hlen
  have e : pos m2.px (nodeAt m.px i) = pos m.px (nodeAt m.px i) :=
    hP.same.out _ hV (by rw [hpos]; exact hi)
  refine ⟨?_, e⟩
  have g := (hP.inv.look _ hV).2.2
  rw [e, hpos] at g
  exact g

theorem tomita_frame_witness :
    (∃ m2, tomita tieOut 8 ⟨tieSeed, [2], []⟩ 1 3 8 = some m2 ∧
      m2.px.pxvector.length = tieSeed.pxvector.length ∧
      ∀ i, (i < 1 ∨ 8 ≤ i) → i < tieSeed.pxvector.length →
        m2.px.pxvector.getD i 0 = tieSeed.pxvector.getD i 0 ∧
        m2.px.pxlookup.getD (tieSeed.pxvector.getD i 0) 0
          = tieSeed.pxlookup.getD (tieSeed.pxvector.getD i 0) 0) ∧
    (tomita tieOut 8 ⟨tieSeed, [2], []⟩ 1 3 8).map (fun m => m.px.pxvector)
      = some [2, 1, 0, 5, 4, 3, 6, 7] ∧
    (tomitaTrace tieOut 8 0 ⟨tieSeed, [2], []⟩ 1 3 8).length = 23 :=
  ⟨tomita_frame tieOut 8 ⟨tieSeed, [2], []⟩ 1 3 8 (by decide) (by decide)
    (by decide) (by decide) (by decide) (by decide) (by decide), by decide, by decide⟩

/-- C11: on a graph with 0 nodes `run` finishes with an empty result and `hasRun` set. The
ordering is empty, so the driver loop makes no iteration; the run succeeds with every
recursion budget, also with the budget 0 under which any call of `tomita` fails, so
`tomita` is not called. -/
theorem run_empty (A : MaximalCliques) (orderedNodes : List Nat) (fuel : Nat)
    (hn : A.G.nodes = []) (hO : orderedNodes.Perm A.G.nodes) :
    orderedNodes = [] ∧ A.run fuel orderedNodes = some ⟨A.G, [], true⟩ ∧
      A.run 0 orderedNodes = some ⟨A.G, [], true⟩ := by
  have e : orderedNodes = [] := by
    rw [hn] at hO
    exact List.Perm.eq_nil hO
  subst e
  exact ⟨rfl, by rw [run_eq]; rfl, by rw [run_eq]; rfl⟩

theorem run_empty_witness :
    ([] : List Nat) = [] ∧
      (⟨emptyGraph, [[1]], false⟩ : MaximalCliques).run 5 [] = some ⟨emptyGraph, [], true⟩ ∧
      (⟨emptyGraph, [[1]], false⟩ : MaximalCliques).run 0 [] = some ⟨emptyGraph, [], true⟩ :=
  run_empty ⟨emptyGraph, [[1]], false⟩ [] 5 (by decide) (by decide)

/-! ## The candidates and the tightened window -/

/-- The marks of lines 152-161: position `i` of P is marked exactly when the node stored
there is an out-neighbour of `u`. -/
theorem mark_eq_hasNeighbor {V : Nat → Prop} {out : StaticOutGraph} (hO : OutOK V out)
    {s : PX} (hI : Inv V s) {u xpb pb : Nat} (hu : V u) (h3 : pb ≤ s.pxvector.length)
    {i : Nat} (hi1 : xpb ≤ i) (hi2 : i < pb) :
    ((out.forOutEdgesOf u).foldl (markPivotNeighbor s xpb pb)
        (List.replicate (pb - xpb) false)).getD (i - xpb) false
      = out.hasNeighbor u (nodeAt s i) := by
  rw [Bool.eq_iff_iff, markPivotNeighbor_fold_get s xpb pb _ _ _ (List.length_replicate _ _),
    hasNeighbor_iff]
  obtain ⟨hV, hp⟩ := hI.vec i (by omega)
  constructor
  · rintro (h | ⟨v, hv, g1, g2, g3⟩)
    · rw [getD_replicate_false] at h
      exact Bool.noConfusion h
    · have e : pos s v = i := by omega
      have e2 := (hI.look v (hO.mem u hu v hv)).2.2
      rw [e] at e2
      rw [e2]
      exact hv
  · intro h
    exact Or.inr ⟨nodeAt s i, h, by omega, by omega, by rw [hp]⟩

/-- The list `toCheck` is the list of the nodes of P, in position order, without the
neighbours of `u`. -/
theorem buildToCheck_eq {V : Nat → Prop} {out : StaticOutGraph} (hO : OutOK V out)
    {s : PX} (hI : Inv V s) {u xpb pb : Nat} (hu : V u) (h3 : pb ≤ s.pxvector.length) :
    buildToCheck out s u xpb pb = (seg s xpb pb).filter (fun p => !out.adjacent u p) := by
  unfold buildToCheck
  simp only
  rw [toCheckStep_fold, List.nil_append]
  unfold seg
  rw [List.filter_map]
  congr 1
  apply List.filter_congr
  intro i hi
  rw [List.mem_range'_1] at hi
  simp only [Function.comp]
  rw [mark_eq_hasNeighbor hO hI hu h3 hi.1 (by omega)]
  unfold StaticOutGraph.adjacent
  cases out.hasNeighbor u (nodeAt s i) <;> cases out.hasNeighbor (nodeAt s i) u <;> rfl

/-- C17: the branch candidates. On a partition array of distinct nodes with the bijection
invariant, a one-arc out-graph and a window with non-empty P, the list `toCheck` built
for the pivot is the list of the nodes of P = `[xpb, pb)` in increasing position with
the nodes adjacent to the pivot (by an arc in either direction) left out; it has no
repetition, and a pivot that lies in P is a member. -/
theorem buildToCheck_candidates (out : StaticOutGraph) (s : PX) (xb xpb pb : Nat)
    (hB : Bijection s) (hN : s.pxvector.Nodup) (hA : OneArc out s.pxvector)
    (h1 : xb ≤ xpb) (h2 : xpb < pb) (h3 : pb ≤ s.pxvector.length) :
    buildToCheck out s (findPivot out s xb xpb pb) xpb pb
      = (seg s xpb pb).filter (fun p => !out.adjacent (findPivot out s xb xpb pb) p) ∧
    (buildToCheck out s (findPivot out s xb xpb pb) xpb pb).Nodup ∧
    (findPivot out s xb xpb pb ∈ seg s xpb pb →
      findPivot out s xb xpb pb ∈ buildToCheck out s (findPivot out s xb xpb pb) xpb pb) := by
  have hO := outOK_of_oneArc hA
  have hI := inv_of_bijection hB hN
  obtain ⟨j, hj1, hj2, hj⟩ := findPivot_window out s h1 (le_of_lt h2) (by omega)
  have hu : findPivot out s xb xpb pb ∈ s.pxvector := by
    rw [hj]
    exact (hI.vec j (by omega)).1
  have e : buildToCheck out s (findPivot out s xb xpb pb) xpb pb
      = (seg s xpb pb).filter (fun p => !out.adjacent (findPivot out s xb xpb pb) p) :=
    buildToCheck_eq hO hI hu h3
  refine ⟨e, ?_, ?_⟩
  · rw [e]
    exact (seg_nodup hI h3).filter _
  · intro hm
    rw [e, List.mem_filter]
    refine ⟨hm, ?_⟩
    have hirr : ¬ oadj out (findPivot out s xb xpb pb) (findPivot out s xb xpb pb) := by
      rintro (h | h) <;> exact hO.irrefl _ hu h
    rw [(adjacent_false_iff out _ _).mpr hirr]
    rfl

theorem buildToCheck_candidates_witness :
    (buildToCheck tieOut tieSeed (findPivot tieOut tieSeed 3 3 8) 3 8
        = (seg tieSeed 3 8).filter
            (fun p => !tieOut.adjacent (findPivot tieOut tieSeed 3 3 8) p) ∧
      (buildToCheck tieOut tieSeed (findPivot tieOut tieSeed 3 3 8) 3 8).Nodup ∧
      (findPivot tieOut tieSeed 3 3 8 ∈ seg tieSeed 3 8 →
        findPivot tieOut tieSeed 3 3 8
          ∈ buildToCheck tieOut tieSeed (findPivot tieOut tieSeed 3 3 8) 3 8)) ∧
    findPivot tieOut tieSeed 3 3 8 = 3 ∧
    findPivot tieOut tieSeed 3 3 8 ∈ seg tieSeed 3 8 ∧
    seg tieSeed 3 8 = [3, 4, 5, 6, 7] ∧
    buildToCheck tieOut tieSeed (findPivot tieOut tieSeed 3 3 8) 3 8 = [3, 6, 7] :=
  ⟨buildToCheck_candidates tieOut tieSeed 3 3 8 (by decide) (by decide) (by decide)
    (by decide) (by decide) (by decide), by decide, by decide, by decide, by decide⟩

/-- C18: the tightened window. On a partition array of distinct nodes with the bijection
invariant, a one-arc out-graph, a window `xb ≤ xpb ≤ pb ≤ size` and a candidate `p`
stored in P, after the three partition passes the nodes at the positions
`[xpb - xcount, xpb)` are the nodes of X adjacent to `p`, the nodes at the positions
`[xpb, xpb + pcount)` are the nodes of P adjacent to `p`, the candidate `p` is stored in
`[xpb + pcount, pb)`, and the positions of X and of P hold permutations of the nodes
they held before. -/
theorem partitionFor_tightened (out : StaticOutGraph) (s : PX) (p xb xpb pb : Nat)
    (hB : Bijection s) (hN : s.pxvector.Nodup) (hA : OneArc out s.pxvector)
    (h1 : xb ≤ xpb) (h2 : xpb ≤ pb) (h3 : pb ≤ s.pxvector.length)
    (hp : p ∈ seg s xpb pb) :
    xb + (partitionFor out s p xb xpb pb).xcount ≤ xpb ∧
    xpb + (partitionFor out s p xb xpb pb).pcount ≤ pb ∧
    (∀ y, y ∈ seg (partitionFor out s p xb xpb pb).px
          (xpb - (partitionFor out s p xb xpb pb).xcount) xpb
        ↔ (y ∈ seg s xb xpb ∧ out.adjacent p y = true)) ∧
    (∀ y, y ∈ seg (partitionFor out s p xb xpb pb).px xpb
          (xpb + (partitionFor out s p xb xpb pb).pcount)
        ↔ (y ∈ seg s xpb pb ∧ out.adjacent p y = true)) ∧
    p ∈ seg (partitionFor out s p xb xpb pb).px
          (xpb + (partitionFor out s p xb xpb pb).pcount) pb ∧
    (seg (partitionFor out s p xb xpb pb).px xb xpb).Perm (seg s xb xpb) ∧
    (seg (partitionFor out s p xb xpb pb).px xpb pb).Perm (seg s xpb pb) := by
  have hO := outOK_of_oneArc hA
  have hI := inv_of_bijection hB hN
  obtain ⟨hpV, hp1, hp2⟩ := (mem_seg hI h3 p).mp hp
  have hP := partitionFor_spec hO hI hpV h1 h2 h3
  generalize partitionFor out s p xb xpb pb = a at hP ⊢
  obtain ⟨aI, aS, ax, ap, apb, acol⟩ := hP
  have hlen : a.px.pxvector.length = s.pxvector.length := aS.len
  obtain ⟨perm1, perm2⟩ := seg_perm_of_same hI aI aS h2 h3
  refine ⟨ax, ap, ?_, ?_, ?_, perm1, perm2⟩
  · intro y
    rw [mem_seg aI (by omega), mem_seg hI (by omega), adjacent_iff]
    constructor
    · rintro ⟨yV, y1, y2⟩
      have hx := (aS.inX y yV).mp ⟨by omega, y2⟩
      exact ⟨⟨yV, hx⟩, (acol y yV (by omega) (by omega)).mpr ⟨y1, by omega⟩⟩
    · rintro ⟨⟨yV, y1, y2⟩, hadj⟩
      have hx := (aS.inX y yV).mpr ⟨y1, y2⟩
      have hc := (acol y yV hx.1 (by omega)).mp hadj
      exact ⟨yV, hc.1, hx.2⟩
  · intro y
    rw [mem_seg aI (by omega), mem_seg hI h3, adjacent_iff]
    constructor
    · rintro ⟨yV, y1, y2⟩
      have hx := (aS.inP y yV).mp ⟨y1, by omega⟩
      exact ⟨⟨yV, hx⟩, (acol y yV (by omega) (by omega)).mpr ⟨by omega, y2⟩⟩
    · rintro ⟨⟨yV, y1, y2⟩, hadj⟩
      have hx := (aS.inP y yV).mpr ⟨y1, y2⟩
      have hc := (acol y yV (by omega) hx.2).mp hadj
      exact ⟨yV, hx.1, hc.2⟩
  · rw [mem_seg aI (by omega)]
    have hx := (aS.inP p hpV).mpr ⟨hp1, hp2⟩
    have hirr : ¬ oadj out p p := by
      rintro (h | h) <;> exact hO.irrefl _ hpV h
    have hc := (acol p hpV (by omega) hx.2).not.mp hirr
    refine ⟨hpV, ?_, hx.2⟩
    by_contra q
    exact hc ⟨by omega, by omega⟩

theorem partitionFor_tightened_witness :
    2 + (partitionFor tieOut tieState 3 2 4 5).xcount ≤ 4 ∧
    4 + (partitionFor tieOut tieState 3 2 4 5).pcount ≤ 5 ∧
    (∀ y, y ∈ seg (partitionFor tieOut tieState 3 2 4 5).px
          (4 - (partitionFor tieOut tieState 3 2 4 5).xcount) 4
        ↔ (y ∈ seg tieState 2 4 ∧ tieOut.adjacent 3 y = true)) ∧
    (∀ y, y ∈ seg (partitionFor tieOut tieState 3 2 4 5).px 4
          (4 + (partitionFor tieOut tieState 3 2 4 5).pcount)
        ↔ (y ∈ seg tieState 4 5 ∧ tieOut.adjacent 3 y = true)) ∧
    3 ∈ seg (partitionFor tieOut tieState 3 2 4 5).px
          (4 + (partitionFor tieOut tieState 3 2 4 5).pcount) 5 ∧
    (seg (partitionFor tieOut tieState 3 2 4 5).px 2 4).Perm (seg tieState 2 4) ∧
    (seg (partitionFor tieOut tieState 3 2 4 5).px 4 5).Perm (seg tieState 4 5) :=
  partitionFor_tightened tieOut tieState 3 2 4 5 (by decide) (by decide) (by decide)
    (by decide) (by decide) (by decide) (by decide)

/-! ## The swap primitive on the claim form of the invariant -/

theorem nodeAt_swap_stored {s : PX} {u p : Nat} (h2 : pos s u < s.pxvector.length)
    (h3 : nodeAt s (pos s u) = u) (hp : p < s.pxvector.length) (j : Nat) :
    nodeAt (swapNodeToPos s u p) j
      = if j = p then u else if j = pos s u then nodeAt s p else nodeAt s j := by
  unfold nodeAt pos at *
  simp only [swapNodeToPos, getD_set, List.length_set]
  split_ifs <;> first | rfl | omega

theorem pos_swap_stored {s : PX} {u p : Nat} (h1 : u < s.pxlookup.length)
    (h5 : nodeAt s p < s.pxlookup.length) (v : Nat) :
    pos (swapNodeToPos s u p) v
      = if v = u then p else if v = nodeAt s p then pos s u else pos s v := by
  unfold nodeAt pos at *
  simp only [swapNodeToPos, getD_set, List.length_set]
  split_ifs <;> first | rfl | omega

theorem set_getD_self {α : Type} (d : α) :
    ∀ (l : List α) (i : Nat), l.set i (l.getD i d) = l := by
  intro l
  induction l with
  | nil => intro i; rfl
  | cons a l ih =>
    intro i
    cases i with
    | zero => rfl
    | succ i =>
      rw [List.set_cons_succ, List.getD_cons_succ, ih]

theorem mem_of_mem_swap {s : PX} {u p : Nat} (h2 : pos s u < s.pxvector.length)
    (hp : p < s.pxvector.length) {v : Nat} (hv : v ∈ (swapNodeToPos s u p).pxvector) :
    v ∈ s.pxvector := by
  have e : (swapNodeToPos s u p).pxvector
      = (s.pxvector.set (pos s u) (nodeAt s p)).set p (nodeAt s (pos s u)) := rfl
  rw [e] at hv
  rcases List.mem_or_eq_of_mem_set hv with h | h
  · rcases List.mem_or_eq_of_mem_set h with h | h
    · exact h
    · rw [h]; exact nodeAt_mem s hp
  · rw [h]; exact nodeAt_mem s h2

/-- The swap keeps `pxvector[pxlookup[v]] == v` for every stored node. -/
theorem bijection_swap {s : PX} (hB : Bijection s) {u p : Nat} (hu : u ∈ s.pxvector)
    (hp : p < s.pxvector.length) : Bijection (swapNodeToPos s u p) := by
  obtain ⟨u1, u2, u3⟩ := hB u hu
  obtain ⟨w1, w2, w3⟩ := hB _ (nodeAt_mem s hp)
  intro v hv
  obtain ⟨v1, v2, v3⟩ := hB v (mem_of_mem_swap u2 hp hv)
  rw [swap_len_look, swap_len_vec, pos_swap_stored u1 w1, nodeAt_swap_stored u2 u3 hp]
  refine ⟨v1, ?_, ?_⟩
  · split_ifs <;> assumption
  · by_cases c1 : v = u
    · simp [c1]
    · by_cases c2 : v = nodeAt s p
      · rw [if_neg c1, if_pos c2]
        by_cases c3 : pos s u = p
        · rw [c3] at u3
          exact absurd (c2.trans u3) c1
        · rw [if_neg c3, if_pos rfl]
          exact c2.symm
      · rw [if_neg c1, if_neg c2]
        have c3 : pos s v ≠ p := by
          intro q
          rw [q] at v3
          exact c2 v3.symm
        have c4 : pos s v ≠ pos s u := by
          intro q
          rw [q, u3] at v3
          exact c1 v3.symm
        rw [if_neg c3, if_neg c4]
        exact v3

theorem swap_eq_self {s : PX} {u p : Nat} (h3 : nodeAt s (pos s u) = u) (h : pos s u = p) :
    swapNodeToPos s u p = s := by
  subst h
  have e : swapNodeToPos s u (pos s u)
      = ⟨(s.pxvector.set (pos s u) (nodeAt s (pos s u))).set (pos s u) (nodeAt s (pos s u)),
         (s.pxlookup.set (nodeAt s (pos s u)) (pos s u)).set u (pos s u)⟩ := rfl
  have e1 : s.pxvector.set (pos s u) (nodeAt s (pos s u)) = s.pxvector :=
    set_getD_self 0 s.pxvector (pos s u)
  have e2 : s.pxlookup.set u (pos s u) = s.pxlookup := set_getD_self 0 s.pxlookup u
  rw [e, e1, e1, h3, e2, e2]

/-- The swap permutes the stored nodes. -/
theorem swap_perm {s : PX} {u p : Nat} (h2 : pos s u < s.pxvector.length)
    (h3 : nodeAt s (pos s u) = u) (hp : p < s.pxvector.length) :
    (swapNodeToPos s u p).pxvector.Perm s.pxvector := by
  by_cases c : pos s u = p
  · rw [swap_eq_self h3 c]
  · have e : (swapNodeToPos s u p).pxvector
        = (s.pxvector.set (pos s u) (nodeAt s p)).set p (nodeAt s (pos s u)) := rfl
    rw [e, h3, List.perm_iff_count]
    intro b
    have hp2 : p < (s.pxvector.set (pos s u) (nodeAt s p)).length := by
      rw [List.length_set]; exact hp
    rw [List.count_set _ _ _ _ hp2, List.count_set _ _ _ _ h2]
    have g1 : (s.pxvector.set (pos s u) (nodeAt s p))[p] = nodeAt s p := by
      rw [List.getElem_set_ne c, ← nodeAt_eq_getElem s hp]
    have g2 : s.pxvector[pos s u] = u := by
      rw [← nodeAt_eq_getElem s h2, h3]
    rw [g1, g2]
    have hcu : u = b → 0 < s.pxvector.count b := by
      intro q
      rw [← q, List.count_pos_iff]
      rw [← h3]
      exact nodeAt_mem s h2
    by_cases q1 : u = b
    · have hc := hcu q1
      by_cases q2 : nodeAt s p = b <;>
        simp only [beq_iff_eq, q1, q2, if_true, if_false] <;> omega
    · by_cases q2 : nodeAt s p = b <;>
        simp only [beq_iff_eq, q1, q2, if_true, if_false] <;> omega

/-- C19: the bijection invariant of the partition array. The swap keeps
`pxvector[pxlookup[v]] == v` for every stored node `v`, for every stored node `u` and
every position below the size. In `run` on a simple graph with a permutation ordering and
a sufficient budget the invariant holds after the initialisation and after every number
of driver iterations; every call of `tomita` and every partition pass started on a
partition array of distinct nodes with the invariant ends with the invariant. -/
theorem bijection_invariant (G : Graph) (orderedNodes : List Nat) (fuel : Nat)
    (hG : G.Simple) (hO : orderedNodes.Perm G.nodes) (hf : G.numberOfNodes ≤ fuel) :
    (∀ (s : PX) (u p : Nat), Bijection s → u ∈ s.pxvector → p < s.pxvector.length →
      Bijection (swapNodeToPos s u p)) ∧
    Bijection (initPX G orderedNodes) ∧
    (∀ pre post : List Nat, orderedNodes = pre ++ post →
      ∃ d, driverLoop G (StaticOutGraph.build G (initPX G orderedNodes).pxlookup) fuel pre
          ⟨initPX G orderedNodes, 1, []⟩ = some d ∧ Bijection d.px) ∧
    (∀ (out : StaticOutGraph) (budget : Nat) (m : Mem) (xb xpb pb : Nat),
      Bijection m.px → m.px.pxvector.Nodup → OneArc out m.px.pxvector →
      xb ≤ xpb → xpb ≤ pb → pb ≤ m.px.pxvector.length → pb - xpb < budget →
      ∃ m2, tomita out budget m xb xpb pb = some m2 ∧
        Bijection m2.px ∧ m2.px.pxvector.Nodup) ∧
    (∀ (out : StaticOutGraph) (s : PX) (p xb xpb pb : Nat),
      Bijection s → s.pxvector.Nodup → OneArc out s.pxvector →
      xb ≤ xpb → xpb ≤ pb → pb ≤ s.pxvector.length → p ∈ s.pxvector →
      Bijection (partitionFor out s p xb xpb pb).px) := by
  obtain ⟨hnd, hn, hOK, hadj, hnb, hD⟩ := run_setup hG hO
  refine ⟨?_, (bijection_of_inv hD.inv).1, ?_, ?_, ?_⟩
  · intro s u p hB hu hp
    exact bijection_swap hB hu hp
  · intro pre post hpp
    obtain ⟨d2, _, hd2, _, hD2, _⟩ := driverLoop_spec hOK hadj hnb (hn ▸ hf) hnd
      pre [] post ⟨initPX G orderedNodes, 1, []⟩ (by rw [List.nil_append]; exact hpp) hD
    exact ⟨d2, hd2, (bijection_of_inv hD2.inv).1⟩
  · intro out budget m xb xpb pb hB hN hA h1 h2 h3 hb
    obtain ⟨m2, hm2, hP⟩ := tomita_post hB hN hA h1 h2 h3 hb
    exact ⟨m2, hm2, bijection_of_inv hP.inv⟩
  · intro out s p xb xpb pb hB hN hA h1 h2 h3 hp
    have hP := partitionFor_spec (outOK_of_oneArc hA) (inv_of_bijection hB hN) hp h1 h2 h3
    exact (bijection_of_inv hP.inv).1

theorem bijection_invariant_witness :
    (∀ (s : PX) (u p : Nat), Bijection s → u ∈ s.pxvector → p < s.pxvector.length →
      Bijection (swapNodeToPos s u p)) ∧
    Bijection (initPX pathGraph [1, 0, 2]) ∧
    (∀ pre post : List Nat, [1, 0, 2] = pre ++ post →
      ∃ d, driverLoop pathGraph
          (StaticOutGraph.build pathGraph (initPX pathGraph [1, 0, 2]).pxlookup) 3 pre
          ⟨initPX pathGraph [1, 0, 2], 1, []⟩ = some d ∧ Bijection d.px) ∧
    (∀ (out : StaticOutGraph) (budget : Nat) (m : Mem) (xb xpb pb : Nat),
      Bijection m.px → m.px.pxvector.Nodup → OneArc out m.px.pxvector →
      xb ≤ xpb → xpb ≤ pb → pb ≤ m.px.pxvector.length → pb - xpb < budget →
      ∃ m2, tomita out budget m xb xpb pb = some m2 ∧
        Bijection m2.px ∧ m2.px.pxvector.Nodup) ∧
    (∀ (out : StaticOutGraph) (s : PX) (p xb xpb pb : Nat),
      Bijection s → s.pxvector.Nodup → OneArc out s.pxvector →
      xb ≤ xpb → xpb ≤ pb → pb ≤ s.pxvector.length → p ∈ s.pxvector →
      Bijection (partitionFor out s p xb xpb pb).px) :=
  bijection_invariant pathGraph [1, 0, 2] 3 (by decide) (by decide) (by decide)

/-- C20: `swapNodeToPos(u, pos)` is a swap of two slots. On a state with the bijection
invariant, for a stored node `u` and a position `p` below the size: afterwards
`pxvector[p]` is `u`, the node that was at `p` is at the former position of `u`, every
other slot of `pxvector` is unchanged, `pxlookup[u]` is `p`, the node that was at `p`,
when it is not `u`, has the former position of `u` as its entry, every other entry of
`pxlookup` is unchanged,
the lengths are unchanged, `pxvector` is a permutation of its former contents, and when
`u` is already at `p` the state is unchanged. -/
theorem swapNodeToPos_two_slots (s : PX) (u p : Nat) (hB : Bijection s)
    (hu : u ∈ s.pxvector) (hp : p < s.pxvector.length) :
    nodeAt (swapNodeToPos s u p) p = u ∧
    nodeAt (swapNodeToPos s u p) (pos s u) = nodeAt s p ∧
    (∀ j, j ≠ p → j ≠ pos s u → nodeAt (swapNodeToPos s u p) j = nodeAt s j) ∧
    pos (swapNodeToPos s u p) u = p ∧
    (nodeAt s p ≠ u → pos (swapNodeToPos s u p) (nodeAt s p) = pos s u) ∧
    (∀ v, v ≠ u → v ≠ nodeAt s p → pos (swapNodeToPos s u p) v = pos s v) ∧
    (swapNodeToPos s u p).pxvector.length = s.pxvector.length ∧
    (swapNodeToPos s u p).pxlookup.length = s.pxlookup.length ∧
    (swapNodeToPos s u p).pxvector.Perm s.pxvector ∧
    (pos s u = p → swapNodeToPos s u p = s) := by
  obtain ⟨u1, u2, u3⟩ := hB u hu
  obtain ⟨w1, _, _⟩ := hB _ (nodeAt_mem s hp)
  refine ⟨?_, ?_, ?_, ?_, ?_, ?_, swap_len_vec s u p, swap_len_look s u p,
    swap_perm u2 u3 hp, swap_eq_self u3⟩
  · rw [nodeAt_swap_stored u2 u3 hp, if_pos rfl]
  · rw [nodeAt_swap_stored u2 u3 hp]
    by_cases c : pos s u = p
    · rw [if_pos c, ← c, u3]
    · rw [if_neg c, if_pos rfl]
  · intro j j1 j2
    rw [nodeAt_swap_stored u2 u3 hp, if_neg j1, if_neg j2]
  · rw [pos_swap_stored u1 w1, if_pos rfl]
  · intro c
    rw [pos_swap_stored u1 w1, if_neg c, if_pos rfl]
  · intro v v1 v2
    rw [pos_swap_stored u1 w1, if_neg v1, if_neg v2]

theorem swapNodeToPos_two_slots_witness :
    nodeAt (swapNodeToPos tieState 3 1) 1 = 3 ∧
    nodeAt (swapNodeToPos tieState 3 1) (pos tieState 3) = nodeAt tieState 1 ∧
    (∀ j, j ≠ 1 → j ≠ pos tieState 3 →
      nodeAt (swapNodeToPos tieState 3 1) j = nodeAt tieState j) ∧
    pos (swapNodeToPos tieState 3 1) 3 = 1 ∧
    (nodeAt tieState 1 ≠ 3 →
      pos (swapNodeToPos tieState 3 1) (nodeAt tieState 1) = pos tieState 3) ∧
    (∀ v, v ≠ 3 → v ≠ nodeAt tieState 1 →
      pos (swapNodeToPos tieState 3 1) v = pos tieState v) ∧
    (swapNodeToPos tieState 3 1).pxvector.length = tieState.pxvector.length ∧
    (swapNodeToPos tieState 3 1).pxlookup.length = tieState.pxlookup.length ∧
    (swapNodeToPos tieState 3 1).pxvector.Perm tieState.pxvector ∧
    (pos tieState 3 = 1 → swapNodeToPos tieState 3 1 = tieState) :=
  swapNodeToPos_two_slots tieState 3 1 (by decide) (by decide) (by decide)

/-! ## The swap positions of a partition pass -/

theorem SwapPos.widen {xpb x0 p0 x1 p1 y0 q0 y1 q1 : Nat} {q : Int}
    (h : SwapPos xpb x0 p0 x1 p1 q) (a : y0 ≤ x0) (b : q0 ≤ p0) (c : x1 ≤ y1) (d : p1 ≤ q1) :
    SwapPos xpb y0 q0 y1 q1 q := by
  rcases h with ⟨k, k1, k2, k3⟩ | ⟨k, k1, k2, k3⟩
  · exact Or.inl ⟨k, by omega, by omega, k3⟩
  · exact Or.inr ⟨k, by omega, by omega, k3⟩

/-- A swap position of a pass that ends with counters inside the window lies inside the
window, and its computation does not wrap around. -/
theorem SwapPos.bounds {xb xpb pb x1 p1 : Nat} {q : Int} (h : SwapPos xpb 0 0 x1 p1 q)
    (hx : xb + x1 ≤ xpb) (hp : xpb + p1 ≤ pb) : (xb : Int) ≤ q ∧ q < (pb : Int) := by
  rcases h with ⟨k, _, k2, k3⟩ | ⟨k, _, k2, k3⟩ <;> omega

theorem collectOutSwaps_eq (xb xpb pb : Nat) (a : Part) (v : Nat) :
    collectOutSwaps xb xpb pb a v =
      if pos a.px v < xpb ∧ pos a.px v ≥ xb then [(xpb : Int) - a.xcount - 1]
      else if pos a.px v ≥ xpb ∧ pos a.px v < pb then [(xpb : Int) + a.pcount]
      else [] := rfl

theorem collectOut_step_pos (xb xpb pb : Nat) (a : Part) (v : Nat) :
    a.xcount ≤ (collectOut xb xpb pb a v).xcount ∧
    a.pcount ≤ (collectOut xb xpb pb a v).pcount ∧
    ∀ q ∈ collectOutSwaps xb xpb pb a v,
      SwapPos xpb a.xcount a.pcount (collectOut xb xpb pb a v).xcount
        (collectOut xb xpb pb a v).pcount q := by
  rw [collectOut_eq, collectOutSwaps_eq]
  by_cases hX : pos a.px v < xpb ∧ pos a.px v ≥ xb
  · rw [if_pos hX, if_pos hX]
    refine ⟨Nat.le_succ _, le_rfl, ?_⟩
    intro q hq
    rw [List.mem_singleton] at hq
    exact Or.inl ⟨a.xcount, le_rfl, Nat.lt_succ_self _, hq⟩
  · rw [if_neg hX, if_neg hX]
    by_cases hP : pos a.px v ≥ xpb ∧ pos a.px v < pb
    · rw [if_pos hP, if_pos hP]
      refine ⟨le_rfl, Nat.le_succ _, ?_⟩
      intro q hq
      rw [List.mem_singleton] at hq
      exact Or.inr ⟨a.pcount, le_rfl, Nat.lt_succ_self _, hq⟩
    · rw [if_neg hP, if_neg hP]
      exact ⟨le_rfl, le_rfl, fun q hq => absurd hq (List.not_mem_nil q)⟩

theorem collectOutTrace_pos (xb xpb pb : Nat) :
    ∀ (l : List Nat) (a : Part),
      a.xcount ≤ (l.foldl (collectOut xb xpb pb) a).xcount ∧
      a.pcount ≤ (l.foldl (collectOut xb xpb pb) a).pcount ∧
      ∀ q ∈ collectOutTrace xb xpb pb l a,
        SwapPos xpb a.xcount a.pcount (l.foldl (collectOut xb xpb pb) a).xcount
          (l.foldl (collectOut xb xpb pb) a).pcount q := by
  intro l
  induction l with
  | nil =>
    intro a
    exact ⟨le_rfl, le_rfl, fun q hq => absurd hq (List.not_mem_nil q)⟩
  | cons v l ih =>
    intro a
    obtain ⟨s1, s2, s3⟩ := collectOut_step_pos xb xpb pb a v
    obtain ⟨t1, t2, t3⟩ := ih (collectOut xb xpb pb a v)
    rw [List.foldl_cons]
    refine ⟨s1.trans t1, s2.trans t2, ?_⟩
    intro q hq
    have hq2 : q ∈ collectOutSwaps xb xpb pb a v ++
        collectOutTrace xb xpb pb l (collectOut xb xpb pb a v) := hq
    rcases List.mem_append.mp hq2 with h | h
    · exact (s3 q h).widen le_rfl le_rfl t1 t2
    · exact (t3 q h).widen s1 s2 le_rfl le_rfl

theorem collectXTrace_succ (out : StaticOutGraph) (p xpb k i : Nat) (a : Part) :
    collectXTrace out p xpb (k + 1) i a =
      if i < xpb then
        if i = xpb - a.xcount then []
        else if out.hasNeighbor (nodeAt a.px i) p = true then
          ((xpb : Int) - a.xcount - 1) ::
            collectXTrace out p xpb k i
              ⟨swapNodeToPos a.px (nodeAt a.px i) (xpb - a.xcount - 1), a.xcount + 1, a.pcount⟩
        else collectXTrace out p xpb k (i + 1) a
      else [] := rfl

theorem collectXTrace_pos (out : StaticOutGraph) (p xpb : Nat) :
    ∀ (k i : Nat) (a : Part),
      a.xcount ≤ (collectX out p xpb k i a).xcount ∧
      a.pcount ≤ (collectX out p xpb k i a).pcount ∧
      ∀ q ∈ collectXTrace out p xpb k i a,
        SwapPos xpb a.xcount a.pcount (collectX out p xpb k i a).xcount
          (collectX out p xpb k i a).pcount q := by
  intro k
  induction k with
  | zero =>
    intro i a
    exact ⟨le_rfl, le_rfl, fun q hq => absurd hq (List.not_mem_nil q)⟩
  | succ k ih =>
    intro i a
    rw [collectX_succ, collectXTrace_succ]
    by_cases c1 : i < xpb
    · rw [if_pos c1, if_pos c1]
      by_cases c2 : i = xpb - a.xcount
      · rw [if_pos c2, if_pos c2]
        exact ⟨le_rfl, le_rfl, fun q hq => absurd hq (List.not_mem_nil q)⟩
      · rw [if_neg c2, if_neg c2]
        by_cases c3 : out.hasNeighbor (nodeAt a.px i) p = true
        · rw [if_pos c3, if_pos c3]
          obtain ⟨t1, t2, t3⟩ := ih i
            ⟨swapNodeToPos a.px (nodeAt a.px i) (xpb - a.xcount - 1), a.xcount + 1, a.pcount⟩
          have t1b : a.xcount + 1 ≤ _ := t1
          have t2b : a.pcount ≤ _ := t2
          refine ⟨by omega, t2b, ?_⟩
          intro q hq
          rcases List.mem_cons.mp hq with h | h
          · exact Or.inl ⟨a.xcount, le_rfl, by omega, h⟩
          · exact (t3 q h).widen (Nat.le_succ _) le_rfl le_rfl le_rfl
        · rw [if_neg c3, if_neg c3]
          exact ih (i + 1) a
    · rw [if_neg c1, if_neg c1]
      exact ⟨le_rfl, le_rfl, fun q hq => absurd hq (List.not_mem_nil q)⟩

theorem collectPTrace_succ (out : StaticOutGraph) (p xpb k i : Nat) (a : Part) :
    collectPTrace out p xpb (k + 1) i a =
      if out.hasNeighbor (nodeAt a.px i) p = true then
        ((xpb : Int) + a.pcount) ::
          collectPTrace out p xpb k (i + 1)
            ⟨swapNodeToPos a.px (nodeAt a.px i) (xpb + a.pcount), a.xcount, a.pcount + 1⟩
      else collectPTrace out p xpb k (i + 1) a := rfl

theorem collectPTrace_pos (out : StaticOutGraph) (p xpb : Nat) :
    ∀ (k i : Nat) (a : Part),
      a.xcount ≤ (collectP out p xpb k i a).xcount ∧
      a.pcount ≤ (collectP out p xpb k i a).pcount ∧
      ∀ q ∈ collectPTrace out p xpb k i a,
        SwapPos xpb a.xcount a.pcount (collectP out p xpb k i a).xcount
          (collectP out p xpb k i a).pcount q := by
  intro k
  induction k with
  | zero =>
    intro i a
    exact ⟨le_rfl, le_rfl, fun q hq => absurd hq (List.not_mem_nil q)⟩
  | succ k ih =>
    intro i a
    rw [collectP_succ, collectPTrace_succ]
    by_cases c3 : out.hasNeighbor (nodeAt a.px i) p = true
    · rw [if_pos c3, if_pos c3]
      obtain ⟨t1, t2, t3⟩ := ih (i + 1)
        ⟨swapNodeToPos a.px (nodeAt a.px i) (xpb + a.pcount), a.xcount, a.pcount + 1⟩
      have t1b : a.xcount ≤ _ := t1
      have t2b : a.pcount + 1 ≤ _ := t2
      refine ⟨t1b, by omega, ?_⟩
      intro q hq
      rcases List.mem_cons.mp hq with h | h
      · exact Or.inr ⟨a.pcount, le_rfl, by omega, h⟩
      · exact (t3 q h).widen le_rfl (Nat.le_succ _) le_rfl le_rfl
    · rw [if_neg c3, if_neg c3]
      exact ih (i + 1) a

/-- Every position that the three passes hand to `swapNodeToPos` is determined by a
counter value below the final count. -/
theorem partitionForTrace_pos (out : StaticOutGraph) (s : PX) (p xb xpb pb : Nat) :
    ∀ q ∈ partitionForTrace out s p xb xpb pb,
      SwapPos xpb 0 0 (partitionFor out s p xb xpb pb).xcount
        (partitionFor out s p xb xpb pb).pcount q := by
  intro q hq
  obtain ⟨a1, a2, a3⟩ := collectOutTrace_pos xb xpb pb (out.forOutEdgesOf p) ⟨s, 0, 0⟩
  obtain ⟨b1, b2, b3⟩ := collectXTrace_pos out p xpb (xpb - xb + 1) xb
    ((out.forOutEdgesOf p).foldl (collectOut xb xpb pb) ⟨s, 0, 0⟩)
  obtain ⟨c1, c2, c3⟩ := collectPTrace_pos out p xpb
    (pb - (xpb + (collectX out p xpb (xpb - xb + 1) xb
      ((out.forOutEdgesOf p).foldl (collectOut xb xpb pb) ⟨s, 0, 0⟩)).pcount))
    (xpb + (collectX out p xpb (xpb - xb + 1) xb
      ((out.forOutEdgesOf p).foldl (collectOut xb xpb pb) ⟨s, 0, 0⟩)).pcount)
    (collectX out p xpb (xpb - xb + 1) xb
      ((out.forOutEdgesOf p).foldl (collectOut xb xpb pb) ⟨s, 0, 0⟩))
  have e : partitionFor out s p xb xpb pb = collectP out p xpb
    (pb - (xpb + (collectX out p xpb (xpb - xb + 1) xb
      ((out.forOutEdgesOf p).foldl (collectOut xb xpb pb) ⟨s, 0, 0⟩)).pcount))
    (xpb + (collectX out p xpb (xpb - xb + 1) xb
      ((out.forOutEdgesOf p).foldl (collectOut xb xpb pb) ⟨s, 0, 0⟩)).pcount)
    (collectX out p xpb (xpb - xb + 1) xb
      ((out.forOutEdgesOf p).foldl (collectOut xb xpb pb) ⟨s, 0, 0⟩)) := rfl
  have hq2 : q ∈ (collectOutTrace xb xpb pb (out.forOutEdgesOf p) ⟨s, 0, 0⟩ ++
    collectXTrace out p xpb (xpb - xb + 1) xb
      ((out.forOutEdgesOf p).foldl (collectOut xb xpb pb) ⟨s, 0, 0⟩)) ++
    collectPTrace out p xpb
      (pb - (xpb + (collectX out p xpb (xpb - xb + 1) xb
        ((out.forOutEdgesOf p).foldl (collectOut xb xpb pb) ⟨s, 0, 0⟩)).pcount))
      (xpb + (collectX out p xpb (xpb - xb + 1) xb
        ((out.forOutEdgesOf p).foldl (collectOut xb xpb pb) ⟨s, 0, 0⟩)).pcount)
      (collectX out p xpb (xpb - xb + 1) xb
        ((out.forOutEdgesOf p).foldl (collectOut xb xpb pb) ⟨s, 0, 0⟩)) := hq
  rw [e]
  rcases List.mem_append.mp hq2 with h | h
  · rcases List.mem_append.mp h with h | h
    · exact (a3 q h).widen le_rfl le_rfl (b1.trans c1) (b2.trans c2)
    · exact (b3 q h).widen (Nat.zero_le _) (Nat.zero_le _) c1 c2
  · exact (c3 q h).widen (Nat.zero_le _) (Nat.zero_le _) le_rfl le_rfl

theorem neighborSwaps_step_pos (xpb : Nat) (a : Part) (v : Nat) :
    a.xcount ≤ (neighborStep xpb a v).xcount ∧
    a.pcount ≤ (neighborStep xpb a v).pcount ∧
    ∀ q ∈ neighborSwaps xpb a v,
      SwapPos xpb a.xcount a.pcount (neighborStep xpb a v).xcount
        (neighborStep xpb a v).pcount q := by
  have e1 : neighborStep xpb a v
      = if pos a.px v < xpb then
          ⟨swapNodeToPos a.px v (xpb - a.xcount - 1), a.xcount + 1, a.pcount⟩
        else ⟨swapNodeToPos a.px v (xpb + a.pcount), a.xcount, a.pcount + 1⟩ := rfl
  have e2 : neighborSwaps xpb a v
      = if pos a.px v < xpb then [(xpb : Int) - a.xcount - 1]
        else [(xpb : Int) + a.pcount] := rfl
  rw [e1, e2]
  by_cases c : pos a.px v < xpb
  · rw [if_pos c, if_pos c]
    refine ⟨Nat.le_succ _, le_rfl, ?_⟩
    intro q hq
    rw [List.mem_singleton] at hq
    exact Or.inl ⟨a.xcount, le_rfl, Nat.lt_succ_self _, hq⟩
  · rw [if_neg c, if_neg c]
    refine ⟨le_rfl, Nat.le_succ _, ?_⟩
    intro q hq
    rw [List.mem_singleton] at hq
    exact Or.inr ⟨a.pcount, le_rfl, Nat.lt_succ_self _, hq⟩

theorem neighborTrace_pos (xpb : Nat) :
    ∀ (l : List Nat) (a : Part),
      a.xcount ≤ (l.foldl (neighborStep xpb) a).xcount ∧
      a.pcount ≤ (l.foldl (neighborStep xpb) a).pcount ∧
      ∀ q ∈ neighborTrace xpb l a,
        SwapPos xpb a.xcount a.pcount (l.foldl (neighborStep xpb) a).xcount
          (l.foldl (neighborStep xpb) a).pcount q := by
  intro l
  induction l with
  | nil =>
    intro a
    exact ⟨le_rfl, le_rfl, fun q hq => absurd hq (List.not_mem_nil q)⟩
  | cons v l ih =>
    intro a
    obtain ⟨s1, s2, s3⟩ := neighborSwaps_step_pos xpb a v
    obtain ⟨t1, t2, t3⟩ := ih (neighborStep xpb a v)
    rw [List.foldl_cons]
    refine ⟨s1.trans t1, s2.trans t2, ?_⟩
    intro q hq
    have hq2 : q ∈ neighborSwaps xpb a v ++ neighborTrace xpb l (neighborStep xpb a v) := hq
    rcases List.mem_append.mp hq2 with h | h
    · exact (s3 q h).widen le_rfl le_rfl t1 t2
    · exact (t3 q h).widen s1 s2 le_rfl le_rfl

/-- The swaps of the loop of lines 235-239 stay inside `[lo + 0, hi)` when the boundary
is at least the number of moved nodes above `lo`. -/
theorem moveBackTrace_bounds (lo hi size : Nat) (hs : hi ≤ size) :
    ∀ (l : List Nat) (x : Nat), lo + l.length ≤ x → x ≤ hi →
      ∀ e ∈ moveBackTrace lo hi size l x, e.inBounds ∧ e.shrinks ∧ ∀ nodes adj, e.onClique nodes adj := by
  intro l
  induction l with
  | nil => intro x _ _ e he; exact absurd he (List.not_mem_nil e)
  | cons v l ih =>
    intro x h1 h2 e he
    have he2 : e ∈ Event.swap lo hi size ((x : Int) - 1) :: moveBackTrace lo hi size l (x - 1) :=
      he
    rw [List.length_cons] at h1
    rcases List.mem_cons.mp he2 with h | h
    · rw [h]
      refine ⟨?_, trivial, fun _ _ => trivial⟩
      show (lo : Int) ≤ (x : Int) - 1 ∧ (x : Int) - 1 < (hi : Int) ∧ hi ≤ size
      omega
    · exact ih (x - 1) (by omega) (by omega) e h

/-! ## The trace of `tomita` -/

theorem branchTrace_cons (recTrace : Mem → Nat → Nat → Nat → List Event)
    (rec : Mem → Nat → Nat → Nat → Option Mem) (out : StaticOutGraph)
    (xb pb size p : Nat) (rest : List Nat) (b : Branch) :
    branchTrace recTrace rec out xb pb size (p :: rest) b =
      (partitionForTrace out b.mem.px p xb b.xpbound pb).map (Event.swap xb pb size) ++
        Event.recurse xb b.xpbound pb (partitionFor out b.mem.px p xb b.xpbound pb).xcount
            (partitionFor out b.mem.px p xb b.xpbound pb).pcount ::
        recTrace ⟨(partitionFor out b.mem.px p xb b.xpbound pb).px, b.mem.r ++ [p],
            b.mem.result⟩
          (b.xpbound - (partitionFor out b.mem.px p xb b.xpbound pb).xcount) b.xpbound
          (b.xpbound + (partitionFor out b.mem.px p xb b.xpbound pb).pcount) ++
        match rec ⟨(partitionFor out b.mem.px p xb b.xpbound pb).px, b.mem.r ++ [p],
            b.mem.result⟩
          (b.xpbound - (partitionFor out b.mem.px p xb b.xpbound pb).xcount) b.xpbound
          (b.xpbound + (partitionFor out b.mem.px p xb b.xpbound pb).pcount) with
        | none => []
        | some m =>
          Event.swap xb pb size (b.xpbound : Int) ::
            branchTrace recTrace rec out xb pb size rest
              ⟨⟨swapNodeToPos m.px p b.xpbound, m.r.dropLast, m.result⟩,
                b.xpbound + 1, b.movedNodes ++ [p]⟩ := rfl

theorem tomitaTrace_succ (out : StaticOutGraph) (fuel depth : Nat) (m : Mem)
    (xb xpb pb : Nat) :
    tomitaTrace out (fuel + 1) depth m xb xpb pb =
      Event.call depth xb xpb pb m.px m.r ::
        (if xb = pb then []
         else if xpb = pb then []
         else
          branchTrace (tomitaTrace out fuel (depth + 1)) (tomita out fuel) out xb pb
              m.px.pxvector.length
              (buildToCheck out m.px (findPivot out m.px xb xpb pb) xpb pb) ⟨m, xpb, []⟩ ++
            match branchLoop (tomita out fuel) out xb pb
                (buildToCheck out m.px (findPivot out m.px xb xpb pb) xpb pb)
                ⟨m, xpb, []⟩ with
            | none => []
            | some b =>
              moveBackTrace xb pb m.px.pxvector.length b.movedNodes b.xpbound) := rfl

theorem good_swap {nodes : List Nat} {adj : Nat → Nat → Bool} {c : Prop} {lo hi size : Nat}
    {q : Int} (h1 : (lo : Int) ≤ q) (h2 : q < (hi : Int)) (h3 : hi ≤ size) :
    (Event.swap lo hi size q).good nodes adj c :=
  ⟨⟨h1, h2, h3⟩, trivial, fun _ => trivial⟩

/-- The stack invariant gives the clique condition of an invocation record. -/
theorem StackInv.onClique {V : Nat → Prop} {out : StaticOutGraph} {s : PX}
    {xb pb depth : Nat} {r : List Nat} (h : StackInv V out s xb pb depth r) (hI : Inv V s)
    (hpb : pb ≤ s.pxvector.length) (xpb : Nat) {nodes : List Nat}
    (hnodes : ∀ v, V v → v ∈ nodes) {adj : Nat → Nat → Bool}
    (hadj : ∀ u v, V u → V v → oadj out u v → adj u v = true) :
    (Event.call depth xb xpb pb s r).onClique nodes adj := by
  refine ⟨h.depth, h.nd, ?_, ?_, ?_⟩
  · intro v hv
    exact hnodes v (h.mem v hv)
  · intro u hu v hv huv
    exact hadj u v (h.mem u hu) (h.mem v hv) (h.clique u hu v hv huv)
  · intro w hw v hv
    obtain ⟨wV, w1, w2⟩ := (mem_seg hI hpb w).mp hw
    exact hadj w v wV (h.mem v hv) (h.window w wV w1 w2 v hv)

/-- The stack invariant passes to the recursive call for a candidate `p` of P. -/
theorem StackInv.push {V : Nat → Prop} {out : StaticOutGraph} (hO : OutOK V out) {s : PX}
    {xb xpb pb depth : Nat} {r : List Nat} (h : StackInv V out s xb pb depth r)
    {p : Nat} (hpV : V p) (hp1 : xpb ≤ pos s p) (hp2 : pos s p < pb) (hx : xb ≤ xpb)
    {a : Part} (hPI : PInv V s xb xpb pb (oadj out p) a) :
    StackInv V out a.px (xpb - a.xcount) (xpb + a.pcount) (depth + 1) (r ++ [p]) := by
  have hpr : ∀ v ∈ r, oadj out p v := h.window p hpV (by omega) hp2
  have hirr := oadj_irrefl hO hpV
  have hpn : p ∉ r := fun q => hirr (hpr p q)
  have hax := hPI.hx
  have hap := hPI.hp
  refine ⟨?_, ?_, ?_, ?_, ?_⟩
  · rw [List.length_append, List.length_singleton, ← h.depth]
  · rw [List.nodup_append]
    refine ⟨h.nd, List.nodup_singleton p, ?_⟩
    intro x hx1 hx2
    rw [List.mem_singleton] at hx2
    exact hpn (hx2 ▸ hx1)
  · intro v hv
    rcases List.mem_append.mp hv with q | q
    · exact h.mem v q
    · rw [List.mem_singleton.mp q]; exact hpV
  · intro u hu v hv huv
    rcases List.mem_append.mp hu with q1 | q1 <;> rcases List.mem_append.mp hv with q2 | q2
    · exact h.clique u q1 v q2 huv
    · rw [List.mem_singleton.mp q2]
      exact oadj_symm out _ _ (hpr u q1)
    · rw [List.mem_singleton.mp q1]
      exact hpr v q2
    · exact absurd ((List.mem_singleton.mp q1).trans (List.mem_singleton.mp q2).symm) huv
  · intro w wV w1 w2 v hv
    have hwa : xb ≤ pos a.px w ∧ pos a.px w < pb := ⟨by omega, by omega⟩
    rcases List.mem_append.mp hv with q | q
    · have hws := (hPI.win wV).mp hwa
      exact h.window w wV hws.1 hws.2 v q
    · rw [List.mem_singleton.mp q]
      exact oadj_symm out _ _ ((hPI.col w wV hwa.1 hwa.2).mpr ⟨w1, w2⟩)

/-- The stack invariant survives the move of candidates from P to X. -/
theorem StackInv.moved {V : Nat → Prop} {out : StaticOutGraph} {s t : PX}
    {xb xpb pb xpb2 depth : Nat} {r : List Nat} {M : List Nat}
    (h : StackInv V out s xb pb depth r) (hM : Moved V s t xb xpb pb xpb2 M)
    (hMP : ∀ v ∈ M, xb ≤ pos s v ∧ pos s v < pb)
    (h1 : xb ≤ xpb) (h2 : xpb ≤ pb) :
    StackInv V out t xb pb depth r := by
  refine ⟨h.depth, h.nd, h.mem, h.clique, ?_⟩
  intro w wV w1 w2 v hv
  have hs : xb ≤ pos s w ∧ pos s w < pb := by
    by_cases c : pos t w < xpb2
    · rcases (hM.inX w wV).mp ⟨w1, c⟩ with q | q
      · exact ⟨q.1, by omega⟩
      · exact hMP w q
    · have := ((hM.inP w wV).mp ⟨by omega, w2⟩).1
      exact ⟨by omega, this.2⟩
  exact h.window w wV hs.1 hs.2 v hv

/-- The trace of the candidate loop is good when the traces of the recursive calls
are. -/
theorem branchTrace_good {V : Nat → Prop} {out : StaticOutGraph} (hO : OutOK V out)
    (c : Prop) {nodes : List Nat} {adj : Nat → Nat → Bool} {fuel depth : Nat}
    (ihT : ∀ (m : Mem) (xb xpb pb : Nat), Inv V m.px → xb ≤ xpb → xpb ≤ pb →
      pb ≤ m.px.pxvector.length → pb - xpb < fuel →
      (c → StackInv V out m.px xb pb (depth + 1) m.r) →
      ∀ e ∈ tomitaTrace out fuel (depth + 1) m xb xpb pb, e.good nodes adj c)
    {xb pb size : Nat} (hsize : pb ≤ size) :
    ∀ (cs : List Nat) (b : Branch), Inv V b.mem.px → xb ≤ b.xpbound → b.xpbound ≤ pb →
      pb ≤ b.mem.px.pxvector.length → pb - b.xpbound ≤ fuel → cs.Nodup →
      (∀ x ∈ cs, V x ∧ b.xpbound ≤ pos b.mem.px x ∧ pos b.mem.px x < pb) →
      (c → StackInv V out b.mem.px xb pb depth b.mem.r) →
      ∀ e ∈ branchTrace (tomitaTrace out fuel (depth + 1)) (tomita out fuel) out xb pb size
          cs b, e.good nodes adj c := by
  intro cs
  induction cs with
  | nil => intro b _ _ _ _ _ _ _ _ e he; exact absurd he (List.not_mem_nil e)
  | cons p rest ihl =>
    intro b hI hxb hxp hlen hfuel hnd hcs hR e he
    obtain ⟨hprest, hnd2⟩ := List.nodup_cons.mp hnd
    obtain ⟨hpV, hp1, hp2⟩ := hcs p (List.mem_cons_self _ _)
    have hPI := partitionFor_spec hO hI hpV hxb hxp hlen
    have hPIx := hPI.hx
    have hPIp := hPI.hp
    -- the next state of the loop, from the specification of one round
    obtain ⟨b2, _, hb2, hI2, hx2, hxle2, _, hr2, _, hM2, _⟩ :=
      branchLoop_spec hO (tomita_spec hO fuel) [p] b hI hxb hxp hlen hfuel
        (List.nodup_singleton p)
        (fun x hx => by rw [List.mem_singleton.mp hx]; exact ⟨hpV, hp1, hp2⟩)
    have hx2b : b2.xpbound = b.xpbound + 1 := hx2
    rw [branchLoop_cons] at hb2
    rw [branchTrace_cons] at he
    generalize partitionFor out b.mem.px p xb b.xpbound pb = a at hPI hb2 he
    have hirr := oadj_irrefl hO hpV
    have hpa := (hPI.same.inP p hpV).mpr ⟨hp1, hp2⟩
    have hx := hPI.hx
    have hp := hPI.hp
    have hpb := hPI.hpb
    have hpnc := (hPI.col p hpV (by omega) hpa.2).not.mp hirr
    have hpc : b.xpbound + a.pcount ≤ pos a.px p := by omega
    obtain ⟨m2, hm2, _⟩ := tomita_spec hO fuel ⟨a.px, b.mem.r ++ [p], b.mem.result⟩
      (b.xpbound - a.xcount) b.xpbound (b.xpbound + a.pcount) hPI.inv (by omega) (by omega)
      (by show _ ≤ a.px.pxvector.length; omega) (by omega)
    rw [hm2] at hb2 he
    have hb2e : (⟨⟨swapNodeToPos m2.px p b.xpbound, m2.r.dropLast, m2.result⟩,
        b.xpbound + 1, b.movedNodes ++ [p]⟩ : Branch) = b2 := Option.some.inj hb2
    rcases List.mem_append.mp he with h | h
    · rcases List.mem_append.mp h with h | h
      · obtain ⟨q, hq, rfl⟩ := List.mem_map.mp h
        obtain ⟨q1, q2⟩ := (partitionForTrace_pos out b.mem.px p xb b.xpbound pb q hq).bounds
          hPIx hPIp
        exact good_swap q1 q2 hsize
      · rcases List.mem_cons.mp h with h | h
        · rw [h]
          exact ⟨⟨hp, hx⟩, by show a.pcount < pb - b.xpbound; omega, fun _ => trivial⟩
        · exact ihT _ _ _ _ hPI.inv (by omega) (by omega)
            (by show _ ≤ a.px.pxvector.length; omega) (by omega)
            (fun hc => (hR hc).push hO hpV hp1 hp2 hxb hPI) e h
    · rcases List.mem_cons.mp h with h | h
      · rw [h]
        exact good_swap (by omega) (by omega) hsize
      · rw [hb2e] at h
        refine ihl b2 hI2 (by omega) hxle2 (by rw [hM2.len]; exact hlen) (by omega) hnd2
          ?_ ?_ e h
        · intro x hx1
          obtain ⟨hcV, hc1, hc2⟩ := hcs x (List.mem_cons_of_mem _ hx1)
          have hcp : x ∉ [p] := by
            rw [List.mem_singleton]; rintro rfl; exact hprest hx1
          exact ⟨hcV, (hM2.inP x hcV).mpr ⟨⟨hc1, hc2⟩, hcp⟩⟩
        · intro hc
          rw [hr2]
          exact (hR hc).moved hM2
            (fun v hv => by rw [List.mem_singleton.mp hv]; exact ⟨by omega, hp2⟩)
            hxb hxp

/-- Every record of the trace of a call of `tomita` is good: with a budget above the
size of P the trace is complete, the windows and swap positions are in bounds, every
recursive call is made on a smaller P, and the stack invariant holds at every
invocation when it holds at the first. -/
theorem tomitaTrace_good {V : Nat → Prop} {out : StaticOutGraph} (hO : OutOK V out)
    (c : Prop) {nodes : List Nat} (hnodes : c → ∀ v, V v → v ∈ nodes)
    {adj : Nat → Nat → Bool}
    (hadj : ∀ u v, V u → V v → oadj out u v → adj u v = true) :
    ∀ (fuel depth : Nat) (m : Mem) (xb xpb pb : Nat), Inv V m.px → xb ≤ xpb → xpb ≤ pb →
      pb ≤ m.px.pxvector.length → pb - xpb < fuel →
      (c → StackInv V out m.px xb pb depth m.r) →
      ∀ e ∈ tomitaTrace out fuel depth m xb xpb pb, e.good nodes adj c := by
  intro fuel
  induction fuel with
  | zero => intro depth m xb xpb pb _ _ _ _ h; omega
  | succ fuel ih =>
    intro depth m xb xpb pb hI hx hp hlen hfuel hR e he
    rw [tomitaTrace_succ] at he
    rcases List.mem_cons.mp he with h | h
    · rw [h]
      exact ⟨⟨hx, hp, hlen⟩, trivial, fun hc => (hR hc).onClique hI hlen xpb (hnodes hc) hadj⟩
    · by_cases c1 : xb = pb
      · rw [if_pos c1] at h
        exact absurd h (List.not_mem_nil e)
      · rw [if_neg c1] at h
        by_cases c2 : xpb = pb
        · rw [if_pos c2] at h
          exact absurd h (List.not_mem_nil e)
        · rw [if_neg c2] at h
          obtain ⟨j, hj1, hj2, hj⟩ := findPivot_window out m.px hx hp (by omega)
          obtain ⟨huV, hup⟩ := hI.vec j (by omega)
          rw [← hj] at huV hup
          generalize findPivot out m.px xb xpb pb = u at huV hup h
          obtain ⟨hcnd, hcmem⟩ := buildToCheck_spec hO hI huV hp hlen
          generalize buildToCheck out m.px u xpb pb = cs at hcnd hcmem h
          have hcs : ∀ x ∈ cs, V x ∧ xpb ≤ pos m.px x ∧ pos m.px x < pb :=
            fun x hx1 => ⟨((hcmem x).mp hx1).1, ((hcmem x).mp hx1).2.1⟩
          obtain ⟨b2, _, hb2, _, hx2, hxle2, hmv2, _, _, _, _⟩ :=
            branchLoop_spec hO (tomita_spec hO fuel) cs ⟨m, xpb, []⟩ hI hx hp hlen
              (by show pb - xpb ≤ fuel; omega) hcnd hcs
          rw [hb2] at h
          dsimp only at h
          rcases List.mem_append.mp h with h | h
          · exact branchTrace_good hO c (ih (depth + 1)) hlen cs ⟨m, xpb, []⟩ hI hx hp hlen
              (by show pb - xpb ≤ fuel; omega) hcnd hcs hR e h
          · have hx2b : b2.xpbound = xpb + cs.length := hx2
            have hmv : b2.movedNodes = cs := by rw [hmv2]; rfl
            rw [hmv] at h
            exact ⟨(moveBackTrace_bounds xb pb _ hlen cs b2.xpbound (by omega) hxle2 e h).1,
              (moveBackTrace_bounds xb pb _ hlen cs b2.xpbound (by omega) hxle2 e h).2.1,
              fun _ => (moveBackTrace_bounds xb pb _ hlen cs b2.xpbound (by omega) hxle2
                e h).2.2 _ _⟩

/-! ## The driver iteration in detail -/

section DriverSeed
variable {G : Graph} {out : StaticOutGraph} {order : List Nat}

/-- The state of a driver iteration for `u` at the call of `tomita`: the boundary is
one more than the number of processed nodes, `u` has been moved to the position
`xpbound - 1`, the processed nodes are exactly the nodes at positions below
`xpbound - 1`, and the neighbours of `u` are grouped around `xpbound`. -/
theorem driver_seed
    (hnb : ∀ u, u ∈ order → (G.forNeighborsOf u).Nodup ∧ ∀ v ∈ G.forNeighborsOf u, v ∈ order)
    (hnd : order.Nodup)
    {done tail : List Nat} {u : Nat} (hord : order = done ++ u :: tail) {d : Driver}
    (hD : DInv (fun v => v ∈ order) order done d) :
    d.xpbound = done.length + 1 ∧
    Inv (fun v => v ∈ order) (swapNodeToPos d.px u (d.xpbound - 1)) ∧
    (swapNodeToPos d.px u (d.xpbound - 1)).pxvector.length = order.length ∧
    pos (swapNodeToPos d.px u (d.xpbound - 1)) u = done.length ∧
    (∀ y, y ∈ order →
      (pos (swapNodeToPos d.px u (d.xpbound - 1)) y < done.length ↔ y ∈ done)) ∧
    PInv (fun v => v ∈ order) (swapNodeToPos d.px u (d.xpbound - 1)) 0
      d.xpbound order.length (fun y => y ∈ G.forNeighborsOf u)
      ((G.forNeighborsOf u).foldl (neighborStep d.xpbound)
        ⟨swapNodeToPos d.px u (d.xpbound - 1), 0, 0⟩) := by
  have hI := hD.inv
  have hlen := hD.len
  have hxpb := hD.xpb
  have huV : u ∈ order := by rw [hord]; simp
  have hnd2 : (done ++ u :: tail).Nodup := hord ▸ hnd
  have hu_done : u ∉ done := fun h =>
    (List.nodup_append.mp hnd2).2.2 h (List.mem_cons_self _ _)
  have hk : done.length < order.length := by
    rw [hord]; simp only [List.length_append, List.length_cons]; omega
  rw [hxpb, Nat.add_sub_cancel]
  have ht : done.length < d.px.pxvector.length := by omega
  have hps := fun y => pos_swap hI huV ht y
  have hI1 : Inv (fun v => v ∈ order) (swapNodeToPos d.px u done.length) := inv_swap hI huV ht
  have hlen1 : (swapNodeToPos d.px u done.length).pxvector.length = order.length := by
    rw [swap_len_vec]; exact hlen
  have hpu1 : pos (swapNodeToPos d.px u done.length) u = done.length := by
    rw [hps u, if_pos rfl]
  have hupos : done.length ≤ pos d.px u := by
    by_contra q
    exact hu_done ((hD.proc u huV).mp (by omega))
  obtain ⟨hwV, hwp⟩ := hI.vec _ ht
  have hproc1 : ∀ y, y ∈ order →
      (pos (swapNodeToPos d.px u done.length) y < done.length ↔ y ∈ done) := by
    intro y hy
    have e := hD.proc y hy
    rw [hps y]
    split_ifs with c1 c2
    · subst c1
      constructor
      · intro q; omega
      · intro q; exact absurd q hu_done
    · subst c2
      rw [← e]; omega
    · exact e
  have hPI : PInv (fun v => v ∈ order) (swapNodeToPos d.px u done.length) 0
      (done.length + 1) order.length (fun y => False ∨ y ∈ G.forNeighborsOf u)
      ((G.forNeighborsOf u).foldl (neighborStep (done.length + 1))
        ⟨swapNodeToPos d.px u done.length, 0, 0⟩) :=
    collect_fold
    (fun a C v h hv => neighborStep_eq a C v h hv (by rw [h.same.len, hlen1]))
    (G.forNeighborsOf u) ⟨swapNodeToPos d.px u done.length, 0, 0⟩ (fun _ => False)
    (PInv.start hI1 (Nat.zero_le _) (by omega) (by omega))
    (hnb u huV).1 (fun v hv => ⟨(hnb u huV).2 v hv, fun q => q⟩)
  exact ⟨rfl, hI1, hlen1, hpu1, hproc1, hPI.congrOn (fun y _ _ _ => by simp)⟩

/-- In the state of `driver_seed`, a position is below `xpbound` exactly for the
processed nodes and `u`. -/
theorem driver_seed_below {done : List Nat} {u : Nat} {s : PX}
    (hI : Inv (fun v => v ∈ order) s) (hu : u ∈ order) (hpu : pos s u = done.length)
    (hproc : ∀ y, y ∈ order → (pos s y < done.length ↔ y ∈ done)) :
    ∀ w, w ∈ order → (pos s w < done.length + 1 ↔ (w ∈ done ∨ w = u)) := by
  intro w hw
  have e := hproc w hw
  constructor
  · intro q
    by_cases c : pos s w < done.length
    · exact Or.inl (e.mp c)
    · exact Or.inr (pos_inj hI hw hu (by rw [hpu]; omega))
  · rintro (q | q)
    · have := e.mpr q; omega
    · rw [q, hpu]; omega

end DriverSeed

/-! ## The trace of the driver -/

theorem driverTrace_cons (G : Graph) (out : StaticOutGraph) (fuel u : Nat) (rest : List Nat)
    (d : Driver) :
    driverTrace G out fuel (u :: rest) d =
      Event.swap 0 d.px.pxvector.length d.px.pxvector.length ((d.xpbound : Int) - 1) ::
        (neighborTrace d.xpbound (G.forNeighborsOf u)
          ⟨swapNodeToPos d.px u (d.xpbound - 1), 0, 0⟩).map
          (Event.swap 0 d.px.pxvector.length d.px.pxvector.length) ++
        tomitaTrace out fuel 0
          ⟨((G.forNeighborsOf u).foldl (neighborStep d.xpbound)
              ⟨swapNodeToPos d.px u (d.xpbound - 1), 0, 0⟩).px, [u], d.result⟩
          (d.xpbound - ((G.forNeighborsOf u).foldl (neighborStep d.xpbound)
              ⟨swapNodeToPos d.px u (d.xpbound - 1), 0, 0⟩).xcount) d.xpbound
          (d.xpbound + ((G.forNeighborsOf u).foldl (neighborStep d.xpbound)
              ⟨swapNodeToPos d.px u (d.xpbound - 1), 0, 0⟩).pcount) ++
        match tomita out fuel
          ⟨((G.forNeighborsOf u).foldl (neighborStep d.xpbound)
              ⟨swapNodeToPos d.px u (d.xpbound - 1), 0, 0⟩).px, [u], d.result⟩
          (d.xpbound - ((G.forNeighborsOf u).foldl (neighborStep d.xpbound)
              ⟨swapNodeToPos d.px u (d.xpbound - 1), 0, 0⟩).xcount) d.xpbound
          (d.xpbound + ((G.forNeighborsOf u).foldl (neighborStep d.xpbound)
              ⟨swapNodeToPos d.px u (d.xpbound - 1), 0, 0⟩).pcount) with
        | none => []
        | some m => driverTrace G out fuel rest ⟨m.px, d.xpbound + 1, m.result⟩ := rfl

section DriverTrace
variable {G : Graph} {out : StaticOutGraph} {order : List Nat} {fuel : Nat}

/-- The stack `[u]` of a driver iteration satisfies the stack invariant at the call of
`tomita`. -/
theorem driver_stack
    (hadj : ∀ u v, u ∈ order → v ∈ order → (oadj out u v ↔ v ∈ G.forNeighborsOf u))
    {u : Nat} (hu : u ∈ order) {s : PX} {xpb : Nat} {a : Part}
    (hPI : PInv (fun v => v ∈ order) s 0 xpb order.length (fun y => y ∈ G.forNeighborsOf u) a) :
    StackInv (fun v => v ∈ order) out a.px (xpb - a.xcount) (xpb + a.pcount) 0 [u] := by
  have hp := hPI.hp
  refine ⟨rfl, List.nodup_singleton u, ?_, ?_, ?_⟩
  · intro v hv
    rw [List.mem_singleton.mp hv]; exact hu
  · intro x hx y hy hxy
    exact absurd ((List.mem_singleton.mp hx).trans (List.mem_singleton.mp hy).symm) hxy
  · intro w hw w1 w2 v hv
    rw [List.mem_singleton.mp hv]
    apply oadj_symm
    rw [hadj u w hu hw]
    exact (hPI.col w hw (Nat.zero_le _) (by omega)).mpr ⟨w1, w2⟩

/-- Every record of the trace of the driver loop is good. -/
theorem driverTrace_good (hO : OutOK (fun v => v ∈ order) out)
    (hadj : ∀ u v, u ∈ order → v ∈ order → (oadj out u v ↔ v ∈ G.forNeighborsOf u))
    (hnb : ∀ u, u ∈ order → (G.forNeighborsOf u).Nodup ∧ ∀ v ∈ G.forNeighborsOf u, v ∈ order)
    (hfuel : order.length ≤ fuel) (hnd : order.Nodup) {nodes : List Nat}
    (hnodes : ∀ v, v ∈ order → v ∈ nodes) {adj : Nat → Nat → Bool}
    (hadj2 : ∀ u v, u ∈ order → v ∈ order → oadj out u v → adj u v = true) :
    ∀ (rest done later : List Nat) (d : Driver), order = done ++ rest ++ later →
      DInv (fun v => v ∈ order) order done d →
      ∀ e ∈ driverTrace G out fuel rest d, e.good nodes adj True := by
  intro rest
  induction rest with
  | nil => intro done later d _ _ e he; exact absurd he (List.not_mem_nil e)
  | cons u rest ih =>
    intro done later d hord hD e he
    have hord2 : order = done ++ u :: (rest ++ later) := by rw [hord]; simp
    have huV : u ∈ order := by rw [hord2]; simp
    obtain ⟨m2, _, hm2, hD2, _, _⟩ := driver_step hO hadj hnb hfuel hnd hord2 hD
    obtain ⟨hxpb, _, hlen1, _, _, hPI⟩ := driver_seed hnb hnd hord2 hD
    have hk : done.length < order.length := by
      rw [hord2]; simp only [List.length_append, List.length_cons]; omega
    have hlen := hD.len
    rw [driverTrace_cons, hm2] at he
    dsimp only at he
    have hnt := neighborTrace_pos d.xpbound (G.forNeighborsOf u)
      ⟨swapNodeToPos d.px u (d.xpbound - 1), 0, 0⟩
    have hst := driver_stack hadj huV hPI
    generalize (G.forNeighborsOf u).foldl (neighborStep d.xpbound)
      ⟨swapNodeToPos d.px u (d.xpbound - 1), 0, 0⟩ = a at hPI hnt hst he hm2
    have hx := hPI.hx
    have hp := hPI.hp
    have hpb := hPI.hpb
    rcases List.mem_append.mp he with h | h
    · rcases List.mem_append.mp h with h | h
      · rcases List.mem_cons.mp h with h | h
        · rw [h]
          exact good_swap (by omega) (by omega) le_rfl
        · obtain ⟨q, hq, rfl⟩ := List.mem_map.mp h
          obtain ⟨q1, q2⟩ := (hnt.2.2 q hq).bounds hx hp
          exact good_swap q1 (by rw [hlen]; exact q2) le_rfl
      · exact tomitaTrace_good hO True (fun _ => hnodes) hadj2 fuel 0 ⟨a.px, [u], d.result⟩ _ _ _ hPI.inv
          (by omega) (by omega) (by show _ ≤ a.px.pxvector.length; omega) (by omega)
          (fun _ => hst) e h
    · exact ih (done ++ [u]) later ⟨m2.px, d.xpbound + 1, m2.result⟩ (by rw [hord]; simp)
        hD2 e h

end DriverTrace

/-- Every record of the trace of `run` on a simple graph with a permutation ordering and
a budget of at least the number of nodes is good with respect to the edges of the
graph. -/
theorem runTrace_good (A : MaximalCliques) (order : List Nat) (fuel : Nat) (hG : A.G.Simple)
    (hO : order.Perm A.G.nodes) (hf : A.G.numberOfNodes ≤ fuel) :
    ∀ e ∈ A.runTrace fuel order, e.good A.G.nodes A.G.hasEdge True := by
  obtain ⟨hnd, hn, hOK, hadj, hnb, hD⟩ := run_setup hG hO
  exact driverTrace_good hOK hadj hnb (hn ▸ hf) hnd (fun v hv => hO.mem_iff.mp hv)
    (fun u v hu hv h => by
      unfold Graph.hasEdge
      exact decide_eq_true ((hadj u v hu hv).mp h))
    order [] [] ⟨initPX A.G order, 1, []⟩ (by simp) hD

/-! ## Cliques of a simple graph -/

theorem hasEdge_symm {G : Graph} (hG : G.Simple) {u v : Nat} (hu : u ∈ G.nodes)
    (h : G.hasEdge u v = true) : G.hasEdge v u = true := by
  unfold Graph.hasEdge at *
  rw [decide_eq_true_eq] at *
  exact ((hG.2 u hu).2.2 v h).2

/-- In a simple graph every non-empty clique lies in a maximal clique. -/
theorem clique_extends {G : Graph} (hG : G.Simple) {S : Finset Nat} (hne : S.Nonempty)
    (hsub : ∀ v ∈ S, v ∈ G.nodes)
    (hcl : ∀ u ∈ S, ∀ v ∈ S, u ≠ v → G.hasEdge u v = true) :
    ∃ T, S ⊆ T ∧ G.IsMaximalClique T := by
  have hmem : S ∈ (G.nodes.toFinset.powerset).filter
      (fun T => S ⊆ T ∧ ∀ u ∈ T, ∀ v ∈ T, u ≠ v → G.hasEdge u v = true) := by
    rw [Finset.mem_filter, Finset.mem_powerset]
    exact ⟨fun v hv => List.mem_toFinset.mpr (hsub v hv), Finset.Subset.refl S, hcl⟩
  obtain ⟨T, hT, hmax⟩ := Finset.exists_max_image _ Finset.card ⟨S, hmem⟩
  rw [Finset.mem_filter, Finset.mem_powerset] at hT
  obtain ⟨hTn, hST, hTc⟩ := hT
  have hTnodes : ∀ v ∈ T, v ∈ G.nodes := fun v hv => List.mem_toFinset.mp (hTn hv)
  refine ⟨T, hST, hne.mono hST, hTnodes, hTc, ?_⟩
  intro w hw hwT
  by_contra hno
  have hall : ∀ v ∈ T, G.hasEdge w v = true := by
    intro v hv
    cases h : G.hasEdge w v with
    | true => rfl
    | false => exact absurd ⟨v, hv, h⟩ hno
  have hins : insert w T ∈ (G.nodes.toFinset.powerset).filter
      (fun T => S ⊆ T ∧ ∀ u ∈ T, ∀ v ∈ T, u ≠ v → G.hasEdge u v = true) := by
    rw [Finset.mem_filter, Finset.mem_powerset]
    refine ⟨?_, hST.trans (Finset.subset_insert w T), ?_⟩
    · intro v hv
      rcases Finset.mem_insert.mp hv with q | q
      · rw [q]; exact List.mem_toFinset.mpr hw
      · exact hTn q
    · intro u hu v hv huv
      rcases Finset.mem_insert.mp hu with q1 | q1 <;>
        rcases Finset.mem_insert.mp hv with q2 | q2
      · exact absurd (q1.trans q2.symm) huv
      · rw [q1]; exact hall v q2
      · rw [q2]; exact hasEdge_symm hG hw (hall u q1)
      · exact hTc u q1 v q2 huv
  have hle := hmax _ hins
  rw [Finset.card_insert_of_not_mem hwT] at hle
  omega

/-- The assertion loop of lines 75-80 succeeds when the nodes before `u` are below the
boundary. -/
theorem processedBelow_of (s : PX) (x u : Nat) (post : List Nat) :
    ∀ pre : List Nat, (∀ v ∈ pre, pos s v < x) →
      processedBelow s x u (pre ++ u :: post) = true := by
  intro pre
  induction pre with
  | nil =>
    intro _
    show (if u = u then true else _) = true
    rw [if_pos rfl]
  | cons v pre ih =>
    intro h
    show (if v = u then true
      else decide (pos s v < x) && processedBelow s x u (pre ++ u :: post)) = true
    by_cases c : v = u
    · rw [if_pos c]
    · rw [if_neg c, ih (fun w hw => h w (List.mem_cons_of_mem _ hw)),
        decide_eq_true (h v (List.mem_cons_self _ _))]
      rfl

/-- The driver loop of `run` reaches every beginning of the ordering, with the driver
invariant. -/
theorem driverAfter_spec (A : MaximalCliques) (order : List Nat) (fuel : Nat)
    (hG : A.G.Simple) (hO : order.Perm A.G.nodes) (hf : A.G.numberOfNodes ≤ fuel)
    {pre post : List Nat} (hord : order = pre ++ post) :
    ∃ d, A.driverAfter fuel order pre = some d ∧
      DInv (fun v => v ∈ order) order pre d := by
  obtain ⟨hnd, hn, hOK, hadj, hnb, hD⟩ := run_setup hG hO
  obtain ⟨d2, _, hd2, _, hD2, _⟩ := driverLoop_spec hOK hadj hnb (hn ▸ hf) hnd
    pre [] post ⟨initPX A.G order, 1, []⟩ (by rw [List.nil_append]; exact hord) hD
  exact ⟨d2, hd2, by simpa using hD2⟩

/-! ## The driver iteration: boundary, seeding and processed nodes -/

/-- C22: the seeding of a driver iteration. In `run` on a simple graph with a permutation
ordering and a sufficient budget, the loop reaches the iteration of every node `u`; with
`a` the partition array and the counters at the call of `tomita`, the nodes at the
positions `[xpbound - xcount, xpbound)` are exactly the neighbours of `u` that precede `u`
in the ordering, the nodes at `[xpbound, xpbound + pcount)` are exactly the neighbours
of `u` that follow `u`, and `u` is stored below `xpbound - xcount`, outside the window. -/
theorem driver_seeding (A : MaximalCliques) (orderedNodes : List Nat) (fuel : Nat)
    (pre : List Nat) (u : Nat) (post : List Nat)
    (hG : A.G.Simple) (hO : orderedNodes.Perm A.G.nodes) (hf : A.G.numberOfNodes ≤ fuel)
    (hord : orderedNodes = pre ++ u :: post) :
    ∃ (d : Driver) (a : Part), A.driverAfter fuel orderedNodes pre = some d ∧
      a = (A.G.forNeighborsOf u).foldl (neighborStep d.xpbound)
            ⟨swapNodeToPos d.px u (d.xpbound - 1), 0, 0⟩ ∧
      a.xcount + 1 ≤ d.xpbound ∧ d.xpbound + a.pcount ≤ a.px.pxvector.length ∧
      (∀ y, y ∈ seg a.px (d.xpbound - a.xcount) d.xpbound
        ↔ (y ∈ pre ∧ A.G.hasEdge u y = true)) ∧
      (∀ y, y ∈ seg a.px d.xpbound (d.xpbound + a.pcount)
        ↔ (y ∈ post ∧ A.G.hasEdge u y = true)) ∧
      pos a.px u < d.xpbound - a.xcount := by
  obtain ⟨d, hd, hD⟩ := driverAfter_spec A orderedNodes fuel hG hO hf hord
  obtain ⟨hnd, hn, hOK, hadj, hnb, _⟩ := run_setup hG hO
  obtain ⟨hxpb, hI1, hlen1, hpu1, hproc1, hPI⟩ := driver_seed hnb hnd hord hD
  have huV : u ∈ orderedNodes := by rw [hord]; simp
  have hbelow := driver_seed_below hI1 huV hpu1 hproc1
  have hnd2 : (pre ++ u :: post).Nodup := hord ▸ hnd
  have hu_pre : u ∉ pre := fun h =>
    (List.nodup_append.mp hnd2).2.2 h (List.mem_cons_self _ _)
  have hu_post : u ∉ post := (List.nodup_cons.mp (List.nodup_append.mp hnd2).2.1).1
  have hpost_pre : ∀ w, w ∈ post → w ∉ pre := fun w hw h =>
    (List.nodup_append.mp hnd2).2.2 h (List.mem_cons_of_mem _ hw)
  have hsplit : ∀ w, w ∈ orderedNodes ↔ (w ∈ pre ∨ w = u ∨ w ∈ post) := by
    intro w; rw [hord]; simp only [List.mem_append, List.mem_cons]
  have hself : u ∉ A.G.forNeighborsOf u := (hG.2 u (hO.mem_iff.mp huV)).2.1
  have hedge : ∀ y, A.G.hasEdge u y = true ↔ y ∈ A.G.forNeighborsOf u := by
    intro y
    unfold Graph.hasEdge
    rw [decide_eq_true_eq]
  refine ⟨d, _, hd, rfl, ?_⟩
  generalize (A.G.forNeighborsOf u).foldl (neighborStep d.xpbound)
    ⟨swapNodeToPos d.px u (d.xpbound - 1), 0, 0⟩ = a at hPI
  have hx := hPI.hx
  have hp := hPI.hp
  have hpb := hPI.hpb
  have hal : a.px.pxvector.length = orderedNodes.length := by rw [hPI.same.len, hlen1]
  have hcol : ∀ w, w ∈ orderedNodes → (w ∈ A.G.forNeighborsOf u ↔
      (d.xpbound - a.xcount ≤ pos a.px w ∧ pos a.px w < d.xpbound + a.pcount)) := by
    intro w hw
    have hlt := (hPI.inv.look w hw).2.1
    exact hPI.col w hw (Nat.zero_le _) (by omega)
  have hinX : ∀ w, w ∈ orderedNodes → (pos a.px w < d.xpbound ↔ (w ∈ pre ∨ w = u)) := by
    intro w hw
    have e := hPI.same.inX w hw
    have e2 := hbelow w hw
    rw [← e2, ← hxpb]
    omega
  have hupos : pos a.px u < d.xpbound - a.xcount := by
    have e1 := (hinX u huV).mpr (Or.inr rfl)
    have e2 := (hcol u huV).not.mp hself
    omega
  refine ⟨by omega, by omega, ?_, ?_, hupos⟩
  · intro y
    rw [mem_seg hPI.inv (by omega), hedge]
    constructor
    · rintro ⟨yV, y1, y2⟩
      have hc := (hcol y yV).mpr ⟨y1, by omega⟩
      rcases (hinX y yV).mp y2 with q | q
      · exact ⟨q, hc⟩
      · rw [q] at hc; exact absurd hc hself
    · rintro ⟨ypre, hc⟩
      have yV : y ∈ orderedNodes := (hsplit y).mpr (Or.inl ypre)
      have e := (hinX y yV).mpr (Or.inl ypre)
      exact ⟨yV, ((hcol y yV).mp hc).1, e⟩
  · intro y
    rw [mem_seg hPI.inv (by omega), hedge]
    constructor
    · rintro ⟨yV, y1, y2⟩
      have hc := (hcol y yV).mpr ⟨by omega, y2⟩
      have hn : ¬ (y ∈ pre ∨ y = u) := by
        rw [← hinX y yV]; omega
      rcases (hsplit y).mp yV with q | q | q
      · exact absurd (Or.inl q) hn
      · exact absurd (Or.inr q) hn
      · exact ⟨q, hc⟩
    · rintro ⟨ypost, hc⟩
      have yV : y ∈ orderedNodes := (hsplit y).mpr (Or.inr (Or.inr ypost))
      have hn : ¬ (y ∈ pre ∨ y = u) := by
        rintro (q | q)
        · exact hpost_pre y ypost q
        · rw [q] at ypost; exact hu_post ypost
      rw [← hinX y yV] at hn
      exact ⟨yV, by omega, ((hcol y yV).mp hc).2⟩

theorem driver_seeding_witness :
    ∃ (d : Driver) (a : Part),
      (MaximalCliques.new pathGraph).driverAfter 3 [0, 1, 2] [0] = some d ∧
      a = ((MaximalCliques.new pathGraph).G.forNeighborsOf 1).foldl (neighborStep d.xpbound)
            ⟨swapNodeToPos d.px 1 (d.xpbound - 1), 0, 0⟩ ∧
      a.xcount + 1 ≤ d.xpbound ∧ d.xpbound + a.pcount ≤ a.px.pxvector.length ∧
      (∀ y, y ∈ seg a.px (d.xpbound - a.xcount) d.xpbound
        ↔ (y ∈ [0] ∧ (MaximalCliques.new pathGraph).G.hasEdge 1 y = true)) ∧
      (∀ y, y ∈ seg a.px d.xpbound (d.xpbound + a.pcount)
        ↔ (y ∈ [2] ∧ (MaximalCliques.new pathGraph).G.hasEdge 1 y = true)) ∧
      pos a.px 1 < d.xpbound - a.xcount :=
  driver_seeding (MaximalCliques.new pathGraph) [0, 1, 2] 3 [0] 1 [2]
    (by decide) (by decide) (by decide) (by decide)

/-- C23: the processed nodes stay below the boundary. In `run` on a simple graph with a
permutation ordering and a sufficient budget, in the iteration of every node `u`, right
after `u` has been moved to the position `xpbound - 1`: the assertion loop of lines
75-80 succeeds, every node that precedes `u` in the ordering is at a position below
`xpbound - 1`, the positions `[0, xpbound - 1)` hold exactly the nodes that precede `u`,
and `u` is at the position `xpbound - 1`. -/
theorem processed_below_boundary (A : MaximalCliques) (orderedNodes : List Nat) (fuel : Nat)
    (pre : List Nat) (u : Nat) (post : List Nat)
    (hG : A.G.Simple) (hO : orderedNodes.Perm A.G.nodes) (hf : A.G.numberOfNodes ≤ fuel)
    (hord : orderedNodes = pre ++ u :: post) :
    ∃ d, A.driverAfter fuel orderedNodes pre = some d ∧
      processedBelow (swapNodeToPos d.px u (d.xpbound - 1)) d.xpbound u orderedNodes = true ∧
      (∀ v ∈ pre, (swapNodeToPos d.px u (d.xpbound - 1)).pxlookup.getD v 0 < d.xpbound - 1) ∧
      (∀ y, y ∈ seg (swapNodeToPos d.px u (d.xpbound - 1)) 0 (d.xpbound - 1) ↔ y ∈ pre) ∧
      (swapNodeToPos d.px u (d.xpbound - 1)).pxvector.getD (d.xpbound - 1) 0 = u := by
  obtain ⟨d, hd, hD⟩ := driverAfter_spec A orderedNodes fuel hG hO hf hord
  obtain ⟨hnd, hn, hOK, hadj, hnb, _⟩ := run_setup hG hO
  obtain ⟨hxpb, hI1, hlen1, hpu1, hproc1, _⟩ := driver_seed hnb hnd hord hD
  have huV : u ∈ orderedNodes := by rw [hord]; simp
  have hpreV : ∀ v ∈ pre, v ∈ orderedNodes := by
    intro v hv; rw [hord]; exact List.mem_append_left _ hv
  have hk : pre.length < orderedNodes.length := by
    rw [hord]; simp only [List.length_append, List.length_cons]; omega
  have hlow : ∀ v ∈ pre, pos (swapNodeToPos d.px u (d.xpbound - 1)) v < d.xpbound - 1 := by
    intro v hv
    have := (hproc1 v (hpreV v hv)).mpr hv
    omega
  refine ⟨d, hd, ?_, hlow, ?_, ?_⟩
  · rw [hord]
    apply processedBelow_of
    intro v hv
    have := hlow v hv
    omega
  · intro y
    rw [mem_seg hI1 (by omega)]
    constructor
    · rintro ⟨yV, _, y2⟩
      exact (hproc1 y yV).mp (by omega)
    · intro hy
      have := (hproc1 y (hpreV y hy)).mpr hy
      exact ⟨hpreV y hy, Nat.zero_le _, by omega⟩
  · have g := (hI1.look u huV).2.2
    rw [hpu1] at g
    rw [hxpb, Nat.add_sub_cancel]
    rw [hxpb, Nat.add_sub_cancel] at g
    exact g

theorem processed_below_boundary_witness :
    ∃ d, (MaximalCliques.new pathGraph).driverAfter 3 [1, 0, 2] [1, 0] = some d ∧
      processedBelow (swapNodeToPos d.px 2 (d.xpbound - 1)) d.xpbound 2 [1, 0, 2] = true ∧
      (∀ v ∈ [1, 0], (swapNodeToPos d.px 2 (d.xpbound - 1)).pxlookup.getD v 0 < d.xpbound - 1) ∧
      (∀ y, y ∈ seg (swapNodeToPos d.px 2 (d.xpbound - 1)) 0 (d.xpbound - 1) ↔ y ∈ [1, 0]) ∧
      (swapNodeToPos d.px 2 (d.xpbound - 1)).pxvector.getD (d.xpbound - 1) 0 = 2 :=
  processed_below_boundary (MaximalCliques.new pathGraph) [1, 0, 2] 3 [1, 0] 2 []
    (by decide) (by decide) (by decide) (by decide)

/-! ## Safety, termination and depth of the recursion -/

/-- C24: window-bound safety. On a simple graph with a permutation ordering and a budget
of at least the number of nodes, `run` completes and every record of its trace is in
bounds: every invocation of `tomita` has `xbound ≤ xpbound ≤ pbound ≤ pxvector.size()`
on entry, before every recursive call `xpbound + pcount ≤ pbound` and
`xbound + xcount ≤ xpbound`, and every position handed to `swapNodeToPos` (computed in
the integers) lies in the window `[xbound, pbound)` of the invocation that makes the
call, for the driver in `[0, pxvector.size())`; no record reports a used-up budget. -/
theorem window_bound_safety (A : MaximalCliques) (orderedNodes : List Nat) (fuel : Nat)
    (hG : A.G.Simple) (hO : orderedNodes.Perm A.G.nodes) (hf : A.G.numberOfNodes ≤ fuel) :
    ∃ B, A.run fuel orderedNodes = some B ∧
      ∀ e ∈ A.runTrace fuel orderedNodes, e.inBounds := by
  obtain ⟨B, hB, _⟩ := run_spec A orderedNodes fuel hG hO hf
  exact ⟨B, hB, fun e he => (runTrace_good A orderedNodes fuel hG hO hf e he).1⟩

theorem window_bound_safety_witness :
    ∃ B, (MaximalCliques.new tieGraph).run 8 [0, 1, 2, 3, 4, 5, 6, 7] = some B ∧
      ∀ e ∈ (MaximalCliques.new tieGraph).runTrace 8 [0, 1, 2, 3, 4, 5, 6, 7], e.inBounds :=
  window_bound_safety (MaximalCliques.new tieGraph) [0, 1, 2, 3, 4, 5, 6, 7] 8
    (by decide) (by decide) (by decide)

/-- C25: termination. A call of `tomita` on a partition array of distinct nodes with the
bijection invariant, a one-arc out-graph, window bounds `xb ≤ xpb ≤ pb ≤ size` and a
budget above the size of P returns; its trace is complete, and every recursive call in
it is made with `pcount < pbound - xpbound`, on a strictly smaller P. Hence `run` on a
simple graph with a permutation ordering completes with the number of nodes as budget,
and every recursive call of its trace is made on a strictly smaller P. -/
theorem tomita_terminates (out : StaticOutGraph) (fuel depth : Nat) (m : Mem)
    (xb xpb pb : Nat) (hB : Bijection m.px) (hN : m.px.pxvector.Nodup)
    (hA : OneArc out m.px.pxvector) (h1 : xb ≤ xpb) (h2 : xpb ≤ pb)
    (h3 : pb ≤ m.px.pxvector.length) (hf : pb - xpb < fuel) :
    (∃ m2, tomita out fuel m xb xpb pb = some m2) ∧
    (∀ e ∈ tomitaTrace out fuel depth m xb xpb pb, e.shrinks) ∧
    (∀ (A : MaximalCliques) (orderedNodes : List Nat), A.G.Simple →
      orderedNodes.Perm A.G.nodes →
      ∃ B, A.run A.G.numberOfNodes orderedNodes = some B ∧
        ∀ e ∈ A.runTrace A.G.numberOfNodes orderedNodes, e.shrinks) := by
  refine ⟨?_, ?_, ?_⟩
  · obtain ⟨m2, hm2, _⟩ := tomita_post hB hN hA h1 h2 h3 hf
    exact ⟨m2, hm2⟩
  · intro e he
    have hg : e.good [] out.adjacent False :=
      tomitaTrace_good (outOK_of_oneArc hA) False (fun hc => hc.elim)
        (fun u v _ _ h => (adjacent_iff out u v).mpr h) fuel depth m xb xpb pb
        (inv_of_bijection hB hN) h1 h2 h3 hf (fun hc => hc.elim) e he
    exact hg.2.1
  · intro A order hG hO
    obtain ⟨B, hB2, _⟩ := run_spec A order A.G.numberOfNodes hG hO le_rfl
    exact ⟨B, hB2, fun e he => (runTrace_good A order _ hG hO le_rfl e he).2.1⟩

theorem tomita_terminates_witness :
    ((∃ m2, tomita tieOut 8 ⟨tieSeed, [2], []⟩ 1 3 8 = some m2) ∧
      (∀ e ∈ tomitaTrace tieOut 8 0 ⟨tieSeed, [2], []⟩ 1 3 8, e.shrinks) ∧
      (∀ (A : MaximalCliques) (orderedNodes : List Nat), A.G.Simple →
        orderedNodes.Perm A.G.nodes →
        ∃ B, A.run A.G.numberOfNodes orderedNodes = some B ∧
          ∀ e ∈ A.runTrace A.G.numberOfNodes orderedNodes, e.shrinks)) ∧
    (tomitaTrace tieOut 8 0 ⟨tieSeed, [2], []⟩ 1 3 8).length = 23 ∧
    ((tomitaTrace tieOut 8 0 ⟨tieSeed, [2], []⟩ 1 3 8).filterMap fun e =>
        match e with
        | Event.recurse _ xpbound pbound _ pcount => some (pcount, pbound - xpbound)
        | _ => none)
      = [(2, 5), (1, 2), (0, 1), (1, 4)] :=
  ⟨tomita_terminates tieOut 8 0 ⟨tieSeed, [2], []⟩ 1 3 8 (by decide) (by decide)
    (by decide) (by decide) (by decide) (by decide) (by decide), by decide, by decide⟩

/-- C26: the depth of the recursion. On a simple graph with a permutation ordering and a
budget of at least the number of nodes, `run` completes, and at every invocation of
`tomita` in its trace the depth is the length of `r` minus one, `r` consists of distinct
nodes of the graph that are pairwise joined by an edge, every node of the window is
joined by an edge to every node of `r`, and the depth is below the length of some entry
of the final `result`. -/
theorem recursion_depth_bound (A : MaximalCliques) (orderedNodes : List Nat) (fuel : Nat)
    (hG : A.G.Simple) (hO : orderedNodes.Perm A.G.nodes) (hf : A.G.numberOfNodes ≤ fuel) :
    ∃ B, A.run fuel orderedNodes = some B ∧
      ∀ e ∈ A.runTrace fuel orderedNodes, e.onClique A.G.nodes A.G.hasEdge ∧
        ∀ (depth xb xpb pb : Nat) (px : PX) (r : List Nat),
          e = Event.call depth xb xpb pb px r → ∃ c ∈ B.result, depth < c.length := by
  obtain ⟨B, hB, _, hmem, hcn⟩ := run_sets A orderedNodes fuel hG hO hf
  refine ⟨B, hB, ?_⟩
  intro e he
  have hon := (runTrace_good A orderedNodes fuel hG hO hf e he).2.2 trivial
  refine ⟨hon, ?_⟩
  intro depth xb xpb pb px r hev
  rw [hev] at hon
  obtain ⟨hd, hrn, hrm, hrc, _⟩ := hon
  have hne : r.toFinset.Nonempty := by
    cases r with
    | nil => simp at hd
    | cons x r => exact ⟨x, by simp⟩
  obtain ⟨T, hST, hT⟩ := clique_extends hG hne
    (fun v hv => hrm v (List.mem_toFinset.mp hv))
    (fun u hu v hv huv => hrc u (List.mem_toFinset.mp hu) v (List.mem_toFinset.mp hv) huv)
  obtain ⟨c, hc, hcT⟩ := List.mem_map.mp ((hmem T).mpr hT)
  refine ⟨c, hc, ?_⟩
  have h1 : r.toFinset.card = r.length := List.toFinset_card_of_nodup hrn
  have h2 : c.toFinset.card = c.length := List.toFinset_card_of_nodup (hcn c hc)
  have h3 : r.toFinset.card ≤ c.toFinset.card := by
    rw [hcT]; exact Finset.card_le_card hST
  omega

theorem recursion_depth_bound_witness :
    ∃ B, (MaximalCliques.new tieGraph).run 8 [0, 1, 2, 3, 4, 5, 6, 7] = some B ∧
      ∀ e ∈ (MaximalCliques.new tieGraph).runTrace 8 [0, 1, 2, 3, 4, 5, 6, 7],
        e.onClique (MaximalCliques.new tieGraph).G.nodes
          (MaximalCliques.new tieGraph).G.hasEdge ∧
        ∀ (depth xb xpb pb : Nat) (px : PX) (r : List Nat),
          e = Event.call depth xb xpb pb px r → ∃ c ∈ B.result, depth < c.length :=
  recursion_depth_bound (MaximalCliques.new tieGraph) [0, 1, 2, 3, 4, 5, 6, 7] 8
    (by decide) (by decide) (by decide)

/-- C27: the base cases of `tomita`. With a budget of at least one, when
`xbound == pbound` the call appends one copy of `r` to `result`, and when
`xpbound == pbound` with `xbound` different from `pbound` it appends nothing; in both
cases the partition array and `r` are unchanged, and the trace of the call is the record
of the invocation alone, so no swap and no recursive call is made. -/
theorem tomita_base_cases (out : StaticOutGraph) (fuel depth : Nat) (m : Mem)
    (xb xpb pb : Nat) (hf : 0 < fuel) (hbase : xb = pb ∨ xpb = pb) :
    tomita out fuel m xb xpb pb
      = some ⟨m.px, m.r, if xb = pb then m.result ++ [m.r] else m.result⟩ ∧
    tomitaTrace out fuel depth m xb xpb pb = [Event.call depth xb xpb pb m.px m.r] := by
  obtain ⟨k, rfl⟩ := Nat.exists_eq_succ_of_ne_zero (Nat.pos_iff_ne_zero.mp hf)
  rw [tomita_succ, tomitaTrace_succ]
  by_cases h : xb = pb
  · rw [if_pos h, if_pos h, if_pos h]
    exact ⟨rfl, rfl⟩
  · have h2 : xpb = pb := hbase.resolve_left h
    rw [if_neg h, if_neg h, if_neg h, if_pos h2, if_pos h2]
    exact ⟨rfl, rfl⟩

theorem tomita_base_cases_witness :
    tomita tieOut 1 ⟨tieState, [2, 1], [[0, 2]]⟩ 3 3 3
      = some ⟨tieState, [2, 1], if 3 = 3 then [[0, 2]] ++ [[2, 1]] else [[0, 2]]⟩ ∧
    tomitaTrace tieOut 1 1 ⟨tieState, [2, 1], [[0, 2]]⟩ 3 3 3
      = [Event.call 1 3 3 3 tieState [2, 1]] :=
  tomita_base_cases tieOut 1 1 ⟨tieState, [2, 1], [[0, 2]]⟩ 3 3 3 (by decide) (by decide)

end NetworKit
